import Mathlib

/-!
The class `CacheMap` of drogon (lib/inc/drogon/CacheMap.h).

A shallow embedding of the expiring map and its timer wheel, followed by the properties
proved about it.

The embedding:

* `std::map<T1, MapValue>` is a function from keys to optional entries; `map_[key]`
  reads through `CacheMap.at` and writes through `CacheMap.setEntry`.
* `std::deque<std::set<std::shared_ptr<CallbackEntry>>>` is a list of buckets. A bucket
  is a list of objects without repetition (`bucketInsert`); when a bucket is destroyed
  its pointers are released in the order of the list.
* A `CallbackEntry` object is the pair of its allocation number and the key captured by
  the closure that `eraseAfter` stores in it. Two pointers are equal when the objects
  are; in every reachable state this is the same as equal allocation numbers
  (`Reachable.ids`). The reference count of an object is the number of buckets of the
  wheel that hold it, so `weak_ptr::lock` succeeds exactly when some bucket holds the
  object (`alive`), and the destructor runs the closure when the last bucket holding the
  object is destroyed (`release`).
* `size_t` is `Nat` read modulo `2 ^ 64` and `int` is `Int` with 32 bits: the narrowing
  `size_t -> int` at the call of `eraseAfter` and in the locals of `operator[]` and
  `find` is `toInt`, the conversion `size_t(...)` is `toSizeT`, and `/` on `int` is
  `Int.tdiv`.
* A user callback is a number. Invoking the callback held by the entry of `key` appends
  `(key, number)` to the ghost trace `invoked`.
* The operations run one at a time: the two mutexes are not modelled.
* A failing `assert`, an index outside the deque, `front()` on an empty deque and a
  division by zero are `Fault`s.
-/

namespace drogon

/-- Ways in which an operation can leave defined behaviour. -/
inductive Fault where
  | assertFailed
  | outOfRange
  | emptyQueue
  | divideByZero
deriving DecidableEq, Repr

/-- The object behind a `CallbackEntryPtr`: `id` is its allocation number, `key` the key
captured by the closure `cb_` built in `eraseAfter`. -/
structure CallbackEntry (K : Type) where
  id : Nat
  key : K
deriving DecidableEq, Repr

/-- The type `std::set<CallbackEntryPtr>`. -/
abbrev CallbackBucket (K : Type) := List (CallbackEntry K)

/-- The type `std::deque<CallbackBucket>`. -/
abbrev CallbackBucketQueue (K : Type) := List (CallbackBucket K)

/-- The struct `CacheMap::MapValue`. An empty `std::function` and an empty `weak_ptr`
are `none`. -/
structure MapValue (K V : Type) where
  timeout : Nat
  value : V
  _timeoutCallback : Option Nat
  _weakEntryPtr : Option (CallbackEntry K)

/-- The members of `CacheMap`, with two ghost fields: `allocated` counts the
`CallbackEntry` objects made so far and `invoked` is the trace of user callbacks. -/
structure CacheMap (K V : Type) where
  map_ : K → Option (MapValue K V)
  event_bucket_queue_ : CallbackBucketQueue K
  bucketCount_ : Int
  timeInterval_ : Int
  _limit : Int
  allocated : Nat
  invoked : List (K × Nat)

/-- Conversion of a `size_t` to `int` (two's complement, 32 bits). -/
def toInt (n : Nat) : Int :=
  if n % 2 ^ 32 < 2 ^ 31 then ((n % 2 ^ 32 : Nat) : Int) else ((n % 2 ^ 32 : Nat) : Int) - 2 ^ 32

/-- Conversion of an `int` to `size_t` (64 bits). -/
def toSizeT (i : Int) : Nat := (i % 2 ^ 64).toNat

/-- A `MapValue` as `map_[key]` default-constructs it. -/
def MapValue.fresh {K V : Type} [Inhabited V] : MapValue K V :=
  { timeout := 0, value := default, _timeoutCallback := none, _weakEntryPtr := none }

/-- The entry `map_[key]`, default-constructed when the key is absent. -/
def CacheMap.at {K V : Type} [Inhabited V] (s : CacheMap K V) (key : K) : MapValue K V :=
  (s.map_ key).getD MapValue.fresh

/-- Assignment to `map_[key]`. -/
def CacheMap.setEntry {K V : Type} [DecidableEq K] (s : CacheMap K V) (key : K)
    (v : MapValue K V) : CacheMap K V :=
  { s with map_ := fun k => if k = key then some v else s.map_ k }

/-- The call `map_.erase(key)`. -/
def CacheMap.eraseKey {K V : Type} [DecidableEq K] (s : CacheMap K V) (key : K) :
    CacheMap K V :=
  { s with map_ := fun k => if k = key then none else s.map_ k }

/-- The call `std::set::insert`: nothing changes when the pointer is already there. -/
def bucketInsert {K : Type} [DecidableEq K] (e : CallbackEntry K) (b : CallbackBucket K) :
    CallbackBucket K :=
  if e ∈ b then b else b ++ [e]

/-- The statement `event_bucket_queue_[i].insert(e)` for an index inside the queue. -/
def pushAt {K : Type} [DecidableEq K] (e : CallbackEntry K) :
    Nat → CallbackBucketQueue K → CallbackBucketQueue K
  | _, [] => []
  | 0, b :: q => bucketInsert e b :: q
  | i + 1, b :: q => b :: pushAt e i q

/-- Some bucket of the queue owns the object: its reference count is positive. -/
def alive {K : Type} [DecidableEq K] (e : CallbackEntry K) (q : CallbackBucketQueue K) :
    Bool :=
  q.any (fun b => decide (e ∈ b))

/-- The call `weak_ptr::lock`. -/
def lock {K : Type} [DecidableEq K] (w : Option (CallbackEntry K))
    (q : CallbackBucketQueue K) : Option (CallbackEntry K) :=
  match w with
  | some e => if alive e q then some e else none
  | none => none

/-- The trace left by invoking a `std::function` held for `key`, when it is not empty. -/
def callbackTrace {K : Type} (key : K) (cb : Option Nat) : List (K × Nat) :=
  match cb with
  | some c => [(key, c)]
  | none => []

/-- The closure `cb` of `eraseAfter`, run by `~CallbackEntry`. -/
def fire {K V : Type} [DecidableEq K] (key : K) (s : CacheMap K V) : CacheMap K V :=
  match s.map_ key with
  | some value =>
    if value.timeout > 0 then
      { s with invoked := s.invoked ++ callbackTrace key value._timeoutCallback }.eraseKey key
    else s
  | none => s

/-- The variable `bucketIndexToPush` of `eraseAfter`. -/
def bucketIndexToPush (delay timeInterval : Int) (queue_size : Nat) : Nat :=
  let bucketNum := (toSizeT (delay.tdiv timeInterval) + 1) % 2 ^ 64
  if bucketNum ≥ queue_size then (queue_size + 2 ^ 64 - 1) % 2 ^ 64 else bucketNum

/-- The method `CacheMap::eraseAfter`. -/
def CacheMap.eraseAfter {K V : Type} [DecidableEq K] [Inhabited V] (delay : Int) (key : K)
    (s : CacheMap K V) : Except Fault (CacheMap K V) :=
  if (s.map_ key).isNone then .error .assertFailed
  else if s.timeInterval_ = 0 then .error .divideByZero
  else
    let i := bucketIndexToPush delay s.timeInterval_ s.event_bucket_queue_.length
    if i < s.event_bucket_queue_.length then
      match lock (s.at key)._weakEntryPtr s.event_bucket_queue_ with
      | some entryPtr =>
        .ok { s with event_bucket_queue_ := pushAt entryPtr i s.event_bucket_queue_ }
      | none =>
        let entryPtr : CallbackEntry K := { id := s.allocated, key := key }
        let s1 := s.setEntry key { s.at key with _weakEntryPtr := some entryPtr }
        .ok { s1 with
              allocated := s.allocated + 1
              event_bucket_queue_ := pushAt entryPtr i s.event_bucket_queue_ }
    else .error .outOfRange

/-- The constructor `CacheMap::CacheMap`, without the registration of the timer. -/
def CacheMap.new {K V : Type} (interval limit : Int) : CacheMap K V :=
  { map_ := fun _ => none
    event_bucket_queue_ := List.replicate (toSizeT (limit.tdiv interval + 1)) []
    bucketCount_ := limit.tdiv interval + 1
    timeInterval_ := interval
    _limit := limit
    allocated := 0
    invoked := [] }

/-- The destructor of the local `tmp` of the timer closure: every pointer of the bucket
is released, and an object that no bucket of the queue holds any more runs its closure. -/
def release {K V : Type} [DecidableEq K] (tmp : CallbackBucket K) (s : CacheMap K V) :
    CacheMap K V :=
  tmp.foldl (fun st e => if alive e st.event_bucket_queue_ then st else fire e.key st) s

/-- The closure given to `runEvery` in the constructor: one rotation of the wheel. -/
def CacheMap.tick {K V : Type} [DecidableEq K] (s : CacheMap K V) :
    Except Fault (CacheMap K V) :=
  match s.event_bucket_queue_ with
  | [] => .error .emptyQueue
  | tmp :: rest => .ok (release tmp { s with event_bucket_queue_ := rest ++ [[]] })

/-- The method `CacheMap::insert`. -/
def CacheMap.insert {K V : Type} [DecidableEq K] [Inhabited V] (key : K) (value : V)
    (timeout : Nat) (timeoutCallback : Option Nat) (s : CacheMap K V) :
    Except Fault (CacheMap K V) :=
  if timeout > 0 then
    let s1 := s.setEntry key { s.at key with value := value }
    let s2 := s1.setEntry key { s1.at key with timeout := timeout }
    let s3 := s2.setEntry key { s2.at key with _timeoutCallback := timeoutCallback }
    s3.eraseAfter (toInt timeout) key
  else
    let s1 := s.setEntry key { s.at key with value := value }
    let s2 := s1.setEntry key { s1.at key with timeout := timeout }
    let s3 := s2.setEntry key { s2.at key with _timeoutCallback := none }
    .ok (s3.setEntry key { s3.at key with _weakEntryPtr := none })

/-- The method `CacheMap::operator[]`; the reference it returns is read at once. -/
def CacheMap.operatorIndex {K V : Type} [DecidableEq K] [Inhabited V] (key : K)
    (s : CacheMap K V) : Except Fault (V × CacheMap K V) :=
  let timeout : Int := if (s.map_ key).isSome then toInt (s.at key).timeout else 0
  let after : Except Fault (CacheMap K V) :=
    if timeout > 0 then s.eraseAfter timeout key else .ok s
  match after with
  | .error f => .error f
  | .ok s1 => .ok ((s1.at key).value, s1.setEntry key (s1.at key))

/-- The method `CacheMap::find`. -/
def CacheMap.find {K V : Type} [DecidableEq K] [Inhabited V] (key : K)
    (s : CacheMap K V) : Except Fault (Bool × CacheMap K V) :=
  let timeout : Int := if (s.map_ key).isSome then toInt (s.at key).timeout else 0
  let flag : Bool := (s.map_ key).isSome
  let after : Except Fault (CacheMap K V) :=
    if timeout > 0 then s.eraseAfter timeout key else .ok s
  match after with
  | .error f => .error f
  | .ok s1 => .ok (flag, s1)

/-- The method `CacheMap::erase`. -/
def CacheMap.erase {K V : Type} [DecidableEq K] (key : K) (s : CacheMap K V) :
    CacheMap K V :=
  s.eraseKey key

/-- A call of one public method, or one firing of the timer. -/
inductive Op (K V : Type) where
  | insert (key : K) (value : V) (timeout : Nat) (timeoutCallback : Option Nat)
  | operatorIndex (key : K)
  | find (key : K)
  | erase (key : K)
  | tick

/-- The state after one call; the value a method returns is dropped. -/
def CacheMap.step {K V : Type} [DecidableEq K] [Inhabited V] (s : CacheMap K V) :
    Op K V → Except Fault (CacheMap K V)
  | .insert key value timeout cb => s.insert key value timeout cb
  | .operatorIndex key => (s.operatorIndex key).map Prod.snd
  | .find key => (s.find key).map Prod.snd
  | .erase key => .ok (s.erase key)
  | .tick => s.tick

/-- The state after a sequence of calls, stopping at the first fault. -/
def CacheMap.run {K V : Type} [DecidableEq K] [Inhabited V] (s : CacheMap K V) :
    List (Op K V) → Except Fault (CacheMap K V)
  | [] => .ok s
  | op :: ops =>
    match s.step op with
    | .error f => .error f
    | .ok s1 => s1.run ops

/-- The state after `n` firings of the timer and nothing else. -/
def CacheMap.ticks {K V : Type} [DecidableEq K] [Inhabited V] (s : CacheMap K V) (n : Nat) :
    Except Fault (CacheMap K V) :=
  s.run (List.replicate n Op.tick)

/-- The bucket at position `i` of the queue; empty beyond its end. -/
def bucketAt {K : Type} : CallbackBucketQueue K → Nat → CallbackBucket K
  | [], _ => []
  | b :: _, 0 => b
  | _ :: q, i + 1 => bucketAt q i

/-- The user callbacks invoked so far on behalf of `key`, oldest first. -/
def CacheMap.invokedFor {K V : Type} [DecidableEq K] (s : CacheMap K V) (key : K) :
    List (K × Nat) :=
  s.invoked.filter (fun p => decide (p.1 = key))

/-- The key a call names; the timer names none. -/
def Op.target {K V : Type} : Op K V → Option K
  | .insert key _ _ _ => some key
  | .operatorIndex key => some key
  | .find key => some key
  | .erase key => some key
  | .tick => none

/-- The number of firings of the timer in a sequence of calls. -/
def tickCount {K V : Type} : List (Op K V) → Nat
  | [] => 0
  | .tick :: ops => tickCount ops + 1
  | _ :: ops => tickCount ops

/-- The entry of a key after its closure has run, from the entry before. -/
def firedEntry {K V : Type} (m : Option (MapValue K V)) : Option (MapValue K V) :=
  match m with
  | some value => if value.timeout > 0 then none else some value
  | none => none

/-- The callbacks the closure of a key invokes, from the entry before it runs. -/
def firedTrace {K V : Type} (key : K) (m : Option (MapValue K V)) : List (K × Nat) :=
  match m with
  | some value => if value.timeout > 0 then callbackTrace key value._timeoutCallback else []
  | none => []

/-- The relation between the states before and after a successful `eraseAfter` for an
entry `v` of `key`: the object `e`, locked from the weak pointer of `v` or newly made,
is put in bucket `i`, and the entry points to it. -/
structure Scheduled {K V : Type} [DecidableEq K] (s : CacheMap K V) (key : K)
    (v : MapValue K V) (i : Nat) (e : CallbackEntry K) (s1 : CacheMap K V) : Prop where
  token : lock v._weakEntryPtr s.event_bucket_queue_ = some e ∨
    (lock v._weakEntryPtr s.event_bucket_queue_ = none ∧ e = { id := s.allocated, key := key })
  index_lt : i < s.event_bucket_queue_.length
  queue : s1.event_bucket_queue_ = pushAt e i s.event_bucket_queue_
  entry : s1.map_ key = some { v with _weakEntryPtr := some e }
  others : ∀ k, k ≠ key → s1.map_ k = s.map_ k
  invoked : s1.invoked = s.invoked
  interval : s1.timeInterval_ = s.timeInterval_
  params : s1._limit = s._limit ∧ s1.bucketCount_ = s.bucketCount_
  count : s1.allocated =
    if (lock v._weakEntryPtr s.event_bucket_queue_).isSome then s.allocated
    else s.allocated + 1

/-- What a call that names `key` may change: the entry of `key`, and one bucket, which
may gain an object made for `key`. -/
structure Frame {K V : Type} [DecidableEq K] (key : K) (s s1 : CacheMap K V) : Prop where
  others : ∀ k, k ≠ key → s1.map_ k = s.map_ k
  invoked : s1.invoked = s.invoked
  interval : s1.timeInterval_ = s.timeInterval_
  params : s1._limit = s._limit ∧ s1.bucketCount_ = s.bucketCount_
  queue : s1.event_bucket_queue_ = s.event_bucket_queue_ ∨
    ∃ e i, e.key = key ∧ i < s.event_bucket_queue_.length ∧
      s1.event_bucket_queue_ = pushAt e i s.event_bucket_queue_

/-- What one firing of the timer does: every bucket moves one place to the front, and
the closure of a key runs exactly when an object of that key sat in the front bucket and
in no other. -/
structure Rotated {K V : Type} [DecidableEq K] (s s1 : CacheMap K V) : Prop where
  queue : ∀ i, bucketAt s1.event_bucket_queue_ i = bucketAt s.event_bucket_queue_ (i + 1)
  length : s1.event_bucket_queue_.length = s.event_bucket_queue_.length
  interval : s1.timeInterval_ = s.timeInterval_
  params : s1._limit = s._limit ∧ s1.bucketCount_ = s.bucketCount_
  allocated : s1.allocated = s.allocated
  keep : ∀ k, (∀ x ∈ bucketAt s.event_bucket_queue_ 0, x.key = k →
      ∃ i, x ∈ bucketAt s.event_bucket_queue_ (i + 1)) →
    s1.map_ k = s.map_ k ∧ s1.invokedFor k = s.invokedFor k
  fired : ∀ k, (∃ x ∈ bucketAt s.event_bucket_queue_ 0, x.key = k ∧
      ∀ i, x ∉ bucketAt s.event_bucket_queue_ (i + 1)) →
    s1.map_ k = firedEntry (s.map_ k) ∧
      s1.invokedFor k = s.invokedFor k ++ firedTrace k (s.map_ k)
  either : ∀ k, (s1.map_ k = s.map_ k ∧ s1.invokedFor k = s.invokedFor k) ∨
    (s1.map_ k = firedEntry (s.map_ k) ∧
      s1.invokedFor k = s.invokedFor k ++ firedTrace k (s.map_ k))
  sub : ∀ k v, s1.map_ k = some v → s.map_ k = some v

/-- No bucket of the wheel holds an object made for `key`. -/
def Unscheduled {K V : Type} (s : CacheMap K V) (key : K) : Prop :=
  ∀ b ∈ s.event_bucket_queue_, ∀ x ∈ b, x.key ≠ key

/-- A sequence of calls none of which names `key`; firings of the timer are allowed. -/
def Avoids {K V : Type} (key : K) (ops : List (Op K V)) : Prop :=
  ∀ op ∈ ops, op.target ≠ some key

/-- The state of a map that was built and then driven by a sequence of calls; the map
itself when a call faults. -/
def CacheMap.after {K V : Type} [DecidableEq K] [Inhabited V] (s : CacheMap K V)
    (ops : List (Op K V)) : CacheMap K V :=
  match s.run ops with
  | .ok s1 => s1
  | .error _ => s

/-- The bucket the specification names for a timeout `t`: one more than the whole
number of periods in `t`, or the last bucket when that is not below the capacity. -/
def specBucket (t : Nat) (interval : Int) (capacity : Nat) : Nat :=
  if ((t : Int) / interval).toNat + 1 < capacity then ((t : Int) / interval).toNat + 1
  else capacity - 1

/-- The effect of scheduling `key` on the wheel, `w` being the weak pointer of its entry
before the call. The object `e` of the key is the one `w` locks, or a new object when `w`
locks none, and the entry points to `e` afterwards. Bucket `i` holds `e` afterwards: it is
the bucket as it was when that held `e` already, and the bucket as it was with `e` added
otherwise. No other bucket changes. -/
structure PutIn {K V : Type} [DecidableEq K] (s s1 : CacheMap K V) (key : K)
    (w : Option (CallbackEntry K)) (e : CallbackEntry K) (i : Nat) : Prop where
  token_key : e.key = key
  token : lock w s.event_bucket_queue_ = some e ∨
    (lock w s.event_bucket_queue_ = none ∧ e = { id := s.allocated, key := key })
  weak : ∃ v1, s1.map_ key = some v1 ∧ v1._weakEntryPtr = some e
  index_lt : i < s.event_bucket_queue_.length
  length : s1.event_bucket_queue_.length = s.event_bucket_queue_.length
  here : e ∈ bucketAt s1.event_bucket_queue_ i
  target : bucketAt s1.event_bucket_queue_ i =
    if e ∈ bucketAt s.event_bucket_queue_ i then bucketAt s.event_bucket_queue_ i
    else bucketAt s.event_bucket_queue_ i ++ [e]
  others : ∀ j, j ≠ i → bucketAt s1.event_bucket_queue_ j = bucketAt s.event_bucket_queue_ j

/-- The call is an `insert` for `key`. -/
def Op.insertsKey {K V : Type} [DecidableEq K] (key : K) : Op K V → Bool
  | .insert k _ _ _ => decide (k = key)
  | _ => false

/-- A sequence of calls and firings of the timer without an `insert` for `key`. -/
def NoInsert {K V : Type} [DecidableEq K] (key : K) (ops : List (Op K V)) : Prop :=
  ∀ op ∈ ops, op.insertsKey key = false

instance {K V : Type} [DecidableEq K] (key : K) (ops : List (Op K V)) :
    Decidable (NoInsert key ops) := by
  unfold NoInsert
  infer_instance

/-- Every object of `key` that the wheel holds is the one the entry of `key` points
to: no object made for an earlier entry of `key` is left. -/
def NoStale {K V : Type} [DecidableEq K] (s : CacheMap K V) (key : K) : Prop :=
  ∀ b ∈ s.event_bucket_queue_, ∀ x ∈ b, x.key = key →
    (s.map_ key).bind (fun v => v._weakEntryPtr) = some x

instance {K V : Type} [DecidableEq K] (s : CacheMap K V) (key : K) :
    Decidable (NoStale s key) := by
  unfold NoStale
  infer_instance

/-- The sequence has no `insert` or `erase` for `key`, and the timer fires at most `r`
times before the first `find` or `operator[]` on `key` and at most `gap` times between
one such access and the next. -/
def spaced {K V : Type} [DecidableEq K] (key : K) (gap : Nat) :
    Nat → List (Op K V) → Bool
  | _, [] => true
  | r, .tick :: ops => decide (0 < r) && spaced key gap (r - 1) ops
  | r, .find k :: ops => spaced key gap (if k = key then gap else r) ops
  | r, .operatorIndex k :: ops => spaced key gap (if k = key then gap else r) ops
  | r, .insert k _ _ _ :: ops => decide (k ≠ key) && spaced key gap r ops
  | r, .erase k :: ops => decide (k ≠ key) && spaced key gap r ops

/-- No bucket behind position `p` holds an object made for `key`. -/
def NoneBeyond {K V : Type} [DecidableEq K] (s : CacheMap K V) (key : K) (p : Nat) : Prop :=
  ∀ i, i < s.event_bucket_queue_.length →
    ∀ x ∈ bucketAt s.event_bucket_queue_ i, x.key = key → i ≤ p

instance {K V : Type} [DecidableEq K] (s : CacheMap K V) (key : K) (p : Nat) :
    Decidable (NoneBeyond s key p) := by
  unfold NoneBeyond
  infer_instance

/-- Every object made for `key` that the wheel holds is `e`, and no bucket behind
position `h` holds it. -/
def OnlyObject {K V : Type} [DecidableEq K] (s : CacheMap K V) (key : K)
    (e : CallbackEntry K) (h : Nat) : Prop :=
  ∀ i, i < s.event_bucket_queue_.length →
    ∀ x ∈ bucketAt s.event_bucket_queue_ i, x.key = key → x = e ∧ i ≤ h

instance {K V : Type} [DecidableEq K] (s : CacheMap K V) (key : K) (e : CallbackEntry K)
    (h : Nat) : Decidable (OnlyObject s key e h) := by
  unfold OnlyObject
  infer_instance

/-- The map of the worked example: interval 1, limit 5, natural numbers as keys and
values. -/
def sample : CacheMap Nat Nat := CacheMap.new 1 5

/-- The worked example after `insert(7, 1, 2, callback 9)`. -/
def sampleHeld : CacheMap Nat Nat := sample.after [.insert 7 1 2 (some 9)]

/-- The worked example after `insert(7, 1, 10, callback 9)`, a timeout above the
limit. -/
def sampleClamped : CacheMap Nat Nat := sample.after [.insert 7 1 10 (some 9)]

/-- The worked example after `insert(7, 1, 2 ^ 31)` and one firing of the timer: the
stored timeout does not fit `int`. -/
def sampleWide : CacheMap Nat Nat := sample.after [.insert 7 1 2147483648 (some 9), .tick]

/-- The worked example after `insert(7, 1, 5, callback 9)`, `erase(7)`, three firings
of the timer and `insert(7, 2, 5, callback 8)`: the object of the erased entry is still
in the wheel. -/
def sampleStale : CacheMap Nat Nat :=
  sample.after [.insert 7 1 5 (some 9), .erase 7, .tick, .tick, .tick, .insert 7 2 5 (some 8)]

/-- The worked example after `insert(7, 1, 2, callback 9)` and one firing of the timer:
the object of key 7 has moved from bucket 3 to bucket 2. -/
def sampleTicked : CacheMap Nat Nat := sample.after [.insert 7 1 2 (some 9), .tick]

/-- The worked example after `insert(7, 1, 5, callback 9)`, `erase(7)`, five firings of
the timer and `insert(7, 2, 5, callback 8)`: the object of the erased entry is in the
front bucket, the object of the new entry in the last one. -/
def sampleShadowed : CacheMap Nat Nat :=
  sample.after [.insert 7 1 5 (some 9), .erase 7, .tick, .tick, .tick, .tick, .tick,
    .insert 7 2 5 (some 8)]

/-- The worked example after `insert(7, 1, 4, callback 9)`. -/
def sampleLong : CacheMap Nat Nat := sample.after [.insert 7 1 4 (some 9)]

/-- What every constructed map keeps true: a positive period, a wheel with at least one
bucket, and weak pointers that refer to objects made for their own key. -/
structure WF {K V : Type} (s : CacheMap K V) : Prop where
  interval_pos : 0 < s.timeInterval_
  queue_ne : s.event_bucket_queue_ ≠ []
  weak_key : ∀ k v e, s.map_ k = some v → v._weakEntryPtr = some e → e.key = k

/-- The entry `v` of `key` waits for its one object `e`, which sits in bucket `p` and in
no other; `tr` is the trace of `key` so far. -/
structure Pending {K V : Type} [DecidableEq K] (key : K) (v : MapValue K V)
    (e : CallbackEntry K) (p : Nat) (tr : List (K × Nat)) (s : CacheMap K V) : Prop where
  wf : WF s
  entry : s.map_ key = some v
  positive : 0 < v.timeout
  token_key : e.key = key
  here : e ∈ bucketAt s.event_bucket_queue_ p
  only : ∀ i, ∀ x ∈ bucketAt s.event_bucket_queue_ i, x.key = key → x = e ∧ i = p
  trace : s.invokedFor key = tr

/-- The key has no entry and no object in the wheel; `tr` is its trace. -/
structure Gone {K V : Type} [DecidableEq K] (key : K) (tr : List (K × Nat))
    (s : CacheMap K V) : Prop where
  wf : WF s
  entry : s.map_ key = none
  unscheduled : Unscheduled s key
  trace : s.invokedFor key = tr

/-- The key has no entry, or one without a timeout: its closure would do nothing. `tr`
is the trace of the key. -/
structure Quiet {K V : Type} [DecidableEq K] (key : K) (tr : List (K × Nat))
    (s : CacheMap K V) : Prop where
  wf : WF s
  idle : ∀ v, s.map_ key = some v → v.timeout = 0
  trace : s.invokedFor key = tr

/-- The key has an entry with a positive timeout and the callback `c`, which has not
been invoked since the trace of the key was `tr`. -/
structure Armed {K V : Type} [DecidableEq K] (key : K) (c : Nat) (tr : List (K × Nat))
    (s : CacheMap K V) : Prop where
  wf : WF s
  entry : ∃ v, s.map_ key = some v ∧ 0 < v.timeout ∧ v._timeoutCallback = some c
  trace : s.invokedFor key = tr

/-- The entry of `key` has timeout `t`, points to the only object of `key` in the wheel,
and that object sits in a bucket at position `r` or later when `r > 0`; the period and
the capacity are `interval` and `capacity`. -/
structure Renewed {K V : Type} [DecidableEq K] (key : K) (t : Nat) (interval : Int)
    (capacity : Nat) (r : Nat) (s : CacheMap K V) : Prop where
  wf : WF s
  period : s.timeInterval_ = interval
  size : s.event_bucket_queue_.length = capacity
  entry : ∃ v, s.map_ key = some v ∧ v.timeout = t ∧
    (∀ i, ∀ x ∈ bucketAt s.event_bucket_queue_ i, x.key = key → v._weakEntryPtr = some x) ∧
    (r = 0 ∨ ∃ e p, v._weakEntryPtr = some e ∧ r ≤ p ∧ e ∈ bucketAt s.event_bucket_queue_ p)

/-- The objects of `key` sit in buckets up to position `p`. Either the entry of `key`
has a positive timeout, points to a live object and would leave the trace `cbt` when
removed, the trace of `key` being `tr`; or the entry has been removed and the trace is
`tr ++ cbt`. -/
structure Due {K V : Type} [DecidableEq K] (key : K) (cbt tr : List (K × Nat)) (p : Nat)
    (s : CacheMap K V) : Prop where
  wf : WF s
  bound : ∀ i, ∀ x ∈ bucketAt s.event_bucket_queue_ i, x.key = key → i ≤ p
  state : (∃ v e, s.map_ key = some v ∧ 0 < v.timeout ∧
        callbackTrace key v._timeoutCallback = cbt ∧ v._weakEntryPtr = some e ∧
        (∃ i, e ∈ bucketAt s.event_bucket_queue_ i) ∧ s.invokedFor key = tr) ∨
      (s.map_ key = none ∧ s.invokedFor key = tr ++ cbt)

/-- The entry of `key` has been removed by the timer, the trace of `key` is `tr`, and no
object of `key` is left in the wheel. -/
structure Done {K V : Type} [DecidableEq K] (key : K) (tr : List (K × Nat))
    (s : CacheMap K V) : Prop where
  wf : WF s
  entry : s.map_ key = none
  trace : s.invokedFor key = tr

/-- Allocation numbers identify objects: every object in the wheel or behind a weak
pointer was allocated earlier, and two of them with the same number are the same. -/
structure Ids {K V : Type} (s : CacheMap K V) : Prop where
  queue_lt : ∀ i, ∀ x ∈ bucketAt s.event_bucket_queue_ i, x.id < s.allocated
  weak_lt : ∀ k v w, s.map_ k = some v → v._weakEntryPtr = some w → w.id < s.allocated
  queue_unique : ∀ i j, ∀ x ∈ bucketAt s.event_bucket_queue_ i,
    ∀ y ∈ bucketAt s.event_bucket_queue_ j, x.id = y.id → x = y
  weak_unique : ∀ k v w, s.map_ k = some v → v._weakEntryPtr = some w →
    ∀ i, ∀ x ∈ bucketAt s.event_bucket_queue_ i, x.id = w.id → x = w

/-- The members that the constructor sets from `interval` and `limit` and that no
method changes. -/
structure Shape {K V : Type} (interval limit : Int) (s : CacheMap K V) : Prop where
  period_eq : s.timeInterval_ = interval
  limit_eq : s._limit = limit
  count_eq : s.bucketCount_ = limit.tdiv interval + 1
  size_eq : s.event_bucket_queue_.length = (limit / interval).toNat + 1

/-- The entry `v` of `key` points to the object `e`, the only object of `key` in the
wheel; the last bucket that holds `e` is at position `h`; `tr` is the trace of `key`. -/
structure Horizon {K V : Type} [DecidableEq K] (key : K) (v : MapValue K V)
    (e : CallbackEntry K) (h : Nat) (tr : List (K × Nat)) (s : CacheMap K V) : Prop where
  wf : WF s
  entry : s.map_ key = some v
  positive : 0 < v.timeout
  weak : v._weakEntryPtr = some e
  here : e ∈ bucketAt s.event_bucket_queue_ h
  only : ∀ i, ∀ x ∈ bucketAt s.event_bucket_queue_ i, x.key = key → x = e ∧ i ≤ h
  trace : s.invokedFor key = tr

/-- Arguments the constructor accepts without overflow of `int`. -/
def ValidArgs (interval limit : Int) : Prop :=
  0 < interval ∧ interval < 2 ^ 31 ∧ 0 ≤ limit ∧ limit < 2 ^ 31 ∧
    limit.tdiv interval + 1 < 2 ^ 31

instance (interval limit : Int) : Decidable (ValidArgs interval limit) := by
  unfold ValidArgs
  infer_instance

instance {K V : Type} [DecidableEq K] (s : CacheMap K V) (key : K) :
    Decidable (Unscheduled s key) := by
  unfold Unscheduled
  infer_instance

instance {K V : Type} [DecidableEq K] (key : K) (ops : List (Op K V)) :
    Decidable (Avoids key ops) := by
  unfold Avoids
  infer_instance

/-- The states a program can observe: built by the constructor, then driven by calls of
the public methods and firings of the timer. -/
def Reachable {K V : Type} [DecidableEq K] [Inhabited V] (s : CacheMap K V) : Prop :=
  ∃ (interval limit : Int) (ops : List (Op K V)),
    ValidArgs interval limit ∧ (CacheMap.new interval limit).run ops = .ok s

end drogon

namespace drogon

section queue
variable {K : Type} [DecidableEq K]

theorem mem_bucketInsert (e x : CallbackEntry K) (b : CallbackBucket K) :
    x ∈ bucketInsert e b ↔ x = e ∨ x ∈ b := by
  unfold bucketInsert
  by_cases h : e ∈ b
  · simp only [h, if_true]
    constructor
    · exact fun hx => Or.inr hx
    · rintro (rfl | hx)
      · exact h
      · exact hx
  · simp only [h, if_false, List.mem_append, List.mem_singleton]
    exact or_comm

theorem bucketInsert_of_mem (e : CallbackEntry K) (b : CallbackBucket K) (h : e ∈ b) :
    bucketInsert e b = b := by
  simp [bucketInsert, h]

theorem length_pushAt (e : CallbackEntry K) (i : Nat) (q : CallbackBucketQueue K) :
    (pushAt e i q).length = q.length := by
  induction q generalizing i with
  | nil => cases i <;> rfl
  | cons b q ih =>
    cases i with
    | zero => rfl
    | succ i => simp [pushAt, ih]

theorem bucketAt_of_length_le (q : CallbackBucketQueue K) (i : Nat) (h : q.length ≤ i) :
    bucketAt q i = [] := by
  induction q generalizing i with
  | nil => cases i <;> rfl
  | cons b q ih =>
    cases i with
    | zero => simp at h
    | succ i =>
      simp only [List.length_cons, Nat.add_le_add_iff_right] at h
      simpa [bucketAt] using ih i h

theorem bucketAt_pushAt_same (e : CallbackEntry K) (i : Nat) (q : CallbackBucketQueue K)
    (h : i < q.length) : bucketAt (pushAt e i q) i = bucketInsert e (bucketAt q i) := by
  induction q generalizing i with
  | nil => simp at h
  | cons b q ih =>
    cases i with
    | zero => rfl
    | succ i =>
      simp only [List.length_cons, Nat.add_lt_add_iff_right] at h
      simpa [pushAt, bucketAt] using ih i h

theorem bucketAt_pushAt_other (e : CallbackEntry K) (i j : Nat) (q : CallbackBucketQueue K)
    (h : j ≠ i) : bucketAt (pushAt e i q) j = bucketAt q j := by
  induction q generalizing i j with
  | nil => cases i <;> rfl
  | cons b q ih =>
    cases i with
    | zero =>
      cases j with
      | zero => exact absurd rfl h
      | succ j => rfl
    | succ i =>
      cases j with
      | zero => rfl
      | succ j =>
        have h2 : j ≠ i := fun hji => h (by rw [hji])
        simpa [pushAt, bucketAt] using ih i j h2

theorem mem_bucketAt_pushAt (e x : CallbackEntry K) (i j : Nat) (q : CallbackBucketQueue K)
    (h : i < q.length) :
    x ∈ bucketAt (pushAt e i q) j ↔ x ∈ bucketAt q j ∨ (j = i ∧ x = e) := by
  by_cases hj : j = i
  · subst hj
    rw [bucketAt_pushAt_same e j q h, mem_bucketInsert]
    constructor
    · rintro (h1 | h1)
      · exact Or.inr ⟨rfl, h1⟩
      · exact Or.inl h1
    · rintro (h1 | ⟨_, h1⟩)
      · exact Or.inr h1
      · exact Or.inl h1
  · rw [bucketAt_pushAt_other e i j q hj]
    constructor
    · exact fun h1 => Or.inl h1
    · rintro (h1 | ⟨h1, _⟩)
      · exact h1
      · exact absurd h1 hj

theorem bucketAt_append_empty (q : CallbackBucketQueue K) (i : Nat) :
    bucketAt (q ++ [[]]) i = bucketAt q i := by
  induction q generalizing i with
  | nil => cases i <;> rfl
  | cons b q ih =>
    cases i with
    | zero => rfl
    | succ i => simpa [bucketAt] using ih i

theorem bucketAt_mem_or_nil (q : CallbackBucketQueue K) (i : Nat) :
    bucketAt q i ∈ q ∨ bucketAt q i = [] := by
  induction q generalizing i with
  | nil => cases i <;> exact Or.inr rfl
  | cons b q ih =>
    cases i with
    | zero => exact Or.inl (List.mem_cons_self _ _)
    | succ i =>
      rcases ih i with h | h
      · exact Or.inl (List.mem_cons_of_mem _ h)
      · exact Or.inr h

theorem exists_bucketAt_of_mem (q : CallbackBucketQueue K) (b : CallbackBucket K)
    (h : b ∈ q) : ∃ i, bucketAt q i = b := by
  induction q with
  | nil => cases h
  | cons c q ih =>
    rcases List.mem_cons.mp h with rfl | h1
    · exact ⟨0, rfl⟩
    · obtain ⟨i, hi⟩ := ih h1
      exact ⟨i + 1, hi⟩

theorem alive_iff (e : CallbackEntry K) (q : CallbackBucketQueue K) :
    alive e q = true ↔ ∃ i, e ∈ bucketAt q i := by
  induction q with
  | nil =>
    simp only [alive, List.any_nil, Bool.false_eq_true, false_iff]
    rintro ⟨i, hi⟩
    cases i <;> simp [bucketAt] at hi
  | cons b q ih =>
    have hstep : alive e (b :: q) = (decide (e ∈ b) || alive e q) := by
      simp [alive]
    rw [hstep, Bool.or_eq_true, ih, decide_eq_true_eq]
    constructor
    · rintro (h | ⟨i, hi⟩)
      · exact ⟨0, h⟩
      · exact ⟨i + 1, hi⟩
    · rintro ⟨i, hi⟩
      cases i with
      | zero => exact Or.inl hi
      | succ i => exact Or.inr ⟨i, hi⟩

theorem alive_false_iff (e : CallbackEntry K) (q : CallbackBucketQueue K) :
    alive e q = false ↔ ∀ i, e ∉ bucketAt q i := by
  rw [← Bool.not_eq_true, alive_iff]
  exact not_exists

end queue

section closure
variable {K V : Type} [DecidableEq K]

theorem invokedFor_append (s : CacheMap K V) (l : List (K × Nat)) (k : K) :
    ({ s with invoked := s.invoked ++ l } : CacheMap K V).invokedFor k =
      s.invokedFor k ++ l.filter (fun p => decide (p.1 = k)) := by
  simp [CacheMap.invokedFor, List.filter_append]

theorem callbackTrace_filter_self (k : K) (cb : Option Nat) :
    (callbackTrace k cb).filter (fun p => decide (p.1 = k)) = callbackTrace k cb := by
  cases cb <;> simp [callbackTrace]

theorem callbackTrace_filter_other (k k1 : K) (cb : Option Nat) (h : k ≠ k1) :
    (callbackTrace k cb).filter (fun p => decide (p.1 = k1)) = [] := by
  cases cb <;> simp [callbackTrace, h]

theorem fire_queue (k : K) (s : CacheMap K V) :
    (fire k s).event_bucket_queue_ = s.event_bucket_queue_ := by
  unfold fire
  split
  · split <;> rfl
  · rfl

theorem fire_interval (k : K) (s : CacheMap K V) :
    (fire k s).timeInterval_ = s.timeInterval_ := by
  unfold fire
  split
  · split <;> rfl
  · rfl

theorem fire_allocated (k : K) (s : CacheMap K V) :
    (fire k s).allocated = s.allocated := by
  unfold fire
  split
  · split <;> rfl
  · rfl

theorem fire_params (k : K) (s : CacheMap K V) :
    (fire k s)._limit = s._limit ∧ (fire k s).bucketCount_ = s.bucketCount_ := by
  unfold fire
  split
  · split <;> exact ⟨rfl, rfl⟩
  · exact ⟨rfl, rfl⟩

theorem fire_map_self (k : K) (s : CacheMap K V) :
    (fire k s).map_ k = firedEntry (s.map_ k) := by
  unfold fire firedEntry
  cases hv : s.map_ k with
  | none => simp [hv]
  | some value =>
    by_cases ht : value.timeout > 0
    · simp [ht, CacheMap.eraseKey]
    · simp [ht, hv]

theorem fire_map_other (k k1 : K) (s : CacheMap K V) (h : k1 ≠ k) :
    (fire k s).map_ k1 = s.map_ k1 := by
  unfold fire
  split
  · split
    · simp [CacheMap.eraseKey, h]
    · rfl
  · rfl

theorem fire_invokedFor_self (k : K) (s : CacheMap K V) :
    (fire k s).invokedFor k = s.invokedFor k ++ firedTrace k (s.map_ k) := by
  unfold fire firedTrace
  split
  · rename_i value hv
    by_cases ht : value.timeout > 0
    · simp only [ht, if_true]
      have h1 := invokedFor_append s (callbackTrace k value._timeoutCallback) k
      rw [callbackTrace_filter_self] at h1
      exact h1
    · simp [ht]
  · simp

theorem fire_invokedFor_other (k k1 : K) (s : CacheMap K V) (h : k ≠ k1) :
    (fire k s).invokedFor k1 = s.invokedFor k1 := by
  unfold fire
  split
  · rename_i value hv
    by_cases ht : value.timeout > 0
    · simp only [ht, if_true]
      have h1 := invokedFor_append s (callbackTrace k value._timeoutCallback) k1
      rw [callbackTrace_filter_other k k1 _ h, List.append_nil] at h1
      exact h1
    · simp [ht]
  · rfl

theorem fire_map_sub (k k1 : K) (s : CacheMap K V) (v : MapValue K V)
    (h : (fire k s).map_ k1 = some v) : s.map_ k1 = some v := by
  by_cases hk : k1 = k
  · subst hk
    rw [fire_map_self] at h
    unfold firedEntry at h
    split at h
    · split at h
      · cases h
      · rename_i hv _; rw [hv]; exact h
    · cases h
  · rw [fire_map_other k k1 s hk] at h
    exact h

theorem firedEntry_idem (m : Option (MapValue K V)) :
    firedEntry (firedEntry m) = firedEntry m := by
  cases m with
  | none => rfl
  | some v =>
    by_cases ht : v.timeout > 0
    · simp [firedEntry, ht]
    · simp [firedEntry, ht]

theorem firedTrace_firedEntry (k : K) (m : Option (MapValue K V)) :
    firedTrace k (firedEntry m) = [] := by
  cases m with
  | none => rfl
  | some v =>
    by_cases ht : v.timeout > 0
    · simp [firedEntry, firedTrace, ht]
    · simp [firedEntry, firedTrace, ht]

theorem release_nil (s : CacheMap K V) : release [] s = s := rfl

theorem release_cons_alive (x : CallbackEntry K) (tmp : CallbackBucket K)
    (s : CacheMap K V) (h : alive x s.event_bucket_queue_ = true) :
    release (x :: tmp) s = release tmp s := by
  simp [release, h]

theorem release_cons_dead (x : CallbackEntry K) (tmp : CallbackBucket K)
    (s : CacheMap K V) (h : alive x s.event_bucket_queue_ = false) :
    release (x :: tmp) s = release tmp (fire x.key s) := by
  simp [release, h]

theorem release_queue (tmp : CallbackBucket K) (s : CacheMap K V) :
    (release tmp s).event_bucket_queue_ = s.event_bucket_queue_ := by
  induction tmp generalizing s with
  | nil => rfl
  | cons x tmp ih =>
    cases ha : alive x s.event_bucket_queue_ with
    | true => rw [release_cons_alive x tmp s ha, ih]
    | false => rw [release_cons_dead x tmp s ha, ih, fire_queue]

theorem release_interval (tmp : CallbackBucket K) (s : CacheMap K V) :
    (release tmp s).timeInterval_ = s.timeInterval_ := by
  induction tmp generalizing s with
  | nil => rfl
  | cons x tmp ih =>
    cases ha : alive x s.event_bucket_queue_ with
    | true => rw [release_cons_alive x tmp s ha, ih]
    | false => rw [release_cons_dead x tmp s ha, ih, fire_interval]

theorem release_allocated (tmp : CallbackBucket K) (s : CacheMap K V) :
    (release tmp s).allocated = s.allocated := by
  induction tmp generalizing s with
  | nil => rfl
  | cons x tmp ih =>
    cases ha : alive x s.event_bucket_queue_ with
    | true => rw [release_cons_alive x tmp s ha, ih]
    | false => rw [release_cons_dead x tmp s ha, ih, fire_allocated]

theorem release_params (tmp : CallbackBucket K) (s : CacheMap K V) :
    (release tmp s)._limit = s._limit ∧ (release tmp s).bucketCount_ = s.bucketCount_ := by
  induction tmp generalizing s with
  | nil => exact ⟨rfl, rfl⟩
  | cons x tmp ih =>
    cases ha : alive x s.event_bucket_queue_ with
    | true => rw [release_cons_alive x tmp s ha]; exact ih s
    | false =>
      rw [release_cons_dead x tmp s ha, (ih _).1, (ih _).2]
      exact fire_params _ _

theorem release_map_sub (tmp : CallbackBucket K) (s : CacheMap K V) (k : K)
    (v : MapValue K V) (h : (release tmp s).map_ k = some v) : s.map_ k = some v := by
  induction tmp generalizing s with
  | nil => exact h
  | cons x tmp ih =>
    cases ha : alive x s.event_bucket_queue_ with
    | true =>
      rw [release_cons_alive x tmp s ha] at h
      exact ih s h
    | false =>
      rw [release_cons_dead x tmp s ha] at h
      exact fire_map_sub _ _ _ _ (ih _ h)

/-- No object of key `k` dies in the bucket: the entry and the trace of `k` stay. -/
theorem release_keep (tmp : CallbackBucket K) (s : CacheMap K V) (k : K)
    (h : ∀ x ∈ tmp, x.key = k → alive x s.event_bucket_queue_ = true) :
    (release tmp s).map_ k = s.map_ k ∧ (release tmp s).invokedFor k = s.invokedFor k := by
  induction tmp generalizing s with
  | nil => exact ⟨rfl, rfl⟩
  | cons x tmp ih =>
    cases ha : alive x s.event_bucket_queue_ with
    | true =>
      rw [release_cons_alive x tmp s ha]
      exact ih s (fun y hy => h y (List.mem_cons_of_mem _ hy))
    | false =>
      rw [release_cons_dead x tmp s ha]
      have hk : x.key ≠ k := by
        intro hk
        have h1 := h x (List.mem_cons_self _ _) hk
        rw [ha] at h1
        cases h1
      have h2 := ih (fire x.key s) (by
        intro y hy hyk
        rw [fire_queue]
        exact h y (List.mem_cons_of_mem _ hy) hyk)
      rw [h2.1, h2.2, fire_map_other _ _ _ (Ne.symm hk), fire_invokedFor_other _ _ _ hk]
      exact ⟨rfl, rfl⟩

/-- The entry and the trace of `k` after the bucket is released are those before, or
those left by one run of the closure of `k`. -/
theorem release_cases (tmp : CallbackBucket K) (s : CacheMap K V) (k : K) :
    ((release tmp s).map_ k = s.map_ k ∧ (release tmp s).invokedFor k = s.invokedFor k) ∨
    ((release tmp s).map_ k = firedEntry (s.map_ k) ∧
      (release tmp s).invokedFor k = s.invokedFor k ++ firedTrace k (s.map_ k)) := by
  induction tmp generalizing s with
  | nil => exact Or.inl ⟨rfl, rfl⟩
  | cons x tmp ih =>
    cases ha : alive x s.event_bucket_queue_ with
    | true =>
      rw [release_cons_alive x tmp s ha]
      exact ih s
    | false =>
      rw [release_cons_dead x tmp s ha]
      by_cases hk : x.key = k
      · subst hk
        rcases ih (fire x.key s) with h2 | h2
        · right
          rw [h2.1, h2.2, fire_map_self, fire_invokedFor_self]
          exact ⟨rfl, rfl⟩
        · right
          rw [h2.1, h2.2, fire_map_self, fire_invokedFor_self, firedEntry_idem,
            firedTrace_firedEntry, List.append_nil]
          exact ⟨rfl, rfl⟩
      · rcases ih (fire x.key s) with h2 | h2
        · left
          rw [h2.1, h2.2, fire_map_other _ _ _ (Ne.symm hk), fire_invokedFor_other _ _ _ hk]
          exact ⟨rfl, rfl⟩
        · right
          rw [h2.1, h2.2, fire_map_other _ _ _ (Ne.symm hk), fire_invokedFor_other _ _ _ hk]
          exact ⟨rfl, rfl⟩

/-- An object of key `k` dies in the bucket: the closure of `k` has run. -/
theorem release_fired (tmp : CallbackBucket K) (s : CacheMap K V) (k : K)
    (h : ∃ x ∈ tmp, x.key = k ∧ alive x s.event_bucket_queue_ = false) :
    (release tmp s).map_ k = firedEntry (s.map_ k) ∧
      (release tmp s).invokedFor k = s.invokedFor k ++ firedTrace k (s.map_ k) := by
  induction tmp generalizing s with
  | nil =>
    obtain ⟨x, hx, _⟩ := h
    cases hx
  | cons y tmp ih =>
    cases ha : alive y s.event_bucket_queue_ with
    | true =>
      rw [release_cons_alive y tmp s ha]
      apply ih s
      obtain ⟨x, hx, hxk, hxa⟩ := h
      rcases List.mem_cons.mp hx with rfl | hx2
      · rw [ha] at hxa; cases hxa
      · exact ⟨x, hx2, hxk, hxa⟩
    | false =>
      rw [release_cons_dead y tmp s ha]
      by_cases hk : y.key = k
      · subst hk
        rcases release_cases tmp (fire y.key s) y.key with h2 | h2
        · rw [h2.1, h2.2, fire_map_self, fire_invokedFor_self]
          exact ⟨rfl, rfl⟩
        · rw [h2.1, h2.2, fire_map_self, fire_invokedFor_self, firedEntry_idem,
            firedTrace_firedEntry, List.append_nil]
          exact ⟨rfl, rfl⟩
      · have h3 : ∃ x ∈ tmp, x.key = k ∧
            alive x (fire y.key s).event_bucket_queue_ = false := by
          obtain ⟨x, hx, hxk, hxa⟩ := h
          rcases List.mem_cons.mp hx with rfl | hx2
          · exact absurd hxk hk
          · exact ⟨x, hx2, hxk, by rw [fire_queue]; exact hxa⟩
        have h2 := ih (fire y.key s) h3
        rw [h2.1, h2.2, fire_map_other _ _ _ (Ne.symm hk), fire_invokedFor_other _ _ _ hk]
        exact ⟨rfl, rfl⟩

end closure

section arithmetic

theorem toInt_of_lt (t : Nat) (h : t < 2 ^ 31) : toInt t = (t : Int) := by
  unfold toInt
  have h1 : t % 2 ^ 32 = t := Nat.mod_eq_of_lt (by omega)
  rw [h1, if_pos h]

theorem toSizeT_natCast (n : Nat) (h : n < 2 ^ 64) : toSizeT (n : Int) = n := by
  unfold toSizeT
  have h1 : ((n : Int) % 2 ^ 64) = (n : Int) :=
    Int.emod_eq_of_lt (Int.ofNat_nonneg n) (by exact_mod_cast h)
  rw [h1]
  exact Int.toNat_ofNat n

theorem bucketIndexToPush_lt (delay timeInterval : Int) (n : Nat) (hn : 0 < n) :
    bucketIndexToPush delay timeInterval n < n := by
  unfold bucketIndexToPush
  simp only
  split
  · by_cases h64 : n ≤ 2 ^ 64
    · have : (n + 2 ^ 64 - 1) % 2 ^ 64 = n - 1 := by
        by_cases h2 : n = 2 ^ 64
        · subst h2; norm_num
        · have h3 : n + 2 ^ 64 - 1 = (n - 1) + 2 ^ 64 := by omega
          rw [h3, Nat.add_mod_right]
          exact Nat.mod_eq_of_lt (by omega)
      omega
    · have : (n + 2 ^ 64 - 1) % 2 ^ 64 < 2 ^ 64 := Nat.mod_lt _ (by norm_num)
      omega
  · omega

/-- The bucket chosen for a delay that fits `int`: one more than the whole number of
periods in the delay, capped at the last bucket. -/
theorem bucketIndexToPush_of_nat (t : Nat) (timeInterval : Int) (n : Nat) (ht : t < 2 ^ 31)
    (hi : 0 < timeInterval) (hn : 0 < n) :
    bucketIndexToPush (t : Int) timeInterval n =
      min (((t : Int) / timeInterval).toNat + 1) (n - 1) := by
  have hq0 : 0 ≤ (t : Int) / timeInterval := Int.ediv_nonneg (Int.ofNat_nonneg t) (le_of_lt hi)
  have hq1 : (t : Int) / timeInterval ≤ (t : Int) :=
    Int.ediv_le_self _ (Int.ofNat_nonneg t)
  obtain ⟨q, hq⟩ := Int.eq_ofNat_of_zero_le hq0
  have hqt : q ≤ t := by
    have : (q : Int) ≤ (t : Int) := by rw [← hq]; exact hq1
    exact_mod_cast this
  have htd : (t : Int).tdiv timeInterval = (q : Int) := by
    rw [Int.tdiv_eq_ediv (Int.ofNat_nonneg t) (le_of_lt hi), hq]
  unfold bucketIndexToPush
  simp only
  rw [htd, hq, toSizeT_natCast q (by omega), Int.toNat_ofNat]
  have hm : (q + 1) % 2 ^ 64 = q + 1 := Nat.mod_eq_of_lt (by omega)
  rw [hm]
  split
  · rename_i hge
    have h3 : n + 2 ^ 64 - 1 = (n - 1) + 2 ^ 64 := by omega
    rw [h3, Nat.add_mod_right, Nat.mod_eq_of_lt (by omega)]
    omega
  · omega

end arithmetic

section methods
variable {K V : Type} [DecidableEq K] [Inhabited V]

theorem lock_some (w : Option (CallbackEntry K)) (q : CallbackBucketQueue K)
    (e : CallbackEntry K) (h : lock w q = some e) : w = some e ∧ alive e q = true := by
  unfold lock at h
  cases w with
  | none => cases h
  | some x =>
    simp only at h
    cases ha : alive x q with
    | true =>
      rw [ha] at h
      simp only [if_true, Option.some.injEq] at h
      subst h
      exact ⟨rfl, ha⟩
    | false =>
      rw [ha] at h
      simp at h

theorem lock_none (w : Option (CallbackEntry K)) (q : CallbackBucketQueue K)
    (h : lock w q = none) : ∀ e, w = some e → alive e q = false := by
  intro e he
  subst he
  unfold lock at h
  simp only at h
  cases ha : alive e q with
  | true => rw [ha] at h; simp at h
  | false => rfl

theorem at_of_some (s : CacheMap K V) (key : K) (v : MapValue K V)
    (h : s.map_ key = some v) : s.at key = v := by
  simp [CacheMap.at, h]

theorem at_of_none (s : CacheMap K V) (key : K) (h : s.map_ key = none) :
    s.at key = MapValue.fresh := by
  simp [CacheMap.at, h]

theorem eraseAfter_spec (s : CacheMap K V) (delay : Int) (key : K) (v : MapValue K V)
    (hv : s.map_ key = some v) (hi : s.timeInterval_ ≠ 0)
    (hq : s.event_bucket_queue_ ≠ []) :
    ∃ e s1, s.eraseAfter delay key = .ok s1 ∧
      Scheduled s key v
        (bucketIndexToPush delay s.timeInterval_ s.event_bucket_queue_.length) e s1 := by
  have hlen : 0 < s.event_bucket_queue_.length := List.length_pos.mpr hq
  have hidx := bucketIndexToPush_lt delay s.timeInterval_ _ hlen
  have hat := at_of_some s key v hv
  unfold CacheMap.eraseAfter
  simp only [hv, Option.isNone_some, Bool.false_eq_true, if_false, hi, hidx, if_true, hat]
  cases hl : lock v._weakEntryPtr s.event_bucket_queue_ with
  | some e =>
    refine ⟨e, _, rfl, ?_⟩
    have hw := (lock_some _ _ _ hl).1
    refine ⟨Or.inl hl, hidx, rfl, ?_, fun k _ => rfl, rfl, rfl, ⟨rfl, rfl⟩, by simp [hl]⟩
    show s.map_ key = _
    rw [hv]
    cases v
    simp only at hw
    simp [hw]
  | none =>
    refine ⟨{ id := s.allocated, key := key }, _, rfl, ?_⟩
    refine ⟨Or.inr ⟨hl, rfl⟩, hidx, rfl, ?_, ?_, rfl, rfl, ⟨rfl, rfl⟩, by simp [hl]⟩
    · simp [CacheMap.setEntry]
    · intro k hk
      simp [CacheMap.setEntry, hk]

theorem insert_pos_spec (s : CacheMap K V) (key : K) (value : V) (t : Nat)
    (cb : Option Nat) (ht : 0 < t) (hi : s.timeInterval_ ≠ 0)
    (hq : s.event_bucket_queue_ ≠ []) :
    ∃ e s1, s.insert key value t cb = .ok s1 ∧
      Scheduled s key
        { timeout := t, value := value, _timeoutCallback := cb,
          _weakEntryPtr := (s.at key)._weakEntryPtr }
        (bucketIndexToPush (toInt t) s.timeInterval_ s.event_bucket_queue_.length) e s1 := by
  unfold CacheMap.insert
  simp only [gt_iff_lt, ht, if_true]
  generalize hs3 : ((s.setEntry key { s.at key with value := value }).setEntry key
      { (s.setEntry key { s.at key with value := value }).at key with timeout := t }).setEntry
      key { ((s.setEntry key { s.at key with value := value }).setEntry key
      { (s.setEntry key { s.at key with value := value }).at key with timeout := t }).at key
        with _timeoutCallback := cb } = s3
  have hm : s3.map_ key = some
      { timeout := t, value := value, _timeoutCallback := cb,
        _weakEntryPtr := (s.at key)._weakEntryPtr } := by
    rw [← hs3]
    simp [CacheMap.setEntry, CacheMap.at]
  have ho : ∀ k, k ≠ key → s3.map_ k = s.map_ k := by
    intro k hk
    rw [← hs3]
    simp [CacheMap.setEntry, hk]
  have hq3 : s3.event_bucket_queue_ = s.event_bucket_queue_ := by rw [← hs3]; rfl
  have hi3 : s3.timeInterval_ = s.timeInterval_ := by rw [← hs3]; rfl
  have ha3 : s3.allocated = s.allocated := by rw [← hs3]; rfl
  have hv3 : s3.invoked = s.invoked := by rw [← hs3]; rfl
  obtain ⟨e, s1, hok, hsch⟩ := eraseAfter_spec s3 (toInt t) key _ hm
    (by rw [hi3]; exact hi) (by rw [hq3]; exact hq)
  refine ⟨e, s1, hok, ?_⟩
  have h1 := hsch.token
  have h2 := hsch.index_lt
  have h3 := hsch.queue
  have h4 := hsch.count
  have h5 := hsch.interval
  have h6 := hsch.params
  have hp3 : s3._limit = s._limit ∧ s3.bucketCount_ = s.bucketCount_ := by
    rw [← hs3]
    exact ⟨rfl, rfl⟩
  rw [hq3] at h1 h4
  rw [hq3, hi3] at h2 h3
  rw [ha3] at h1 h4
  rw [hi3] at h5
  rw [hp3.1, hp3.2] at h6
  exact ⟨h1, h2, h3, hsch.entry, fun k hk => (hsch.others k hk).trans (ho k hk),
    hsch.invoked.trans hv3, h5, h6, h4⟩

theorem insert_zero_spec (s : CacheMap K V) (key : K) (value : V) :
    ∃ s1, s.insert key value 0 none = .ok s1 ∧
      s1.map_ key = some
        { timeout := 0, value := value, _timeoutCallback := none, _weakEntryPtr := none } ∧
      (∀ k, k ≠ key → s1.map_ k = s.map_ k) ∧
      s1.event_bucket_queue_ = s.event_bucket_queue_ ∧ s1.invoked = s.invoked ∧
      s1.timeInterval_ = s.timeInterval_ ∧ s1.allocated = s.allocated := by
  refine ⟨_, rfl, ?_, ?_, rfl, rfl, rfl, rfl⟩
  · simp [CacheMap.setEntry, CacheMap.at]
  · intro k hk
    simp [CacheMap.setEntry, hk]

theorem find_absent (s : CacheMap K V) (key : K) (h : s.map_ key = none) :
    s.find key = .ok (false, s) := by
  simp [CacheMap.find, h]

theorem find_idle (s : CacheMap K V) (key : K) (v : MapValue K V)
    (h : s.map_ key = some v) (ht : ¬ 0 < toInt v.timeout) :
    s.find key = .ok (true, s) := by
  simp [CacheMap.find, h, at_of_some s key v h, ht]

theorem find_renew (s : CacheMap K V) (key : K) (v : MapValue K V)
    (h : s.map_ key = some v) (ht : 0 < toInt v.timeout) (hi : s.timeInterval_ ≠ 0)
    (hq : s.event_bucket_queue_ ≠ []) :
    ∃ e s1, s.find key = .ok (true, s1) ∧
      Scheduled s key v
        (bucketIndexToPush (toInt v.timeout) s.timeInterval_ s.event_bucket_queue_.length)
        e s1 := by
  obtain ⟨e, s1, hok, hsch⟩ := eraseAfter_spec s (toInt v.timeout) key v h hi hq
  refine ⟨e, s1, ?_, hsch⟩
  simp [CacheMap.find, h, at_of_some s key v h, ht, hok]

theorem operatorIndex_absent (s : CacheMap K V) (key : K) (h : s.map_ key = none) :
    s.operatorIndex key = .ok (default, s.setEntry key MapValue.fresh) := by
  simp [CacheMap.operatorIndex, h, at_of_none s key h, MapValue.fresh]

theorem operatorIndex_idle (s : CacheMap K V) (key : K) (v : MapValue K V)
    (h : s.map_ key = some v) (ht : ¬ 0 < toInt v.timeout) :
    s.operatorIndex key = .ok (v.value, s.setEntry key v) := by
  simp [CacheMap.operatorIndex, h, at_of_some s key v h, ht]

theorem operatorIndex_renew (s : CacheMap K V) (key : K) (v : MapValue K V)
    (h : s.map_ key = some v) (ht : 0 < toInt v.timeout) (hi : s.timeInterval_ ≠ 0)
    (hq : s.event_bucket_queue_ ≠ []) :
    ∃ e s1, s.operatorIndex key = .ok (v.value, s1) ∧
      Scheduled s key v
        (bucketIndexToPush (toInt v.timeout) s.timeInterval_ s.event_bucket_queue_.length)
        e s1 := by
  obtain ⟨e, s1, hok, hsch⟩ := eraseAfter_spec s (toInt v.timeout) key v h hi hq
  have hat : s1.at key = { v with _weakEntryPtr := some e } := at_of_some s1 key _ hsch.entry
  refine ⟨e, s1.setEntry key (s1.at key), ?_, ?_⟩
  · simp [CacheMap.operatorIndex, h, at_of_some s key v h, ht, hok, hat]
  · refine ⟨hsch.token, hsch.index_lt, hsch.queue, ?_, ?_, hsch.invoked, hsch.interval,
      hsch.params, hsch.count⟩
    · simp [CacheMap.setEntry, hat]
    · intro k hk
      simp only [CacheMap.setEntry, hk, if_false]
      exact hsch.others k hk

theorem Scheduled.token_key {s s1 : CacheMap K V} {key : K} {v : MapValue K V} {i : Nat}
    {e : CallbackEntry K} (h : Scheduled s key v i e s1)
    (hw : ∀ w, v._weakEntryPtr = some w → w.key = key) : e.key = key := by
  rcases h.token with h1 | ⟨_, h1⟩
  · exact hw e (lock_some _ _ _ h1).1
  · rw [h1]

theorem Scheduled.frame {s s1 : CacheMap K V} {key : K} {v : MapValue K V} {i : Nat}
    {e : CallbackEntry K} (h : Scheduled s key v i e s1)
    (hw : ∀ w, v._weakEntryPtr = some w → w.key = key) : Frame key s s1 :=
  ⟨h.others, h.invoked, h.interval, h.params,
    Or.inr ⟨e, i, h.token_key hw, h.index_lt, h.queue⟩⟩

theorem Scheduled.sched_wf {s s1 : CacheMap K V} {key : K} {v : MapValue K V} {i : Nat}
    {e : CallbackEntry K} (h : Scheduled s key v i e s1) (hwf : WF s)
    (hw : ∀ w, v._weakEntryPtr = some w → w.key = key) : WF s1 := by
  refine ⟨by rw [h.interval]; exact hwf.interval_pos, ?_, ?_⟩
  · intro hnil
    have h1 : (pushAt e i s.event_bucket_queue_).length = 0 := by
      rw [← h.queue, hnil]; rfl
    rw [length_pushAt] at h1
    exact hwf.queue_ne (List.length_eq_zero.mp h1)
  · intro k v1 e1 hk he1
    by_cases hkk : k = key
    · subst hkk
      rw [h.entry] at hk
      cases hk
      simp only [Option.some.injEq] at he1
      subst he1
      exact h.token_key hw
    · rw [h.others k hkk] at hk
      exact hwf.weak_key k v1 e1 hk he1

theorem setEntry_wf (s : CacheMap K V) (hwf : WF s) (key : K) (v : MapValue K V)
    (hw : ∀ w, v._weakEntryPtr = some w → w.key = key) : WF (s.setEntry key v) := by
  refine ⟨hwf.interval_pos, hwf.queue_ne, ?_⟩
  intro k v1 e1 hk he1
  by_cases hkk : k = key
  · subst hkk
    simp only [CacheMap.setEntry, if_true, Option.some.injEq] at hk
    subst hk
    exact hw e1 he1
  · simp only [CacheMap.setEntry, hkk, if_false] at hk
    exact hwf.weak_key k v1 e1 hk he1

theorem setEntry_frame (s : CacheMap K V) (key : K) (v : MapValue K V) :
    Frame key s (s.setEntry key v) :=
  ⟨fun k hk => by simp [CacheMap.setEntry, hk], rfl, rfl, ⟨rfl, rfl⟩, Or.inl rfl⟩

theorem Frame.refl (key : K) (s : CacheMap K V) : Frame key s s :=
  ⟨fun _ _ => rfl, rfl, rfl, ⟨rfl, rfl⟩, Or.inl rfl⟩

theorem at_weak_key (s : CacheMap K V) (hwf : WF s) (key : K) :
    ∀ w, (s.at key)._weakEntryPtr = some w → w.key = key := by
  intro w hw
  cases hv : s.map_ key with
  | none =>
    rw [at_of_none s key hv] at hw
    cases hw
  | some v =>
    rw [at_of_some s key v hv] at hw
    exact hwf.weak_key key v w hv hw

/-- A call of a public method on a well-formed map succeeds, keeps the map well formed
and stays within the frame of the key it names. -/
theorem step_frame (s : CacheMap K V) (hwf : WF s) (op : Op K V) (key : K)
    (hop : op.target = some key) :
    ∃ s1, s.step op = .ok s1 ∧ WF s1 ∧ Frame key s s1 := by
  have hi : s.timeInterval_ ≠ 0 := ne_of_gt hwf.interval_pos
  cases op with
  | tick => cases hop
  | insert k value t cb =>
    simp only [Op.target, Option.some.injEq] at hop
    subst hop
    by_cases ht : 0 < t
    · obtain ⟨e, s1, hok, hsch⟩ := insert_pos_spec s k value t cb ht hi hwf.queue_ne
      exact ⟨s1, hok, hsch.sched_wf hwf (at_weak_key s hwf k), hsch.frame (at_weak_key s hwf k)⟩
    · have hs : s.insert k value t cb = .ok (s.setEntry k ⟨t, value, none, none⟩) := by
        simp [CacheMap.insert, ht, CacheMap.setEntry, CacheMap.at]
        funext k1
        by_cases hk : k1 = k <;> simp [hk]
      refine ⟨_, hs, setEntry_wf s hwf k _ ?_, setEntry_frame s k _⟩
      intro w hw
      cases hw
  | operatorIndex k =>
    simp only [Op.target, Option.some.injEq] at hop
    subst hop
    cases hv : s.map_ k with
    | none =>
      refine ⟨s.setEntry k MapValue.fresh, ?_, setEntry_wf s hwf k _ ?_, setEntry_frame s k _⟩
      · simp [CacheMap.step, operatorIndex_absent s k hv, Except.map]
      · intro w hw
        cases hw
    | some v =>
      by_cases ht : 0 < toInt v.timeout
      · obtain ⟨e, s1, hok, hsch⟩ := operatorIndex_renew s k v hv ht hi hwf.queue_ne
        refine ⟨s1, ?_, hsch.sched_wf hwf (hwf.weak_key k v · hv), hsch.frame (hwf.weak_key k v · hv)⟩
        simp [CacheMap.step, hok, Except.map]
      · refine ⟨s.setEntry k v, ?_, setEntry_wf s hwf k _ (hwf.weak_key k v · hv),
          setEntry_frame s k _⟩
        simp [CacheMap.step, operatorIndex_idle s k v hv ht, Except.map]
  | find k =>
    simp only [Op.target, Option.some.injEq] at hop
    subst hop
    cases hv : s.map_ k with
    | none =>
      refine ⟨s, ?_, hwf, Frame.refl k s⟩
      simp [CacheMap.step, find_absent s k hv, Except.map]
    | some v =>
      by_cases ht : 0 < toInt v.timeout
      · obtain ⟨e, s1, hok, hsch⟩ := find_renew s k v hv ht hi hwf.queue_ne
        refine ⟨s1, ?_, hsch.sched_wf hwf (hwf.weak_key k v · hv), hsch.frame (hwf.weak_key k v · hv)⟩
        simp [CacheMap.step, hok, Except.map]
      · refine ⟨s, ?_, hwf, Frame.refl k s⟩
        simp [CacheMap.step, find_idle s k v hv ht, Except.map]
  | erase k =>
    simp only [Op.target, Option.some.injEq] at hop
    subst hop
    refine ⟨s.erase k, rfl, ⟨hwf.interval_pos, hwf.queue_ne, ?_⟩,
      ⟨fun k1 hk => by simp [CacheMap.erase, CacheMap.eraseKey, hk], rfl, rfl, ⟨rfl, rfl⟩,
        Or.inl rfl⟩⟩
    intro k1 v1 e1 hk he1
    by_cases hkk : k1 = k
    · simp [CacheMap.erase, CacheMap.eraseKey, hkk] at hk
    · simp only [CacheMap.erase, CacheMap.eraseKey, hkk, if_false] at hk
      exact hwf.weak_key k1 v1 e1 hk he1

theorem tick_eq (s : CacheMap K V) (tmp : CallbackBucket K) (rest : CallbackBucketQueue K)
    (h : s.event_bucket_queue_ = tmp :: rest) :
    s.tick = .ok (release tmp { s with event_bucket_queue_ := rest ++ [[]] }) := by
  unfold CacheMap.tick
  rw [h]

/-- One firing of the timer on a well-formed map succeeds, keeps the map well formed and
rotates the wheel. -/
theorem tick_spec (s : CacheMap K V) (hwf : WF s) :
    ∃ s1, s.tick = .ok s1 ∧ WF s1 ∧ Rotated s s1 := by
  obtain ⟨tmp, rest, hq⟩ := List.exists_cons_of_ne_nil hwf.queue_ne
  refine ⟨_, tick_eq s tmp rest hq, ?_, ?_⟩
  · refine ⟨?_, ?_, ?_⟩
    · rw [release_interval]
      exact hwf.interval_pos
    · rw [release_queue]
      simp
    · intro k v e hk he
      exact hwf.weak_key k v e
        (release_map_sub tmp { s with event_bucket_queue_ := rest ++ [[]] } k v hk) he
  · have hb : ∀ i, bucketAt (rest ++ [[]]) i = bucketAt s.event_bucket_queue_ (i + 1) := by
      intro i
      rw [bucketAt_append_empty, hq]
      rfl
    have h0 : bucketAt s.event_bucket_queue_ 0 = tmp := by rw [hq]; rfl
    refine ⟨?_, ?_, ?_, release_params _ _, release_allocated _ _, ?_, ?_, ?_, ?_⟩
    · intro i
      rw [release_queue]
      exact hb i
    · rw [release_queue, hq]
      simp
    · rw [release_interval]
    · intro k hk
      apply release_keep
      intro x hx hxk
      rw [alive_iff]
      obtain ⟨i, hi⟩ := hk x (by rw [h0]; exact hx) hxk
      exact ⟨i, by rw [hb i]; exact hi⟩
    · intro k hk
      apply release_fired
      obtain ⟨x, hx, hxk, hxn⟩ := hk
      refine ⟨x, by rw [← h0]; exact hx, hxk, ?_⟩
      rw [alive_false_iff]
      intro i
      show x ∉ bucketAt (rest ++ [[]]) i
      rw [hb i]
      exact hxn i
    · intro k
      exact release_cases _ _ k
    · intro k v hk
      exact release_map_sub tmp { s with event_bucket_queue_ := rest ++ [[]] } k v hk

/-- Any call or firing of the timer on a well-formed map succeeds and keeps it well
formed. -/
theorem step_wf (s : CacheMap K V) (hwf : WF s) (op : Op K V) :
    ∃ s1, s.step op = .ok s1 ∧ WF s1 := by
  cases hop : op.target with
  | none =>
    cases op with
    | tick =>
      obtain ⟨s1, h1, h2, _⟩ := tick_spec s hwf
      exact ⟨s1, h1, h2⟩
    | insert k value t cb => cases hop
    | operatorIndex k => cases hop
    | find k => cases hop
    | erase k => cases hop
  | some key =>
    obtain ⟨s1, h1, h2, _⟩ := step_frame s hwf op key hop
    exact ⟨s1, h1, h2⟩

theorem run_nil (s : CacheMap K V) : s.run [] = .ok s := rfl

theorem run_cons (s s1 : CacheMap K V) (op : Op K V) (ops : List (Op K V))
    (h : s.step op = .ok s1) : s.run (op :: ops) = s1.run ops := by
  simp [CacheMap.run, h]

theorem run_tick (s s1 : CacheMap K V) (ops : List (Op K V)) (h : s.tick = .ok s1) :
    s.run (Op.tick :: ops) = s1.run ops :=
  run_cons s s1 Op.tick ops h

theorem run_append (s s1 : CacheMap K V) (ops1 ops2 : List (Op K V))
    (h : s.run ops1 = .ok s1) : s.run (ops1 ++ ops2) = s1.run ops2 := by
  induction ops1 generalizing s with
  | nil =>
    simp only [CacheMap.run, Except.ok.injEq] at h
    subst h
    rfl
  | cons op ops1 ih =>
    cases hs : s.step op with
    | error f => simp [CacheMap.run, hs] at h
    | ok s2 =>
      rw [run_cons s s2 op ops1 hs] at h
      rw [List.cons_append, run_cons s s2 op _ hs]
      exact ih s2 h

theorem run_wf (s : CacheMap K V) (hwf : WF s) (ops : List (Op K V)) :
    ∃ s1, s.run ops = .ok s1 ∧ WF s1 := by
  induction ops generalizing s with
  | nil => exact ⟨s, rfl, hwf⟩
  | cons op ops ih =>
    obtain ⟨s1, h1, h2⟩ := step_wf s hwf op
    obtain ⟨s2, h3, h4⟩ := ih s1 h2
    exact ⟨s2, by rw [run_cons s s1 op ops h1]; exact h3, h4⟩

theorem toSizeT_of_nonneg (x : Int) (h0 : 0 ≤ x) (h1 : x < 2 ^ 64) :
    toSizeT x = x.toNat := by
  unfold toSizeT
  rw [Int.emod_eq_of_lt h0 h1]

theorem new_length (interval limit : Int) (h : ValidArgs interval limit) :
    (CacheMap.new interval limit : CacheMap K V).event_bucket_queue_.length =
      (limit / interval).toNat + 1 := by
  obtain ⟨h1, _, h3, _, h5⟩ := h
  have hq : limit.tdiv interval = limit / interval := Int.tdiv_eq_ediv h3 (le_of_lt h1)
  have hq0 : 0 ≤ limit / interval := Int.ediv_nonneg h3 (le_of_lt h1)
  rw [hq] at h5
  simp only [CacheMap.new, List.length_replicate, hq]
  rw [toSizeT_of_nonneg _ (by omega) (by omega)]
  omega

theorem new_wf (interval limit : Int) (h : ValidArgs interval limit) :
    WF (CacheMap.new interval limit : CacheMap K V) := by
  refine ⟨h.1, ?_, ?_⟩
  · intro hnil
    have h1 : (CacheMap.new interval limit : CacheMap K V).event_bucket_queue_.length =
        (limit / interval).toNat + 1 := new_length interval limit h
    rw [hnil] at h1
    simp at h1
  · intro k v e hk
    cases hk

theorem Reachable.wf {s : CacheMap K V} (h : Reachable s) : WF s := by
  obtain ⟨interval, limit, ops, hv, hrun⟩ := h
  obtain ⟨s1, h1, h2⟩ := run_wf (CacheMap.new interval limit) (new_wf interval limit hv) ops
  rw [hrun] at h1
  cases h1
  exact h2

theorem Reachable.reach_run {s s1 : CacheMap K V} (h : Reachable s) (ops : List (Op K V))
    (hrun : s.run ops = .ok s1) : Reachable s1 := by
  obtain ⟨interval, limit, ops0, hv, hrun0⟩ := h
  exact ⟨interval, limit, ops0 ++ ops, hv, by rw [run_append _ s ops0 ops hrun0]; exact hrun⟩

theorem unscheduled_iff (s : CacheMap K V) (key : K) :
    Unscheduled s key ↔ ∀ i, ∀ x ∈ bucketAt s.event_bucket_queue_ i, x.key ≠ key := by
  constructor
  · intro h i x hx
    rcases bucketAt_mem_or_nil s.event_bucket_queue_ i with h1 | h1
    · exact h _ h1 x hx
    · rw [h1] at hx
      cases hx
  · intro h b hb x hx
    obtain ⟨i, hi⟩ := exists_bucketAt_of_mem _ b hb
    exact h i x (by rw [hi]; exact hx)

theorem Frame.invokedFor_eq {key : K} {s s1 : CacheMap K V} (h : Frame key s s1) (k : K) :
    s1.invokedFor k = s.invokedFor k := by
  unfold CacheMap.invokedFor
  rw [h.invoked]

theorem Frame.length_eq {key : K} {s s1 : CacheMap K V} (h : Frame key s s1) :
    s1.event_bucket_queue_.length = s.event_bucket_queue_.length := by
  rcases h.queue with hq | ⟨e, i, _, _, hq⟩
  · rw [hq]
  · rw [hq, length_pushAt]

theorem Frame.mem_iff {key : K} {s s1 : CacheMap K V} (h : Frame key s s1) (i : Nat)
    (x : CallbackEntry K) (hx : x.key ≠ key) :
    x ∈ bucketAt s1.event_bucket_queue_ i ↔ x ∈ bucketAt s.event_bucket_queue_ i := by
  rcases h.queue with hq | ⟨e, j, he, hj, hq⟩
  · rw [hq]
  · rw [hq, mem_bucketAt_pushAt e x j i _ hj]
    constructor
    · rintro (h1 | ⟨_, h1⟩)
      · exact h1
      · exact absurd (by rw [h1]; exact he) hx
    · exact fun h1 => Or.inl h1

theorem tickCount_cons_of_target (op : Op K V) (ops : List (Op K V)) (key : K)
    (h : op.target = some key) : tickCount (op :: ops) = tickCount ops := by
  cases op with
  | tick => cases h
  | insert k value t cb => rfl
  | operatorIndex k => rfl
  | find k => rfl
  | erase k => rfl

theorem target_eq_none (op : Op K V) (h : op.target = none) : op = Op.tick := by
  cases op with
  | tick => rfl
  | insert k value t cb => cases h
  | operatorIndex k => cases h
  | find k => cases h
  | erase k => cases h

theorem Pending.pending_other {key : K} {v : MapValue K V} {e : CallbackEntry K} {p : Nat}
    {tr : List (K × Nat)} {s : CacheMap K V} (h : Pending key v e p tr s) (op : Op K V)
    (k1 : K) (hop : op.target = some k1) (hk : k1 ≠ key) :
    ∃ s1, s.step op = .ok s1 ∧ Pending key v e p tr s1 := by
  obtain ⟨s1, hok, hwf, hfr⟩ := step_frame s h.wf op k1 hop
  refine ⟨s1, hok, hwf, by rw [hfr.others key (Ne.symm hk)]; exact h.entry, h.positive,
    h.token_key, ?_, ?_, by rw [hfr.invokedFor_eq]; exact h.trace⟩
  · exact (hfr.mem_iff p e (by rw [h.token_key]; exact Ne.symm hk)).mpr h.here
  · intro i x hx hxk
    exact h.only i x ((hfr.mem_iff i x (by rw [hxk]; exact Ne.symm hk)).mp hx) hxk

theorem Pending.tick_succ {key : K} {v : MapValue K V} {e : CallbackEntry K} {p : Nat}
    {tr : List (K × Nat)} {s : CacheMap K V} (h : Pending key v e (p + 1) tr s) :
    ∃ s1, s.tick = .ok s1 ∧ Pending key v e p tr s1 := by
  obtain ⟨s1, hok, hwf, hrot⟩ := tick_spec s h.wf
  have hkeep := hrot.keep key (by
    intro x hx hxk
    have := (h.only 0 x hx hxk).2
    omega)
  refine ⟨s1, hok, hwf, by rw [hkeep.1]; exact h.entry, h.positive, h.token_key, ?_, ?_,
    by rw [hkeep.2]; exact h.trace⟩
  · rw [hrot.queue p]
    exact h.here
  · intro i x hx hxk
    rw [hrot.queue i] at hx
    have h1 := h.only (i + 1) x hx hxk
    exact ⟨h1.1, by omega⟩

theorem Pending.tick_zero {key : K} {v : MapValue K V} {e : CallbackEntry K}
    {tr : List (K × Nat)} {s : CacheMap K V} (h : Pending key v e 0 tr s) :
    ∃ s1, s.tick = .ok s1 ∧ Gone key (tr ++ callbackTrace key v._timeoutCallback) s1 := by
  obtain ⟨s1, hok, hwf, hrot⟩ := tick_spec s h.wf
  have hfired := hrot.fired key ⟨e, h.here, h.token_key, by
    intro i hi
    have := (h.only (i + 1) e hi h.token_key).2
    omega⟩
  refine ⟨s1, hok, hwf, ?_, ?_, ?_⟩
  · rw [hfired.1, h.entry]
    simp [firedEntry, h.positive]
  · rw [unscheduled_iff]
    intro i x hx hxk
    rw [hrot.queue i] at hx
    have := (h.only (i + 1) x hx hxk).2
    omega
  · rw [hfired.2, h.entry, h.trace]
    simp [firedTrace, h.positive]

theorem Gone.gone_other {key : K} {tr : List (K × Nat)} {s : CacheMap K V}
    (h : Gone key tr s) (op : Op K V) (k1 : K) (hop : op.target = some k1) (hk : k1 ≠ key) :
    ∃ s1, s.step op = .ok s1 ∧ Gone key tr s1 := by
  obtain ⟨s1, hok, hwf, hfr⟩ := step_frame s h.wf op k1 hop
  refine ⟨s1, hok, hwf, by rw [hfr.others key (Ne.symm hk)]; exact h.entry, ?_,
    by rw [hfr.invokedFor_eq]; exact h.trace⟩
  rw [unscheduled_iff]
  intro i x hx hxk
  exact (unscheduled_iff s key).mp h.unscheduled i x
    ((hfr.mem_iff i x (by rw [hxk]; exact Ne.symm hk)).mp hx) hxk

theorem Gone.gone_tick {key : K} {tr : List (K × Nat)} {s : CacheMap K V} (h : Gone key tr s) :
    ∃ s1, s.tick = .ok s1 ∧ Gone key tr s1 := by
  obtain ⟨s1, hok, hwf, hrot⟩ := tick_spec s h.wf
  refine ⟨s1, hok, hwf, ?_, ?_, ?_⟩
  · rcases hrot.either key with h1 | h1
    · rw [h1.1]; exact h.entry
    · rw [h1.1, h.entry]; rfl
  · rw [unscheduled_iff]
    intro i x hx hxk
    rw [hrot.queue i] at hx
    exact (unscheduled_iff s key).mp h.unscheduled (i + 1) x hx hxk
  · rcases hrot.either key with h1 | h1
    · rw [h1.2]; exact h.trace
    · rw [h1.2, h.entry, h.trace]
      simp [firedTrace]

theorem Avoids.tail {key : K} {op : Op K V} {ops : List (Op K V)}
    (h : Avoids key (op :: ops)) : Avoids key ops :=
  fun o ho => h o (List.mem_cons_of_mem _ ho)

theorem Avoids.head {key : K} {op : Op K V} {ops : List (Op K V)}
    (h : Avoids key (op :: ops)) :
    op = Op.tick ∨ ∃ k1, op.target = some k1 ∧ k1 ≠ key := by
  cases hop : op.target with
  | none => exact Or.inl (target_eq_none op hop)
  | some k1 =>
    refine Or.inr ⟨k1, rfl, ?_⟩
    intro hk
    exact h op (List.mem_cons_self _ _) (by rw [hop, hk])

theorem Gone.gone_run {key : K} {tr : List (K × Nat)} {s : CacheMap K V} (h : Gone key tr s)
    (ops : List (Op K V)) (ha : Avoids key ops) :
    ∃ s1, s.run ops = .ok s1 ∧ Gone key tr s1 := by
  induction ops generalizing s with
  | nil => exact ⟨s, rfl, h⟩
  | cons op ops ih =>
    rcases ha.head with rfl | ⟨k1, hop, hk⟩
    · obtain ⟨s1, hok, hg⟩ := h.gone_tick
      obtain ⟨s2, hok2, hg2⟩ := ih hg ha.tail
      exact ⟨s2, by rw [run_tick s s1 ops hok]; exact hok2, hg2⟩
    · obtain ⟨s1, hok, hg⟩ := h.gone_other op k1 hop hk
      obtain ⟨s2, hok2, hg2⟩ := ih hg ha.tail
      exact ⟨s2, by rw [run_cons s s1 _ ops hok]; exact hok2, hg2⟩

/-- A pending entry stays while the timer has fired at most as often as the position of
its object, and is removed, its callback invoked, by the firing after that. -/
theorem Pending.pending_run {key : K} {v : MapValue K V} {e : CallbackEntry K} {p : Nat}
    {tr : List (K × Nat)} {s : CacheMap K V} (h : Pending key v e p tr s)
    (ops : List (Op K V)) (ha : Avoids key ops) :
    ∃ s1, s.run ops = .ok s1 ∧
      (tickCount ops ≤ p → Pending key v e (p - tickCount ops) tr s1) ∧
      (p < tickCount ops → Gone key (tr ++ callbackTrace key v._timeoutCallback) s1) := by
  induction ops generalizing s p with
  | nil => exact ⟨s, rfl, fun _ => h, fun hlt => absurd hlt (by simp [tickCount])⟩
  | cons op ops ih =>
    rcases ha.head with rfl | ⟨k1, hop, hk⟩
    · cases p with
      | zero =>
        obtain ⟨s1, hok, hg⟩ := h.tick_zero
        obtain ⟨s2, hok2, hg2⟩ := hg.gone_run ops ha.tail
        refine ⟨s2, by rw [run_tick s s1 ops hok]; exact hok2, ?_, fun _ => hg2⟩
        intro hle
        simp [tickCount] at hle
      | succ p =>
        obtain ⟨s1, hok, hp⟩ := h.tick_succ
        obtain ⟨s2, hok2, h1, h2⟩ := ih hp ha.tail
        refine ⟨s2, by rw [run_tick s s1 ops hok]; exact hok2, ?_, ?_⟩
        · intro hle
          simp only [tickCount, Nat.add_le_add_iff_right] at hle
          simpa [tickCount] using h1 hle
        · intro hlt
          simp only [tickCount, Nat.add_lt_add_iff_right] at hlt
          exact h2 hlt
    · obtain ⟨s1, hok, hp⟩ := h.pending_other op k1 hop hk
      obtain ⟨s2, hok2, h1, h2⟩ := ih hp ha.tail
      rw [tickCount_cons_of_target op ops k1 hop]
      exact ⟨s2, by rw [run_cons s s1 _ ops hok]; exact hok2, h1, h2⟩

/-- Inserting with a positive timeout that fits `int`, for a key that has no object in
the wheel, leaves the entry pending in the bucket `eraseAfter` computes. -/
theorem insert_pending (s : CacheMap K V) (hwf : WF s) (key : K) (value : V) (t : Nat)
    (cb : Option Nat) (ht : 0 < t) (ht2 : t < 2 ^ 31) (hu : Unscheduled s key) :
    ∃ e s1, s.insert key value t cb = .ok s1 ∧
      Pending key
        { timeout := t, value := value, _timeoutCallback := cb, _weakEntryPtr := some e } e
        (min (((t : Int) / s.timeInterval_).toNat + 1) (s.event_bucket_queue_.length - 1))
        (s.invokedFor key) s1 := by
  have hi : s.timeInterval_ ≠ 0 := ne_of_gt hwf.interval_pos
  have hlen : 0 < s.event_bucket_queue_.length := List.length_pos.mpr hwf.queue_ne
  obtain ⟨e, s1, hok, hsch⟩ := insert_pos_spec s key value t cb ht hi hwf.queue_ne
  rw [toInt_of_lt t ht2, bucketIndexToPush_of_nat t _ _ ht2 hwf.interval_pos hlen] at hsch
  have hw := at_weak_key s hwf key
  have hek : e.key = key := hsch.token_key hw
  refine ⟨e, s1, hok, hsch.sched_wf hwf hw, hsch.entry, ht, hek, ?_, ?_, ?_⟩
  · rw [hsch.queue, mem_bucketAt_pushAt _ _ _ _ _ hsch.index_lt]
    exact Or.inr ⟨rfl, rfl⟩
  · intro i x hx hxk
    rw [hsch.queue, mem_bucketAt_pushAt _ _ _ _ _ hsch.index_lt] at hx
    rcases hx with hx | ⟨h1, h2⟩
    · exact absurd hxk ((unscheduled_iff s key).mp hu i x hx)
    · exact ⟨h2, h1⟩
  · unfold CacheMap.invokedFor
    rw [hsch.invoked]

theorem specBucket_eq_min (t : Nat) (interval : Int) (capacity : Nat) (h : 0 < capacity) :
    min (((t : Int) / interval).toNat + 1) (capacity - 1) = specBucket t interval capacity := by
  unfold specBucket
  split <;> omega

theorem Scheduled.putIn {s s1 : CacheMap K V} {key : K} {v : MapValue K V} {i : Nat}
    {e : CallbackEntry K} (h : Scheduled s key v i e s1)
    (hw : ∀ w, v._weakEntryPtr = some w → w.key = key) :
    PutIn s s1 key v._weakEntryPtr e i :=
  ⟨h.token_key hw, h.token, ⟨_, h.entry, rfl⟩, h.index_lt, by rw [h.queue, length_pushAt],
    by rw [h.queue, mem_bucketAt_pushAt _ _ _ _ _ h.index_lt]; exact Or.inr ⟨rfl, rfl⟩,
    by rw [h.queue, bucketAt_pushAt_same e i _ h.index_lt]; rfl,
    fun j hj => by rw [h.queue, bucketAt_pushAt_other e i j _ hj]⟩

theorem insert_zero_eq (s : CacheMap K V) (key : K) (value : V) (cb : Option Nat) :
    s.insert key value 0 cb = .ok (s.setEntry key ⟨0, value, none, none⟩) := by
  simp [CacheMap.insert, CacheMap.setEntry, CacheMap.at]
  funext k1
  by_cases hk : k1 = key <;> simp [hk]

theorem toInt_zero : toInt 0 = 0 := by decide

theorem firedEntry_idle (m : Option (MapValue K V)) (h : ∀ v, m = some v → v.timeout = 0) :
    firedEntry m = m := by
  cases m with
  | none => rfl
  | some v => simp [firedEntry, h v rfl]

theorem firedTrace_idle (key : K) (m : Option (MapValue K V))
    (h : ∀ v, m = some v → v.timeout = 0) : firedTrace key m = [] := by
  cases m with
  | none => rfl
  | some v => simp [firedTrace, h v rfl]

/-- One firing of the timer leaves an entry without a timeout, and the trace of its key,
as they are. -/
theorem tick_idle (s : CacheMap K V) (hwf : WF s) (key : K)
    (h : ∀ v, s.map_ key = some v → v.timeout = 0) :
    ∃ s1, s.tick = .ok s1 ∧ WF s1 ∧ s1.map_ key = s.map_ key ∧
      s1.invokedFor key = s.invokedFor key := by
  obtain ⟨s1, hok, hwf1, hrot⟩ := tick_spec s hwf
  refine ⟨s1, hok, hwf1, ?_⟩
  rcases hrot.either key with h1 | h1
  · exact h1
  · rw [h1.1, h1.2, firedEntry_idle _ h, firedTrace_idle key _ h, List.append_nil]
    exact ⟨rfl, rfl⟩

theorem insertsKey_false_of_target (op : Op K V) (key k1 : K) (hop : op.target = some k1)
    (hk : k1 ≠ key) : op.insertsKey key = false := by
  cases op with
  | tick => rfl
  | insert k value t cb =>
    simp only [Op.target, Option.some.injEq] at hop
    subst hop
    simp [Op.insertsKey, hk]
  | operatorIndex k => rfl
  | find k => rfl
  | erase k => rfl

theorem Quiet.quiet_step {key : K} {tr : List (K × Nat)} {s : CacheMap K V}
    (h : Quiet key tr s) (op : Op K V) (hop : op.insertsKey key = false) :
    ∃ s1, s.step op = .ok s1 ∧ Quiet key tr s1 := by
  cases ht : op.target with
  | none =>
    rw [target_eq_none op ht]
    obtain ⟨s1, hok, hwf1, hm, htr⟩ := tick_idle s h.wf key h.idle
    exact ⟨s1, hok, hwf1, by rw [hm]; exact h.idle, by rw [htr]; exact h.trace⟩
  | some k1 =>
    obtain ⟨s1, hok, hwf1, hfr⟩ := step_frame s h.wf op k1 ht
    refine ⟨s1, hok, hwf1, ?_, by rw [hfr.invokedFor_eq]; exact h.trace⟩
    by_cases hk : key = k1
    · subst hk
      cases op with
      | tick => cases ht
      | insert k value t cb =>
        simp only [Op.target, Option.some.injEq] at ht
        simp [Op.insertsKey, ht] at hop
      | erase k =>
        simp only [Op.target, Option.some.injEq] at ht
        subst ht
        simp only [CacheMap.step, Except.ok.injEq] at hok
        subst hok
        intro v hv
        simp [CacheMap.erase, CacheMap.eraseKey] at hv
      | find k =>
        simp only [Op.target, Option.some.injEq] at ht
        subst ht
        cases hm : s.map_ k with
        | none =>
          simp only [CacheMap.step, find_absent s k hm, Except.map, Except.ok.injEq] at hok
          subst hok
          exact h.idle
        | some v =>
          have hz : ¬ 0 < toInt v.timeout := by rw [h.idle v hm, toInt_zero]; simp
          simp only [CacheMap.step, find_idle s k v hm hz, Except.map, Except.ok.injEq] at hok
          subst hok
          exact h.idle
      | operatorIndex k =>
        simp only [Op.target, Option.some.injEq] at ht
        subst ht
        cases hm : s.map_ k with
        | none =>
          simp only [CacheMap.step, operatorIndex_absent s k hm, Except.map,
            Except.ok.injEq] at hok
          subst hok
          intro v hv
          simp only [CacheMap.setEntry, if_true, Option.some.injEq] at hv
          subst hv
          rfl
        | some v =>
          have hz : ¬ 0 < toInt v.timeout := by rw [h.idle v hm, toInt_zero]; simp
          simp only [CacheMap.step, operatorIndex_idle s k v hm hz, Except.map,
            Except.ok.injEq] at hok
          subst hok
          intro v1 hv1
          simp only [CacheMap.setEntry, if_true, Option.some.injEq] at hv1
          subst hv1
          exact h.idle v hm
    · rw [hfr.others key hk]
      exact h.idle

theorem NoInsert.rest {key : K} {op : Op K V} {ops : List (Op K V)}
    (h : NoInsert key (op :: ops)) : NoInsert key ops :=
  fun o ho => h o (List.mem_cons_of_mem _ ho)

theorem NoInsert.first {key : K} {op : Op K V} {ops : List (Op K V)}
    (h : NoInsert key (op :: ops)) : op.insertsKey key = false :=
  h op (List.mem_cons_self _ _)

theorem Quiet.quiet_run {key : K} {tr : List (K × Nat)} {s : CacheMap K V}
    (h : Quiet key tr s) (ops : List (Op K V)) (ha : NoInsert key ops) :
    ∃ s1, s.run ops = .ok s1 ∧ Quiet key tr s1 := by
  induction ops generalizing s with
  | nil => exact ⟨s, rfl, h⟩
  | cons op ops ih =>
    obtain ⟨s1, hok, hq⟩ := h.quiet_step op ha.first
    obtain ⟨s2, hok2, hq2⟩ := ih hq ha.rest
    exact ⟨s2, by rw [run_cons s s1 op ops hok]; exact hok2, hq2⟩

theorem Quiet.fire_eq {key : K} {tr : List (K × Nat)} {s : CacheMap K V}
    (h : Quiet key tr s) : fire key s = s := by
  unfold fire
  cases hm : s.map_ key with
  | none => rfl
  | some v => simp [h.idle v hm]

/-- An entry without a timeout survives, unchanged, any firings of the timer and any
calls that name other keys. -/
theorem idle_run (s : CacheMap K V) (hwf : WF s) (key : K) (v : MapValue K V)
    (hv : s.map_ key = some v) (hz : v.timeout = 0) (ops : List (Op K V))
    (ha : Avoids key ops) :
    ∃ s1, s.run ops = .ok s1 ∧ WF s1 ∧ s1.map_ key = some v ∧
      s1.invokedFor key = s.invokedFor key := by
  induction ops generalizing s with
  | nil => exact ⟨s, rfl, hwf, hv, rfl⟩
  | cons op ops ih =>
    rcases ha.head with rfl | ⟨k1, hop, hk⟩
    · obtain ⟨s1, hok, hwf1, hm, htr⟩ := tick_idle s hwf key (by
        intro v1 hv1
        rw [hv] at hv1
        cases hv1
        exact hz)
      obtain ⟨s2, hok2, hwf2, hm2, htr2⟩ := ih s1 hwf1 (by rw [hm]; exact hv) ha.tail
      exact ⟨s2, by rw [run_tick s s1 ops hok]; exact hok2, hwf2, hm2, by rw [htr2, htr]⟩
    · obtain ⟨s1, hok, hwf1, hfr⟩ := step_frame s hwf op k1 hop
      obtain ⟨s2, hok2, hwf2, hm2, htr2⟩ := ih s1 hwf1
        (by rw [hfr.others key (Ne.symm hk)]; exact hv) ha.tail
      exact ⟨s2, by rw [run_cons s s1 op ops hok]; exact hok2, hwf2, hm2,
        by rw [htr2, hfr.invokedFor_eq]⟩

theorem Scheduled.armed {s s1 : CacheMap K V} {key : K} {v : MapValue K V} {i : Nat}
    {e : CallbackEntry K} {c : Nat} (h : Scheduled s key v i e s1) (hwf : WF s)
    (hw : ∀ w, v._weakEntryPtr = some w → w.key = key) (hpos : 0 < v.timeout)
    (hcb : v._timeoutCallback = some c) : Armed key c (s.invokedFor key) s1 :=
  ⟨h.sched_wf hwf hw, ⟨_, h.entry, hpos, hcb⟩, by unfold CacheMap.invokedFor; rw [h.invoked]⟩

/-- One call or firing of the timer, other than an `insert` for the key, on a map where
the key is armed: the key stays armed, or is erased silently, or the timer removes the
entry and invokes the callback once. -/
theorem Armed.armed_step {key : K} {c : Nat} {tr : List (K × Nat)} {s : CacheMap K V}
    (h : Armed key c tr s) (op : Op K V) (hop : op.insertsKey key = false) :
    ∃ s1, s.step op = .ok s1 ∧
      (Armed key c tr s1 ∨ (Quiet key tr s1 ∧ s1.map_ key = none) ∨
        (Quiet key (tr ++ [(key, c)]) s1 ∧ s1.map_ key = none)) := by
  obtain ⟨v, hv, hpos, hcb⟩ := h.entry
  have hi : s.timeInterval_ ≠ 0 := ne_of_gt h.wf.interval_pos
  cases ht : op.target with
  | none =>
    rw [target_eq_none op ht]
    obtain ⟨s1, hok, hwf1, hrot⟩ := tick_spec s h.wf
    refine ⟨s1, hok, ?_⟩
    rcases hrot.either key with h1 | h1
    · exact Or.inl ⟨hwf1, ⟨v, by rw [h1.1]; exact hv, hpos, hcb⟩, by rw [h1.2]; exact h.trace⟩
    · have hm : s1.map_ key = none := by
        rw [h1.1, hv]
        simp [firedEntry, hpos]
      refine Or.inr (Or.inr ⟨⟨hwf1, ?_, ?_⟩, hm⟩)
      · intro v1 hv1
        rw [hm] at hv1
        cases hv1
      · rw [h1.2, hv, h.trace]
        simp [firedTrace, hpos, hcb, callbackTrace]
  | some k1 =>
    by_cases hk : key = k1
    · subst hk
      cases op with
      | tick => cases ht
      | insert k value t cb =>
        simp only [Op.target, Option.some.injEq] at ht
        simp [Op.insertsKey, ht] at hop
      | erase k =>
        simp only [Op.target, Option.some.injEq] at ht
        subst ht
        obtain ⟨s1, hok, hwf1, hfr⟩ := step_frame s h.wf (Op.erase k) k rfl
        refine ⟨s1, hok, Or.inr (Or.inl ?_)⟩
        simp only [CacheMap.step, Except.ok.injEq] at hok
        subst hok
        have hm : (s.erase k).map_ k = none := by simp [CacheMap.erase, CacheMap.eraseKey]
        refine ⟨⟨hwf1, ?_, h.trace⟩, hm⟩
        intro v1 hv1
        rw [hm] at hv1
        cases hv1
      | find k =>
        simp only [Op.target, Option.some.injEq] at ht
        subst ht
        by_cases hz : 0 < toInt v.timeout
        · obtain ⟨e, s1, hok, hsch⟩ := find_renew s k v hv hz hi h.wf.queue_ne
          refine ⟨s1, by simp [CacheMap.step, hok, Except.map], Or.inl ?_⟩
          have := hsch.armed h.wf (h.wf.weak_key k v · hv) hpos hcb
          rw [h.trace] at this
          exact this
        · exact ⟨s, by simp [CacheMap.step, find_idle s k v hv hz, Except.map], Or.inl h⟩
      | operatorIndex k =>
        simp only [Op.target, Option.some.injEq] at ht
        subst ht
        by_cases hz : 0 < toInt v.timeout
        · obtain ⟨e, s1, hok, hsch⟩ := operatorIndex_renew s k v hv hz hi h.wf.queue_ne
          refine ⟨s1, by simp [CacheMap.step, hok, Except.map], Or.inl ?_⟩
          have := hsch.armed h.wf (h.wf.weak_key k v · hv) hpos hcb
          rw [h.trace] at this
          exact this
        · refine ⟨s.setEntry k v,
            by simp [CacheMap.step, operatorIndex_idle s k v hv hz, Except.map], Or.inl ?_⟩
          exact ⟨setEntry_wf s h.wf k v (h.wf.weak_key k v · hv),
            ⟨v, by simp [CacheMap.setEntry], hpos, hcb⟩, h.trace⟩
    · obtain ⟨s1, hok, hwf1, hfr⟩ := step_frame s h.wf op k1 ht
      exact ⟨s1, hok, Or.inl ⟨hwf1, ⟨v, by rw [hfr.others key hk]; exact hv, hpos, hcb⟩,
        by rw [hfr.invokedFor_eq]; exact h.trace⟩⟩

theorem Armed.armed_run {key : K} {c : Nat} {tr : List (K × Nat)} {s : CacheMap K V}
    (h : Armed key c tr s) (ops : List (Op K V)) (ha : NoInsert key ops) :
    ∃ s1, s.run ops = .ok s1 ∧
      (Armed key c tr s1 ∨ Quiet key tr s1 ∨ Quiet key (tr ++ [(key, c)]) s1) := by
  induction ops generalizing s with
  | nil => exact ⟨s, rfl, Or.inl h⟩
  | cons op ops ih =>
    obtain ⟨s1, hok, hcase⟩ := h.armed_step op ha.first
    rw [run_cons s s1 op ops hok]
    rcases hcase with h1 | ⟨h1, _⟩ | ⟨h1, _⟩
    · exact ih h1 ha.rest
    · obtain ⟨s2, hok2, hq2⟩ := h1.quiet_run ops ha.rest
      exact ⟨s2, hok2, Or.inr (Or.inl hq2)⟩
    · obtain ⟨s2, hok2, hq2⟩ := h1.quiet_run ops ha.rest
      exact ⟨s2, hok2, Or.inr (Or.inr hq2)⟩

theorem NoInsert.left {key : K} {ops1 ops2 : List (Op K V)}
    (h : NoInsert key (ops1 ++ ops2)) : NoInsert key ops1 :=
  fun o ho => h o (List.mem_append_left _ ho)

theorem NoInsert.right {key : K} {ops1 ops2 : List (Op K V)}
    (h : NoInsert key (ops1 ++ ops2)) : NoInsert key ops2 :=
  fun o ho => h o (List.mem_append_right _ ho)

theorem noStale_iff (s : CacheMap K V) (key : K) :
    NoStale s key ↔ ∀ i, ∀ x ∈ bucketAt s.event_bucket_queue_ i, x.key = key →
      (s.map_ key).bind (fun v => v._weakEntryPtr) = some x := by
  constructor
  · intro h i x hx
    rcases bucketAt_mem_or_nil s.event_bucket_queue_ i with h1 | h1
    · exact h _ h1 x hx
    · rw [h1] at hx
      cases hx
  · intro h b hb x hx
    obtain ⟨i, hi⟩ := exists_bucketAt_of_mem _ b hb
    exact h i x (by rw [hi]; exact hx)

theorem Renewed.mono {key : K} {t : Nat} {interval : Int} {capacity r : Nat}
    {s : CacheMap K V} (h : Renewed key t interval capacity r s) (r1 : Nat) (hr : r1 ≤ r) :
    Renewed key t interval capacity r1 s := by
  obtain ⟨v, hv, ht, hns, hfar⟩ := h.entry
  refine ⟨h.wf, h.period, h.size, v, hv, ht, hns, ?_⟩
  rcases hfar with h0 | ⟨e, p, he, hp, hmem⟩
  · exact Or.inl (by omega)
  · exact Or.inr ⟨e, p, he, by omega, hmem⟩

theorem Renewed.renewed_tick {key : K} {t : Nat} {interval : Int} {capacity r : Nat}
    {s : CacheMap K V} (h : Renewed key t interval capacity (r + 1) s) :
    ∃ s1, s.tick = .ok s1 ∧ Renewed key t interval capacity r s1 := by
  obtain ⟨v, hv, ht, hns, hfar⟩ := h.entry
  obtain ⟨s1, hok, hwf1, hrot⟩ := tick_spec s h.wf
  rcases hfar with h0 | ⟨e, p, he, hp, hmem⟩
  · omega
  · obtain ⟨p1, rfl⟩ : ∃ p1, p = p1 + 1 := ⟨p - 1, by omega⟩
    have hkeep := hrot.keep key (by
      intro x hx hxk
      have h1 := hns 0 x hx hxk
      rw [he] at h1
      cases h1
      exact ⟨p1, hmem⟩)
    refine ⟨s1, hok, hwf1, by rw [hrot.interval]; exact h.period,
      by rw [hrot.length]; exact h.size, v, by rw [hkeep.1]; exact hv, ht, ?_, ?_⟩
    · intro i x hx hxk
      rw [hrot.queue i] at hx
      exact hns (i + 1) x hx hxk
    · exact Or.inr ⟨e, p1, he, by omega, by rw [hrot.queue p1]; exact hmem⟩

theorem Renewed.renewed_other {key : K} {t : Nat} {interval : Int} {capacity r : Nat}
    {s : CacheMap K V} (h : Renewed key t interval capacity r s) (op : Op K V) (k1 : K)
    (hop : op.target = some k1) (hk : k1 ≠ key) :
    ∃ s1, s.step op = .ok s1 ∧ Renewed key t interval capacity r s1 := by
  obtain ⟨v, hv, ht, hns, hfar⟩ := h.entry
  obtain ⟨s1, hok, hwf1, hfr⟩ := step_frame s h.wf op k1 hop
  refine ⟨s1, hok, hwf1, by rw [hfr.interval]; exact h.period,
    by rw [hfr.length_eq]; exact h.size, v,
    by rw [hfr.others key (Ne.symm hk)]; exact hv, ht, ?_, ?_⟩
  · intro i x hx hxk
    exact hns i x ((hfr.mem_iff i x (by rw [hxk]; exact Ne.symm hk)).mp hx) hxk
  · rcases hfar with h0 | ⟨e, p, he, hp, hmem⟩
    · exact Or.inl h0
    · have hek : e.key = key := h.wf.weak_key key v e hv he
      exact Or.inr ⟨e, p, he, hp,
        (hfr.mem_iff p e (by rw [hek]; exact Ne.symm hk)).mpr hmem⟩

theorem Scheduled.renewed {s s1 : CacheMap K V} {key : K} {v : MapValue K V} {i : Nat}
    {e : CallbackEntry K} (h : Scheduled s key v i e s1) (hwf : WF s)
    (hw : ∀ w, v._weakEntryPtr = some w → w.key = key)
    (hns : ∀ j, ∀ x ∈ bucketAt s.event_bucket_queue_ j, x.key = key →
      v._weakEntryPtr = some x) :
    Renewed key v.timeout s.timeInterval_ s.event_bucket_queue_.length i s1 := by
  refine ⟨h.sched_wf hwf hw, h.interval, by rw [h.queue, length_pushAt], _, h.entry, rfl,
    ?_, ?_⟩
  · intro j x hx hxk
    rw [h.queue, mem_bucketAt_pushAt _ _ _ _ _ h.index_lt] at hx
    rcases hx with hx | ⟨_, hx⟩
    · have h1 := hns j x hx hxk
      rcases h.token with h2 | ⟨h2, _⟩
      · have h3 := (lock_some _ _ _ h2).1
        rw [h1] at h3
        exact h3.symm
      · have h3 := lock_none _ _ h2 x h1
        rw [alive_false_iff] at h3
        exact absurd hx (h3 j)
    · rw [hx]
  · refine Or.inr ⟨e, i, rfl, le_refl _, ?_⟩
    rw [h.queue, mem_bucketAt_pushAt _ _ _ _ _ h.index_lt]
    exact Or.inr ⟨rfl, rfl⟩

theorem Renewed.renewed_access {key : K} {t : Nat} {interval : Int} {capacity r : Nat}
    {s : CacheMap K V} (h : Renewed key t interval capacity r s) (ht : 0 < t)
    (ht2 : t < 2 ^ 31) (op : Op K V) (hop : op = Op.find key ∨ op = Op.operatorIndex key) :
    ∃ s1, s.step op = .ok s1 ∧
      Renewed key t interval capacity
        (min (((t : Int) / interval).toNat + 1) (capacity - 1)) s1 := by
  obtain ⟨v, hv, hvt, hns, _⟩ := h.entry
  have hwf := h.wf
  have hi : s.timeInterval_ ≠ 0 := ne_of_gt hwf.interval_pos
  have hlen : 0 < s.event_bucket_queue_.length := List.length_pos.mpr hwf.queue_ne
  have hpos : 0 < toInt v.timeout := by
    rw [hvt, toInt_of_lt t ht2]
    exact_mod_cast ht
  have hidx : bucketIndexToPush (toInt v.timeout) s.timeInterval_
      s.event_bucket_queue_.length =
      min (((t : Int) / interval).toNat + 1) (capacity - 1) := by
    rw [hvt, toInt_of_lt t ht2, bucketIndexToPush_of_nat t _ _ ht2 hwf.interval_pos hlen,
      h.period, h.size]
  rcases hop with rfl | rfl
  · obtain ⟨e, s1, hok, hsch⟩ := find_renew s key v hv hpos hi hwf.queue_ne
    refine ⟨s1, by simp [CacheMap.step, hok, Except.map], ?_⟩
    have h1 := hsch.renewed hwf (hwf.weak_key key v · hv) hns
    rw [hidx, hvt, h.period, h.size] at h1
    exact h1
  · obtain ⟨e, s1, hok, hsch⟩ := operatorIndex_renew s key v hv hpos hi hwf.queue_ne
    refine ⟨s1, by simp [CacheMap.step, hok, Except.map], ?_⟩
    have h1 := hsch.renewed hwf (hwf.weak_key key v · hv) hns
    rw [hidx, hvt, h.period, h.size] at h1
    exact h1

/-- A key that is read often enough stays: along a sequence of calls in which the timer
never fires more often between two reads of the key than the position of the bucket
that a read schedules, every call succeeds and the entry is kept. -/
theorem Renewed.renewed_run {key : K} {t : Nat} {interval : Int} {capacity r : Nat}
    {s : CacheMap K V} (h : Renewed key t interval capacity r s) (ht : 0 < t)
    (ht2 : t < 2 ^ 31) (gap : Nat)
    (hgap : gap ≤ min (((t : Int) / interval).toNat + 1) (capacity - 1))
    (ops : List (Op K V)) (hsp : spaced key gap r ops = true) :
    ∃ s1 r1, s.run ops = .ok s1 ∧ Renewed key t interval capacity r1 s1 := by
  induction ops generalizing s r with
  | nil => exact ⟨s, r, rfl, h⟩
  | cons op ops ih =>
    cases op with
    | tick =>
      simp only [spaced, Bool.and_eq_true, decide_eq_true_eq] at hsp
      obtain ⟨r0, rfl⟩ : ∃ r0, r = r0 + 1 := ⟨r - 1, by omega⟩
      obtain ⟨s1, hok, h1⟩ := h.renewed_tick
      obtain ⟨s2, r2, hrun, h2⟩ := ih h1 (by simpa using hsp.2)
      exact ⟨s2, r2, by rw [run_tick s s1 ops hok]; exact hrun, h2⟩
    | find k =>
      simp only [spaced] at hsp
      by_cases hk : k = key
      · subst hk
        simp only [if_true] at hsp
        obtain ⟨s1, hok, h1⟩ := h.renewed_access ht ht2 (Op.find k) (Or.inl rfl)
        obtain ⟨s2, r2, hrun, h2⟩ := ih (h1.mono gap hgap) hsp
        exact ⟨s2, r2, by rw [run_cons s s1 _ ops hok]; exact hrun, h2⟩
      · simp only [hk, if_false] at hsp
        obtain ⟨s1, hok, h1⟩ := h.renewed_other (Op.find k) k rfl hk
        obtain ⟨s2, r2, hrun, h2⟩ := ih h1 hsp
        exact ⟨s2, r2, by rw [run_cons s s1 _ ops hok]; exact hrun, h2⟩
    | operatorIndex k =>
      simp only [spaced] at hsp
      by_cases hk : k = key
      · subst hk
        simp only [if_true] at hsp
        obtain ⟨s1, hok, h1⟩ := h.renewed_access ht ht2 (Op.operatorIndex k) (Or.inr rfl)
        obtain ⟨s2, r2, hrun, h2⟩ := ih (h1.mono gap hgap) hsp
        exact ⟨s2, r2, by rw [run_cons s s1 _ ops hok]; exact hrun, h2⟩
      · simp only [hk, if_false] at hsp
        obtain ⟨s1, hok, h1⟩ := h.renewed_other (Op.operatorIndex k) k rfl hk
        obtain ⟨s2, r2, hrun, h2⟩ := ih h1 hsp
        exact ⟨s2, r2, by rw [run_cons s s1 _ ops hok]; exact hrun, h2⟩
    | insert k value t1 cb =>
      simp only [spaced, Bool.and_eq_true, decide_eq_true_eq] at hsp
      obtain ⟨s1, hok, h1⟩ := h.renewed_other (Op.insert k value t1 cb) k rfl hsp.1
      obtain ⟨s2, r2, hrun, h2⟩ := ih h1 hsp.2
      exact ⟨s2, r2, by rw [run_cons s s1 _ ops hok]; exact hrun, h2⟩
    | erase k =>
      simp only [spaced, Bool.and_eq_true, decide_eq_true_eq] at hsp
      obtain ⟨s1, hok, h1⟩ := h.renewed_other (Op.erase k) k rfl hsp.1
      obtain ⟨s2, r2, hrun, h2⟩ := ih h1 hsp.2
      exact ⟨s2, r2, by rw [run_cons s s1 _ ops hok]; exact hrun, h2⟩

theorem spaced_left (key : K) (gap r : Nat) (ops1 ops2 : List (Op K V))
    (h : spaced key gap r (ops1 ++ ops2) = true) : spaced key gap r ops1 = true := by
  induction ops1 generalizing r with
  | nil => rfl
  | cons op ops1 ih =>
    cases op with
    | tick =>
      simp only [List.cons_append, spaced, Bool.and_eq_true, decide_eq_true_eq] at h ⊢
      exact ⟨h.1, ih _ h.2⟩
    | find k =>
      simp only [List.cons_append, spaced] at h ⊢
      exact ih _ h
    | operatorIndex k =>
      simp only [List.cons_append, spaced] at h ⊢
      exact ih _ h
    | insert k value t1 cb =>
      simp only [List.cons_append, spaced, Bool.and_eq_true, decide_eq_true_eq] at h ⊢
      exact ⟨h.1, ih _ h.2⟩
    | erase k =>
      simp only [List.cons_append, spaced, Bool.and_eq_true, decide_eq_true_eq] at h ⊢
      exact ⟨h.1, ih _ h.2⟩

theorem noneBeyond_iff (s : CacheMap K V) (key : K) (p : Nat) :
    NoneBeyond s key p ↔
      ∀ i, ∀ x ∈ bucketAt s.event_bucket_queue_ i, x.key = key → i ≤ p := by
  constructor
  · intro h i x hx hxk
    by_cases hi : i < s.event_bucket_queue_.length
    · exact h i hi x hx hxk
    · rw [bucketAt_of_length_le _ i (by omega)] at hx
      cases hx
  · intro h i _ x hx hxk
    exact h i x hx hxk

theorem Done.done_step {key : K} {tr : List (K × Nat)} {s : CacheMap K V}
    (h : Done key tr s) (op : Op K V) (hop : op.target ≠ some key) :
    ∃ s1, s.step op = .ok s1 ∧ Done key tr s1 := by
  cases ht : op.target with
  | none =>
    rw [target_eq_none op ht]
    obtain ⟨s1, hok, hwf1, hm, htr⟩ := tick_idle s h.wf key (by
      intro v hv
      rw [h.entry] at hv
      cases hv)
    exact ⟨s1, hok, hwf1, by rw [hm]; exact h.entry, by rw [htr]; exact h.trace⟩
  | some k1 =>
    have hk : key ≠ k1 := fun hk => hop (by rw [ht, hk])
    obtain ⟨s1, hok, hwf1, hfr⟩ := step_frame s h.wf op k1 ht
    exact ⟨s1, hok, hwf1, by rw [hfr.others key hk]; exact h.entry,
      by rw [hfr.invokedFor_eq]; exact h.trace⟩

theorem Done.done_run {key : K} {tr : List (K × Nat)} {s : CacheMap K V}
    (h : Done key tr s) (ops : List (Op K V)) (ha : Avoids key ops) :
    ∃ s1, s.run ops = .ok s1 ∧ Done key tr s1 := by
  induction ops generalizing s with
  | nil => exact ⟨s, rfl, h⟩
  | cons op ops ih =>
    obtain ⟨s1, hok, h1⟩ := h.done_step op (ha op (List.mem_cons_self _ _))
    obtain ⟨s2, hok2, h2⟩ := ih h1 ha.tail
    exact ⟨s2, by rw [run_cons s s1 op ops hok]; exact hok2, h2⟩

theorem Due.due_other {key : K} {cbt tr : List (K × Nat)} {p : Nat} {s : CacheMap K V}
    (h : Due key cbt tr p s) (op : Op K V) (k1 : K) (hop : op.target = some k1)
    (hk : k1 ≠ key) : ∃ s1, s.step op = .ok s1 ∧ Due key cbt tr p s1 := by
  obtain ⟨s1, hok, hwf1, hfr⟩ := step_frame s h.wf op k1 hop
  refine ⟨s1, hok, hwf1, ?_, ?_⟩
  · intro i x hx hxk
    exact h.bound i x ((hfr.mem_iff i x (by rw [hxk]; exact Ne.symm hk)).mp hx) hxk
  · rcases h.state with ⟨v, e, hv, hpos, hcb, hw, ⟨i, hi⟩, htr⟩ | ⟨hm, htr⟩
    · have hek : e.key = key := h.wf.weak_key key v e hv hw
      exact Or.inl ⟨v, e, by rw [hfr.others key (Ne.symm hk)]; exact hv, hpos, hcb, hw,
        ⟨i, (hfr.mem_iff i e (by rw [hek]; exact Ne.symm hk)).mpr hi⟩,
        by rw [hfr.invokedFor_eq]; exact htr⟩
    · exact Or.inr ⟨by rw [hfr.others key (Ne.symm hk)]; exact hm,
        by rw [hfr.invokedFor_eq]; exact htr⟩

/-- One firing of the timer moves the objects of the key one bucket to the front; when
they were all in the front bucket the entry is gone afterwards. -/
theorem Due.due_tick {key : K} {cbt tr : List (K × Nat)} {p : Nat} {s : CacheMap K V}
    (h : Due key cbt tr p s) :
    ∃ s1, s.tick = .ok s1 ∧ Due key cbt tr (p - 1) s1 ∧ (p = 0 → Done key (tr ++ cbt) s1) := by
  obtain ⟨s1, hok, hwf1, hrot⟩ := tick_spec s h.wf
  have hbound : ∀ i, ∀ x ∈ bucketAt s1.event_bucket_queue_ i, x.key = key → i ≤ p - 1 := by
    intro i x hx hxk
    rw [hrot.queue i] at hx
    have := h.bound (i + 1) x hx hxk
    omega
  rcases h.state with ⟨v, e, hv, hpos, hcb, hw, ⟨i, hi⟩, htr⟩ | ⟨hm, htr⟩
  · have hek : e.key = key := h.wf.weak_key key v e hv hw
    by_cases hdie : ∃ x ∈ bucketAt s.event_bucket_queue_ 0, x.key = key ∧
        ∀ j, x ∉ bucketAt s.event_bucket_queue_ (j + 1)
    · have hf := hrot.fired key hdie
      have hm1 : s1.map_ key = none := by
        rw [hf.1, hv]
        simp [firedEntry, hpos]
      have htr1 : s1.invokedFor key = tr ++ cbt := by
        rw [hf.2, hv, htr]
        simp [firedTrace, hpos, hcb]
      exact ⟨s1, hok, ⟨hwf1, hbound, Or.inr ⟨hm1, htr1⟩⟩, fun _ => ⟨hwf1, hm1, htr1⟩⟩
    · have hall : ∀ x ∈ bucketAt s.event_bucket_queue_ 0, x.key = key →
          ∃ j, x ∈ bucketAt s.event_bucket_queue_ (j + 1) := by
        intro x hx hxk
        by_contra hne
        exact hdie ⟨x, hx, hxk, fun j hj => hne ⟨j, hj⟩⟩
      have hk := hrot.keep key hall
      have halive : ∃ j, e ∈ bucketAt s1.event_bucket_queue_ j := by
        cases i with
        | zero =>
          obtain ⟨j, hj⟩ := hall e hi hek
          exact ⟨j, by rw [hrot.queue j]; exact hj⟩
        | succ i => exact ⟨i, by rw [hrot.queue i]; exact hi⟩
      refine ⟨s1, hok, ⟨hwf1, hbound, Or.inl ⟨v, e, by rw [hk.1]; exact hv, hpos, hcb, hw,
        halive, by rw [hk.2]; exact htr⟩⟩, ?_⟩
      intro hp0
      subst hp0
      obtain ⟨j, hj⟩ := halive
      rw [hrot.queue j] at hj
      have := h.bound (j + 1) e hj hek
      omega
  · obtain ⟨s2, hok2, hwf2, hm2, htr2⟩ := tick_idle s h.wf key (by
      intro v hv
      rw [hm] at hv
      cases hv)
    rw [hok] at hok2
    cases hok2
    have hm1 : s1.map_ key = none := by rw [hm2]; exact hm
    have htr1 : s1.invokedFor key = tr ++ cbt := by rw [htr2]; exact htr
    exact ⟨s1, hok, ⟨hwf1, hbound, Or.inr ⟨hm1, htr1⟩⟩, fun _ => ⟨hwf1, hm1, htr1⟩⟩

/-- Once the timer has fired more often than the position of the last bucket that holds
an object of the key, the entry is gone and its callback has been invoked. -/
theorem Due.due_run {key : K} {cbt tr : List (K × Nat)} {p : Nat} {s : CacheMap K V}
    (h : Due key cbt tr p s) (ops : List (Op K V)) (ha : Avoids key ops)
    (hn : p < tickCount ops) :
    ∃ s1, s.run ops = .ok s1 ∧ Done key (tr ++ cbt) s1 := by
  induction ops generalizing s p with
  | nil => simp [tickCount] at hn
  | cons op ops ih =>
    rcases ha.head with rfl | ⟨k1, hop, hk⟩
    · obtain ⟨s1, hok, h1, h2⟩ := h.due_tick
      rw [run_tick s s1 ops hok]
      simp only [tickCount] at hn
      by_cases hp : p = 0
      · exact (h2 hp).done_run ops ha.tail
      · exact ih h1 ha.tail (by omega)
    · obtain ⟨s1, hok, h1⟩ := h.due_other op k1 hop hk
      rw [run_cons s s1 op ops hok]
      rw [tickCount_cons_of_target op ops k1 hop] at hn
      exact ih h1 ha.tail hn

/-- Inserting with a positive timeout that fits `int`, for a key none of whose objects
sits behind the bucket that `eraseAfter` computes, leaves the key due at that bucket. -/
theorem insert_due (s : CacheMap K V) (hwf : WF s) (key : K) (value : V) (t : Nat)
    (cb : Option Nat) (ht : 0 < t) (ht2 : t < 2 ^ 31)
    (hb : NoneBeyond s key
      (min (((t : Int) / s.timeInterval_).toNat + 1) (s.event_bucket_queue_.length - 1))) :
    ∃ s1, s.insert key value t cb = .ok s1 ∧
      Due key (callbackTrace key cb) (s.invokedFor key)
        (min (((t : Int) / s.timeInterval_).toNat + 1) (s.event_bucket_queue_.length - 1))
        s1 := by
  have hi : s.timeInterval_ ≠ 0 := ne_of_gt hwf.interval_pos
  have hlen : 0 < s.event_bucket_queue_.length := List.length_pos.mpr hwf.queue_ne
  obtain ⟨e, s1, hok, hsch⟩ := insert_pos_spec s key value t cb ht hi hwf.queue_ne
  rw [toInt_of_lt t ht2, bucketIndexToPush_of_nat t _ _ ht2 hwf.interval_pos hlen] at hsch
  have hw := at_weak_key s hwf key
  refine ⟨s1, hok, hsch.sched_wf hwf hw, ?_, Or.inl ⟨_, e, hsch.entry, ht, rfl, rfl, ?_, ?_⟩⟩
  · intro i x hx hxk
    rw [hsch.queue, mem_bucketAt_pushAt _ _ _ _ _ hsch.index_lt] at hx
    rcases hx with hx | ⟨h1, _⟩
    · exact (noneBeyond_iff s key _).mp hb i x hx hxk
    · omega
  · refine ⟨min (((t : Int) / s.timeInterval_).toNat + 1)
      (s.event_bucket_queue_.length - 1), ?_⟩
    rw [hsch.queue, mem_bucketAt_pushAt _ _ _ _ _ hsch.index_lt]
    exact Or.inr ⟨rfl, rfl⟩
  · unfold CacheMap.invokedFor
    rw [hsch.invoked]

/-- Every call and every firing of the timer on a well-formed map succeeds, and is a
rotation or stays in the frame of a key. -/
theorem step_cases (s : CacheMap K V) (hwf : WF s) (op : Op K V) :
    ∃ s1, s.step op = .ok s1 ∧ WF s1 ∧ (Rotated s s1 ∨ ∃ key, Frame key s s1) := by
  cases hop : op.target with
  | none =>
    rw [target_eq_none op hop]
    obtain ⟨s1, h1, h2, h3⟩ := tick_spec s hwf
    exact ⟨s1, h1, h2, Or.inl h3⟩
  | some key =>
    obtain ⟨s1, h1, h2, h3⟩ := step_frame s hwf op key hop
    exact ⟨s1, h1, h2, Or.inr ⟨key, h3⟩⟩

theorem step_shape (s s1 : CacheMap K V) (hwf : WF s) (interval limit : Int)
    (h : Shape interval limit s) (op : Op K V) (hok : s.step op = .ok s1) :
    Shape interval limit s1 := by
  obtain ⟨s2, hok2, _, hcase⟩ := step_cases s hwf op
  rw [hok] at hok2
  cases hok2
  rcases hcase with hrot | ⟨key, hfr⟩
  · exact ⟨by rw [hrot.interval]; exact h.period_eq, by rw [hrot.params.1]; exact h.limit_eq,
      by rw [hrot.params.2]; exact h.count_eq, by rw [hrot.length]; exact h.size_eq⟩
  · exact ⟨by rw [hfr.interval]; exact h.period_eq, by rw [hfr.params.1]; exact h.limit_eq,
      by rw [hfr.params.2]; exact h.count_eq, by rw [hfr.length_eq]; exact h.size_eq⟩

theorem run_shape (s s1 : CacheMap K V) (hwf : WF s) (interval limit : Int)
    (h : Shape interval limit s) (ops : List (Op K V)) (hok : s.run ops = .ok s1) :
    Shape interval limit s1 := by
  induction ops generalizing s with
  | nil =>
    simp only [CacheMap.run, Except.ok.injEq] at hok
    subst hok
    exact h
  | cons op ops ih =>
    obtain ⟨s2, hok2, hwf2⟩ := step_wf s hwf op
    rw [run_cons s s2 op ops hok2] at hok
    exact ih s2 hwf2 (step_shape s s2 hwf interval limit h op hok2) hok

/-- In a reachable state the period, the limit and the capacity are those the
constructor set. -/
theorem Reachable.shape {s : CacheMap K V} (h : Reachable s) :
    ∃ interval limit, ValidArgs interval limit ∧ Shape interval limit s := by
  obtain ⟨interval, limit, ops, hv, hrun⟩ := h
  refine ⟨interval, limit, hv, ?_⟩
  exact run_shape _ s (new_wf interval limit hv) interval limit
    ⟨rfl, rfl, rfl, new_length interval limit hv⟩ ops hrun

theorem Scheduled.sched_ids {s s1 : CacheMap K V} {key : K} {v : MapValue K V} {i : Nat}
    {e : CallbackEntry K} (h : Scheduled s key v i e s1) (hids : Ids s)
    (hvw : ∀ w, v._weakEntryPtr = some w → w.id < s.allocated ∧
      ∀ j, ∀ x ∈ bucketAt s.event_bucket_queue_ j, x.id = w.id → x = w) : Ids s1 := by
  have hfacts : s.allocated ≤ s1.allocated ∧ e.id < s1.allocated ∧
      (∀ j, ∀ x ∈ bucketAt s.event_bucket_queue_ j, x.id = e.id → x = e) ∧
      (∀ k v1 w, s.map_ k = some v1 → v1._weakEntryPtr = some w → e.id = w.id → e = w) := by
    have hc := h.count
    rcases h.token with h1 | ⟨h1, h2⟩
    · rw [h1] at hc
      simp only [Option.isSome_some, if_true] at hc
      obtain ⟨hw, ha⟩ := lock_some _ _ _ h1
      obtain ⟨j, hj⟩ := (alive_iff e _).mp ha
      refine ⟨by omega, by rw [hc]; exact (hvw e hw).1, (hvw e hw).2, ?_⟩
      intro k v1 w hk hw1 hid
      exact hids.weak_unique k v1 w hk hw1 j e hj hid
    · rw [h1] at hc
      simp only [Option.isSome_none, Bool.false_eq_true, if_false] at hc
      refine ⟨by omega, by rw [hc, h2]; exact Nat.lt_succ_self _, ?_, ?_⟩
      · intro j x hx hid
        have := hids.queue_lt j x hx
        rw [h2] at hid
        simp only at hid
        omega
      · intro k v1 w hk hw1 hid
        have := hids.weak_lt k v1 w hk hw1
        rw [h2] at hid
        simp only at hid
        omega
  obtain ⟨hle, helt, heold, heweak⟩ := hfacts
  have hmem : ∀ j x, x ∈ bucketAt s1.event_bucket_queue_ j →
      x ∈ bucketAt s.event_bucket_queue_ j ∨ x = e := by
    intro j x hx
    rw [h.queue, mem_bucketAt_pushAt _ _ _ _ _ h.index_lt] at hx
    rcases hx with hx | ⟨_, hx⟩
    · exact Or.inl hx
    · exact Or.inr hx
  refine ⟨?_, ?_, ?_, ?_⟩
  · intro j x hx
    rcases hmem j x hx with h1 | h1
    · exact lt_of_lt_of_le (hids.queue_lt j x h1) hle
    · rw [h1]; exact helt
  · intro k v1 w hk hw
    by_cases hkk : k = key
    · subst hkk
      rw [h.entry] at hk
      cases hk
      simp only [Option.some.injEq] at hw
      subst hw
      exact helt
    · rw [h.others k hkk] at hk
      exact lt_of_lt_of_le (hids.weak_lt k v1 w hk hw) hle
  · intro j1 j2 x hx y hy hid
    rcases hmem j1 x hx with h1 | h1
    · rcases hmem j2 y hy with h2 | h2
      · exact hids.queue_unique j1 j2 x h1 y h2 hid
      · subst h2
        exact heold j1 x h1 hid
    · rcases hmem j2 y hy with h2 | h2
      · subst h1
        exact (heold j2 y h2 hid.symm).symm
      · rw [h1, h2]
  · intro k v1 w hk hw j x hx hid
    by_cases hkk : k = key
    · subst hkk
      rw [h.entry] at hk
      cases hk
      simp only [Option.some.injEq] at hw
      subst hw
      rcases hmem j x hx with h1 | h1
      · exact heold j x h1 hid
      · exact h1
    · rw [h.others k hkk] at hk
      rcases hmem j x hx with h1 | h1
      · exact hids.weak_unique k v1 w hk hw j x h1 hid
      · subst h1
        exact heweak k v1 w hk hw hid

theorem setEntry_ids (s : CacheMap K V) (hids : Ids s) (key : K) (v : MapValue K V)
    (hvw : ∀ w, v._weakEntryPtr = some w → w.id < s.allocated ∧
      ∀ j, ∀ x ∈ bucketAt s.event_bucket_queue_ j, x.id = w.id → x = w) :
    Ids (s.setEntry key v) := by
  refine ⟨hids.queue_lt, ?_, hids.queue_unique, ?_⟩
  · intro k v1 w hk hw
    by_cases hkk : k = key
    · subst hkk
      simp only [CacheMap.setEntry, if_true, Option.some.injEq] at hk
      subst hk
      exact (hvw w hw).1
    · simp only [CacheMap.setEntry, hkk, if_false] at hk
      exact hids.weak_lt k v1 w hk hw
  · intro k v1 w hk hw
    by_cases hkk : k = key
    · subst hkk
      simp only [CacheMap.setEntry, if_true, Option.some.injEq] at hk
      subst hk
      exact (hvw w hw).2
    · simp only [CacheMap.setEntry, hkk, if_false] at hk
      exact hids.weak_unique k v1 w hk hw

theorem Ids.of_entry {s : CacheMap K V} (hids : Ids s) (key : K) (v : MapValue K V)
    (hv : s.map_ key = some v) :
    ∀ w, v._weakEntryPtr = some w → w.id < s.allocated ∧
      ∀ j, ∀ x ∈ bucketAt s.event_bucket_queue_ j, x.id = w.id → x = w :=
  fun w hw => ⟨hids.weak_lt key v w hv hw, hids.weak_unique key v w hv hw⟩

theorem Ids.of_at {s : CacheMap K V} (hids : Ids s) (key : K) :
    ∀ w, (s.at key)._weakEntryPtr = some w → w.id < s.allocated ∧
      ∀ j, ∀ x ∈ bucketAt s.event_bucket_queue_ j, x.id = w.id → x = w := by
  intro w hw
  cases hv : s.map_ key with
  | none =>
    rw [at_of_none s key hv] at hw
    cases hw
  | some v =>
    rw [at_of_some s key v hv] at hw
    exact hids.of_entry key v hv w hw

/-- Every call and every firing of the timer keeps allocation numbers an identity. -/
theorem step_ids (s s1 : CacheMap K V) (hwf : WF s) (hids : Ids s) (op : Op K V)
    (hok : s.step op = .ok s1) : Ids s1 := by
  have hi : s.timeInterval_ ≠ 0 := ne_of_gt hwf.interval_pos
  cases op with
  | tick =>
    obtain ⟨s2, hok2, _, hrot⟩ := tick_spec s hwf
    have : s1 = s2 := by
      have h1 : s.step Op.tick = .ok s2 := hok2
      rw [hok] at h1
      cases h1
      rfl
    subst this
    refine ⟨?_, ?_, ?_, ?_⟩
    · intro i x hx
      rw [hrot.queue i] at hx
      rw [hrot.allocated]
      exact hids.queue_lt (i + 1) x hx
    · intro k v w hk hw
      rw [hrot.allocated]
      exact hids.weak_lt k v w (hrot.sub k v hk) hw
    · intro i j x hx y hy hid
      rw [hrot.queue i] at hx
      rw [hrot.queue j] at hy
      exact hids.queue_unique (i + 1) (j + 1) x hx y hy hid
    · intro k v w hk hw i x hx hid
      rw [hrot.queue i] at hx
      exact hids.weak_unique k v w (hrot.sub k v hk) hw (i + 1) x hx hid
  | insert k value t cb =>
    by_cases ht : 0 < t
    · obtain ⟨e, s2, hok2, hsch⟩ := insert_pos_spec s k value t cb ht hi hwf.queue_ne
      have h1 : s.step (Op.insert k value t cb) = .ok s2 := hok2
      rw [hok] at h1
      cases h1
      exact hsch.sched_ids hids (hids.of_at k)
    · have hs : s.insert k value t cb = .ok (s.setEntry k ⟨t, value, none, none⟩) := by
        simp [CacheMap.insert, ht, CacheMap.setEntry, CacheMap.at]
        funext k1
        by_cases hk : k1 = k <;> simp [hk]
      have h1 : s.step (Op.insert k value t cb) = .ok _ := hs
      rw [hok] at h1
      cases h1
      exact setEntry_ids s hids k _ (by intro w hw; cases hw)
  | operatorIndex k =>
    cases hv : s.map_ k with
    | none =>
      simp only [CacheMap.step, operatorIndex_absent s k hv, Except.map, Except.ok.injEq] at hok
      subst hok
      exact setEntry_ids s hids k _ (by intro w hw; cases hw)
    | some v =>
      by_cases ht : 0 < toInt v.timeout
      · obtain ⟨e, s2, hok2, hsch⟩ := operatorIndex_renew s k v hv ht hi hwf.queue_ne
        simp only [CacheMap.step, hok2, Except.map, Except.ok.injEq] at hok
        subst hok
        exact hsch.sched_ids hids (hids.of_entry k v hv)
      · simp only [CacheMap.step, operatorIndex_idle s k v hv ht, Except.map,
          Except.ok.injEq] at hok
        subst hok
        exact setEntry_ids s hids k v (hids.of_entry k v hv)
  | find k =>
    cases hv : s.map_ k with
    | none =>
      simp only [CacheMap.step, find_absent s k hv, Except.map, Except.ok.injEq] at hok
      subst hok
      exact hids
    | some v =>
      by_cases ht : 0 < toInt v.timeout
      · obtain ⟨e, s2, hok2, hsch⟩ := find_renew s k v hv ht hi hwf.queue_ne
        simp only [CacheMap.step, hok2, Except.map, Except.ok.injEq] at hok
        subst hok
        exact hsch.sched_ids hids (hids.of_entry k v hv)
      · simp only [CacheMap.step, find_idle s k v hv ht, Except.map, Except.ok.injEq] at hok
        subst hok
        exact hids
  | erase k =>
    simp only [CacheMap.step, Except.ok.injEq] at hok
    subst hok
    refine ⟨hids.queue_lt, ?_, hids.queue_unique, ?_⟩
    · intro k1 v w hk hw
      by_cases hkk : k1 = k
      · simp [CacheMap.erase, CacheMap.eraseKey, hkk] at hk
      · simp only [CacheMap.erase, CacheMap.eraseKey, hkk, if_false] at hk
        exact hids.weak_lt k1 v w hk hw
    · intro k1 v w hk hw
      by_cases hkk : k1 = k
      · simp [CacheMap.erase, CacheMap.eraseKey, hkk] at hk
      · simp only [CacheMap.erase, CacheMap.eraseKey, hkk, if_false] at hk
        exact hids.weak_unique k1 v w hk hw

theorem run_ids (s s1 : CacheMap K V) (hwf : WF s) (hids : Ids s) (ops : List (Op K V))
    (hok : s.run ops = .ok s1) : Ids s1 := by
  induction ops generalizing s with
  | nil =>
    simp only [CacheMap.run, Except.ok.injEq] at hok
    subst hok
    exact hids
  | cons op ops ih =>
    obtain ⟨s2, hok2, hwf2⟩ := step_wf s hwf op
    rw [run_cons s s2 op ops hok2] at hok
    exact ih s2 hwf2 (step_ids s s2 hwf hids op hok2) hok

/-- In a reachable state two objects with the same allocation number are the same
object, so comparing objects and comparing their numbers agree. -/
theorem Reachable.ids {s : CacheMap K V} (h : Reachable s) : Ids s := by
  obtain ⟨interval, limit, ops, hv, hrun⟩ := h
  refine run_ids _ s (new_wf interval limit hv) ?_ ops hrun
  have hnil : ∀ i, bucketAt (CacheMap.new interval limit : CacheMap K V).event_bucket_queue_ i
      = [] := by
    intro i
    rcases bucketAt_mem_or_nil
      (CacheMap.new interval limit : CacheMap K V).event_bucket_queue_ i with h1 | h1
    · simp only [CacheMap.new] at h1
      exact List.eq_of_mem_replicate h1
    · exact h1
  refine ⟨?_, ?_, ?_, ?_⟩
  · intro i x hx
    rw [hnil i] at hx
    cases hx
  · intro k v w hk
    cases hk
  · intro i j x hx
    rw [hnil i] at hx
    cases hx
  · intro k v w hk
    cases hk

theorem bucketInsert_idem (e : CallbackEntry K) (b : CallbackBucket K) :
    bucketInsert e (bucketInsert e b) = bucketInsert e b :=
  bucketInsert_of_mem e _ ((mem_bucketInsert e e b).mpr (Or.inl rfl))

theorem pushAt_idem (e : CallbackEntry K) (i : Nat) (q : CallbackBucketQueue K) :
    pushAt e i (pushAt e i q) = pushAt e i q := by
  induction q generalizing i with
  | nil => cases i <;> rfl
  | cons b q ih =>
    cases i with
    | zero => simp [pushAt, bucketInsert_idem]
    | succ i => simp [pushAt, ih]

theorem alive_pushAt (e : CallbackEntry K) (i : Nat) (q : CallbackBucketQueue K)
    (h : i < q.length) : alive e (pushAt e i q) = true := by
  rw [alive_iff]
  exact ⟨i, (mem_bucketAt_pushAt e e i i q h).mpr (Or.inr ⟨rfl, rfl⟩)⟩

theorem lock_alive (e : CallbackEntry K) (q : CallbackBucketQueue K)
    (h : alive e q = true) : lock (some e) q = some e := by
  simp [lock, h]

/-- The method `eraseAfter` on an entry whose object is alive: the object is put in the
bucket, and nothing else changes. -/
theorem eraseAfter_live (s : CacheMap K V) (delay : Int) (key : K) (v : MapValue K V)
    (e : CallbackEntry K) (hv : s.map_ key = some v) (hw : v._weakEntryPtr = some e)
    (ha : alive e s.event_bucket_queue_ = true) (hi : s.timeInterval_ ≠ 0)
    (hq : s.event_bucket_queue_ ≠ []) :
    s.eraseAfter delay key = .ok { s with
      event_bucket_queue_ := pushAt e
        (bucketIndexToPush delay s.timeInterval_ s.event_bucket_queue_.length)
        s.event_bucket_queue_ } := by
  have hlen : 0 < s.event_bucket_queue_.length := List.length_pos.mpr hq
  have hidx := bucketIndexToPush_lt delay s.timeInterval_ _ hlen
  have hat := at_of_some s key v hv
  unfold CacheMap.eraseAfter
  simp only [hv, Option.isNone_some, Bool.false_eq_true, if_false, hi, hidx, if_true, hat, hw,
    lock_alive e _ ha]

/-- The `assert` of `eraseAfter` fails exactly when the key is not in the map. -/
theorem eraseAfter_assert (s : CacheMap K V) (delay : Int) (key : K) :
    s.eraseAfter delay key = .error .assertFailed ↔ s.map_ key = none := by
  constructor
  · intro h
    cases hv : s.map_ key with
    | none => rfl
    | some v =>
      exfalso
      unfold CacheMap.eraseAfter at h
      simp only [hv, Option.isNone_some, Bool.false_eq_true, if_false] at h
      split at h
      · cases h
      · split at h
        · split at h <;> cases h
        · cases h
  · intro h
    simp [CacheMap.eraseAfter, h]

theorem insert_assert (s : CacheMap K V) (key : K) (value : V) (t : Nat) (cb : Option Nat) :
    s.insert key value t cb ≠ .error .assertFailed := by
  unfold CacheMap.insert
  split
  · intro h
    have h1 := (eraseAfter_assert _ _ _).mp h
    simp [CacheMap.setEntry] at h1
  · intro h
    cases h

theorem find_assert (s : CacheMap K V) (key : K) : s.find key ≠ .error .assertFailed := by
  intro h
  cases hv : s.map_ key with
  | none =>
    rw [find_absent s key hv] at h
    cases h
  | some v =>
    by_cases ht : 0 < toInt v.timeout
    · have h1 : s.eraseAfter (toInt v.timeout) key ≠ .error .assertFailed := by
        intro h2
        have h3 := (eraseAfter_assert _ _ _).mp h2
        rw [hv] at h3
        cases h3
      cases he : s.eraseAfter (toInt v.timeout) key with
      | error f =>
        simp only [CacheMap.find, hv, Option.isSome_some, if_true, at_of_some s key v hv, ht,
          gt_iff_lt, he] at h
        cases h
        exact h1 he
      | ok s1 =>
        simp only [CacheMap.find, hv, Option.isSome_some, if_true, at_of_some s key v hv, ht,
          gt_iff_lt, he] at h
        cases h
    · rw [find_idle s key v hv ht] at h
      cases h

theorem operatorIndex_assert (s : CacheMap K V) (key : K) :
    s.operatorIndex key ≠ .error .assertFailed := by
  intro h
  cases hv : s.map_ key with
  | none =>
    rw [operatorIndex_absent s key hv] at h
    cases h
  | some v =>
    by_cases ht : 0 < toInt v.timeout
    · have h1 : s.eraseAfter (toInt v.timeout) key ≠ .error .assertFailed := by
        intro h2
        have h3 := (eraseAfter_assert _ _ _).mp h2
        rw [hv] at h3
        cases h3
      cases he : s.eraseAfter (toInt v.timeout) key with
      | error f =>
        simp only [CacheMap.operatorIndex, hv, Option.isSome_some, if_true,
          at_of_some s key v hv, ht, gt_iff_lt, he] at h
        cases h
        exact h1 he
      | ok s1 =>
        simp only [CacheMap.operatorIndex, hv, Option.isSome_some, if_true,
          at_of_some s key v hv, ht, gt_iff_lt, he] at h
        cases h
    · rw [operatorIndex_idle s key v hv ht] at h
      cases h

theorem tickCount_replicate (n : Nat) :
    tickCount (List.replicate n (Op.tick : Op K V)) = n := by
  induction n with
  | zero => rfl
  | succ n ih => simp [List.replicate_succ, tickCount, ih]

theorem avoids_replicate (key : K) (n : Nat) :
    Avoids key (List.replicate n (Op.tick : Op K V)) := by
  intro op hop
  rw [List.eq_of_mem_replicate hop]
  simp [Op.target]

theorem unscheduled_new (interval limit : Int) (key : K) :
    Unscheduled (CacheMap.new interval limit : CacheMap K V) key := by
  intro b hb x hx
  simp only [CacheMap.new] at hb
  rw [List.eq_of_mem_replicate hb] at hx
  cases hx

theorem tick_queue (s s1 : CacheMap K V) (h : s.tick = .ok s1) :
    s1.event_bucket_queue_ = s.event_bucket_queue_.tail ++ [[]] := by
  unfold CacheMap.tick at h
  split at h
  · cases h
  · rename_i tmp rest hq
    simp only [Except.ok.injEq] at h
    rw [← h, release_queue, hq]
    rfl

theorem Horizon.horizon_key {key : K} {v : MapValue K V} {e : CallbackEntry K} {h : Nat}
    {tr : List (K × Nat)} {s : CacheMap K V} (hz : Horizon key v e h tr s) : e.key = key :=
  hz.wf.weak_key key v e hz.entry hz.weak

theorem Horizon.horizon_other {key : K} {v : MapValue K V} {e : CallbackEntry K} {h : Nat}
    {tr : List (K × Nat)} {s : CacheMap K V} (hz : Horizon key v e h tr s) (op : Op K V)
    (k1 : K) (hop : op.target = some k1) (hk : k1 ≠ key) :
    ∃ s1, s.step op = .ok s1 ∧ Horizon key v e h tr s1 := by
  obtain ⟨s1, hok, hwf, hfr⟩ := step_frame s hz.wf op k1 hop
  have hne : e.key ≠ k1 := by rw [hz.horizon_key]; exact Ne.symm hk
  refine ⟨s1, hok, hwf, by rw [hfr.others key (Ne.symm hk)]; exact hz.entry, hz.positive,
    hz.weak, (hfr.mem_iff h e hne).mpr hz.here, ?_, by rw [hfr.invokedFor_eq]; exact hz.trace⟩
  intro i x hx hxk
  exact hz.only i x ((hfr.mem_iff i x (by rw [hxk]; exact Ne.symm hk)).mp hx) hxk

theorem Horizon.horizon_succ {key : K} {v : MapValue K V} {e : CallbackEntry K} {h : Nat}
    {tr : List (K × Nat)} {s : CacheMap K V} (hz : Horizon key v e (h + 1) tr s) :
    ∃ s1, s.tick = .ok s1 ∧ Horizon key v e h tr s1 := by
  obtain ⟨s1, hok, hwf, hrot⟩ := tick_spec s hz.wf
  have hkeep := hrot.keep key (by
    intro x hx hxk
    rw [(hz.only 0 x hx hxk).1]
    exact ⟨h, hz.here⟩)
  refine ⟨s1, hok, hwf, by rw [hkeep.1]; exact hz.entry, hz.positive, hz.weak,
    by rw [hrot.queue h]; exact hz.here, ?_, by rw [hkeep.2]; exact hz.trace⟩
  intro i x hx hxk
  rw [hrot.queue i] at hx
  have h1 := hz.only (i + 1) x hx hxk
  exact ⟨h1.1, by omega⟩

theorem Horizon.horizon_zero {key : K} {v : MapValue K V} {e : CallbackEntry K}
    {tr : List (K × Nat)} {s : CacheMap K V} (hz : Horizon key v e 0 tr s) :
    ∃ s1, s.tick = .ok s1 ∧ Gone key (tr ++ callbackTrace key v._timeoutCallback) s1 := by
  obtain ⟨s1, hok, hwf, hrot⟩ := tick_spec s hz.wf
  have hfired := hrot.fired key ⟨e, hz.here, hz.horizon_key, by
    intro i hi
    have := (hz.only (i + 1) e hi hz.horizon_key).2
    omega⟩
  refine ⟨s1, hok, hwf, ?_, ?_, ?_⟩
  · rw [hfired.1, hz.entry]
    simp [firedEntry, hz.positive]
  · rw [unscheduled_iff]
    intro i x hx hxk
    rw [hrot.queue i] at hx
    have := (hz.only (i + 1) x hx hxk).2
    omega
  · rw [hfired.2, hz.entry, hz.trace]
    simp [firedTrace, hz.positive]

/-- The entry stays while the timer has fired at most as often as the position of the
last bucket that holds its object, and is removed by the firing after that. -/
theorem Horizon.horizon_run {key : K} {v : MapValue K V} {e : CallbackEntry K} {h : Nat}
    {tr : List (K × Nat)} {s : CacheMap K V} (hz : Horizon key v e h tr s)
    (ops : List (Op K V)) (ha : Avoids key ops) :
    ∃ s1, s.run ops = .ok s1 ∧
      (tickCount ops ≤ h → s1.map_ key = some v ∧ s1.invokedFor key = tr) ∧
      (h < tickCount ops → s1.map_ key = none ∧
        s1.invokedFor key = tr ++ callbackTrace key v._timeoutCallback) := by
  induction ops generalizing s h with
  | nil =>
    exact ⟨s, rfl, fun _ => ⟨hz.entry, hz.trace⟩, fun hlt => absurd hlt (by simp [tickCount])⟩
  | cons op ops ih =>
    rcases ha.head with rfl | ⟨k1, hop, hk⟩
    · cases h with
      | zero =>
        obtain ⟨s1, hok, hg⟩ := hz.horizon_zero
        obtain ⟨s2, hok2, hg2⟩ := hg.gone_run ops ha.tail
        refine ⟨s2, by rw [run_tick s s1 ops hok]; exact hok2, ?_,
          fun _ => ⟨hg2.entry, hg2.trace⟩⟩
        intro hle
        simp [tickCount] at hle
      | succ h =>
        obtain ⟨s1, hok, hp⟩ := hz.horizon_succ
        obtain ⟨s2, hok2, h1, h2⟩ := ih hp ha.tail
        refine ⟨s2, by rw [run_tick s s1 ops hok]; exact hok2, ?_, ?_⟩
        · intro hle
          simp only [tickCount, Nat.add_le_add_iff_right] at hle
          exact h1 hle
        · intro hlt
          simp only [tickCount, Nat.add_lt_add_iff_right] at hlt
          exact h2 hlt
    · obtain ⟨s1, hok, hp⟩ := hz.horizon_other op k1 hop hk
      obtain ⟨s2, hok2, h1, h2⟩ := ih hp ha.tail
      rw [tickCount_cons_of_target op ops k1 hop]
      exact ⟨s2, by rw [run_cons s s1 _ ops hok]; exact hok2, h1, h2⟩

/-- Scheduling an entry whose object is alive takes that object and allocates none. -/
theorem Scheduled.reuse {s s1 : CacheMap K V} {key : K} {v : MapValue K V} {i : Nat}
    {e e1 : CallbackEntry K} (h : Scheduled s key v i e1 s1)
    (hw : v._weakEntryPtr = some e) (ha : alive e s.event_bucket_queue_ = true) :
    e1 = e ∧ s1.allocated = s.allocated := by
  have hl : lock v._weakEntryPtr s.event_bucket_queue_ = some e := by
    rw [hw]
    exact lock_alive e _ ha
  have hc := h.count
  rw [hl] at hc
  simp only [Option.isSome_some, if_true] at hc
  rcases h.token with h1 | ⟨h1, _⟩
  · rw [hl] at h1
    simp only [Option.some.injEq] at h1
    exact ⟨h1.symm, hc⟩
  · rw [hl] at h1
    cases h1

theorem onlyObject_iff (s : CacheMap K V) (key : K) (e : CallbackEntry K) (h : Nat) :
    OnlyObject s key e h ↔
      ∀ i, ∀ x ∈ bucketAt s.event_bucket_queue_ i, x.key = key → x = e ∧ i ≤ h := by
  constructor
  · intro ho i x hx hxk
    by_cases hi : i < s.event_bucket_queue_.length
    · exact ho i hi x hx hxk
    · rw [bucketAt_of_length_le _ i (by omega)] at hx
      cases hx
  · intro ho i _ x hx hxk
    exact ho i x hx hxk

theorem weak_update_self (v : MapValue K V) (e : CallbackEntry K)
    (hw : v._weakEntryPtr = some e) : ({ v with _weakEntryPtr := some e } : MapValue K V) = v := by
  cases v
  simp only at hw
  simp [hw]

end methods

section claims

/-- C6: the clamp is lost for a timeout that does not fit `int`. With interval 1 and
limit 5 (six buckets, the last one at index 5), `insert` with timeout `2 ^ 32` reads the
delay 0 in `eraseAfter` and puts the object of the key in bucket 1; the key is removed
by the second firing of the timer. -/
theorem clamp_lost_by_narrowing :
    toInt 4294967296 = 0 ∧
    (CacheMap.new 1 5 : CacheMap Nat Nat).run [.insert 7 1 4294967296 (some 9)] =
        .ok ((CacheMap.new 1 5 : CacheMap Nat Nat).after [.insert 7 1 4294967296 (some 9)]) ∧
      ((CacheMap.new 1 5 : CacheMap Nat Nat).after
          [.insert 7 1 4294967296 (some 9)]).event_bucket_queue_ =
        [[], [{ id := 0, key := 7 }], [], [], [], []] ∧
      (CacheMap.new 1 5 : CacheMap Nat Nat).run
          [.insert 7 1 4294967296 (some 9), .tick, .tick] =
        .ok ((CacheMap.new 1 5 : CacheMap Nat Nat).after
          [.insert 7 1 4294967296 (some 9), .tick, .tick]) ∧
      (((CacheMap.new 1 5 : CacheMap Nat Nat).after
          [.insert 7 1 4294967296 (some 9), .tick, .tick]).map_ 7).isNone = true :=
  ⟨by decide, rfl, by decide, rfl, by decide⟩

/-- C7, as stated, fails. With interval 2 and limit 5 the wheel has 3 buckets, while
ceil(5 / 2) + 1 = 4. -/
theorem ring_capacity_ceil_counterexample :
    (CacheMap.new 2 5 : CacheMap Nat Nat).event_bucket_queue_.length = 3 ∧
      ⌈(5 : ℚ) / 2⌉ + 1 = 4 := by
  refine ⟨by decide, ?_⟩
  have h : ⌈(5 : ℚ) / 2⌉ = 3 := by
    rw [Int.ceil_eq_iff]
    norm_num
  rw [h]
  rfl

/-- C7 (amended). For every interval > 0 and limit >= 0 that the constructor takes
without overflow of `int`, the wheel has floor(limit / interval) + 1 buckets, all of them
empty. -/
theorem ring_capacity {K V : Type} (interval limit : Int) (h : ValidArgs interval limit) :
    (CacheMap.new interval limit : CacheMap K V).event_bucket_queue_.length =
        (limit / interval).toNat + 1 ∧
      ((CacheMap.new interval limit : CacheMap K V).event_bucket_queue_.length : Int) =
        ⌊(limit : ℚ) / (interval : ℚ)⌋ + 1 ∧
      ∀ b ∈ (CacheMap.new interval limit : CacheMap K V).event_bucket_queue_, b = [] := by
  have hlen : (CacheMap.new interval limit : CacheMap K V).event_bucket_queue_.length =
      (limit / interval).toNat + 1 := by
    obtain ⟨h1, _, h3, _, h5⟩ := h
    have hq : limit.tdiv interval = limit / interval := Int.tdiv_eq_ediv h3 (le_of_lt h1)
    have hq0 : 0 ≤ limit / interval := Int.ediv_nonneg h3 (le_of_lt h1)
    rw [hq] at h5
    simp only [CacheMap.new, List.length_replicate, hq]
    unfold toSizeT
    rw [Int.emod_eq_of_lt (by omega) (by omega)]
    omega
  refine ⟨hlen, ?_, ?_⟩
  · rw [hlen]
    have hq0 : 0 ≤ limit / interval := Int.ediv_nonneg h.2.2.1 (le_of_lt h.1)
    have hfl : ⌊(limit : ℚ) / (interval : ℚ)⌋ = limit / interval := by
      rw [Int.floor_eq_iff]
      have hi : (0 : ℚ) < (interval : ℚ) := by exact_mod_cast h.1
      constructor
      · rw [le_div_iff₀ hi]
        have := Int.ediv_mul_le limit (ne_of_gt h.1)
        exact_mod_cast this
      · rw [div_lt_iff₀ hi]
        have := Int.lt_ediv_add_one_mul_self limit h.1
        exact_mod_cast this
    rw [hfl]
    push_cast
    rw [Int.toNat_of_nonneg hq0]
  · intro b hb
    simp only [CacheMap.new] at hb
    exact List.eq_of_mem_replicate hb

/-- A concrete instance of C7 (amended): interval 2, limit 5. -/
theorem ring_capacity_witness :
    (CacheMap.new 2 5 : CacheMap Nat Nat).event_bucket_queue_.length = (5 / 2 : Int).toNat + 1 ∧
      ((CacheMap.new 2 5 : CacheMap Nat Nat).event_bucket_queue_.length : Int) =
        ⌊((5 : Int) : ℚ) / ((2 : Int) : ℚ)⌋ + 1 ∧
      ∀ b ∈ (CacheMap.new 2 5 : CacheMap Nat Nat).event_bucket_queue_, b = [] :=
  ring_capacity 2 5 (by decide)

/-- C8. In every reachable state, for a key that is in the map and a timeout
`0 < t <= 2 ^ 31 - 1`, `insert` with timeout `t`, and `find` and `operator[]` on an entry
whose stored timeout is `t`, succeed and leave the object of the key in the bucket at
index `floor (t / interval) + 1` when that is below the capacity, and in the last bucket
otherwise. The object is the one the entry pointed to when a bucket still holds it, and a
new one otherwise. The bucket gains exactly that object, unless it held it already;
every other bucket and the length of the wheel stay as they were. -/
theorem scheduling_formula {K V : Type} [DecidableEq K] [Inhabited V] (s : CacheMap K V)
    (hs : Reachable s) (key : K) (v : MapValue K V) (hv : s.map_ key = some v) (t : Nat)
    (ht : 0 < t) (ht2 : t ≤ 2 ^ 31 - 1) :
    (∀ value cb, ∃ e s1, s.insert key value t cb = .ok s1 ∧
      PutIn s s1 key v._weakEntryPtr e
        (specBucket t s.timeInterval_ s.event_bucket_queue_.length)) ∧
    (v.timeout = t →
      (∃ e s1, s.find key = .ok (true, s1) ∧
        PutIn s s1 key v._weakEntryPtr e
          (specBucket t s.timeInterval_ s.event_bucket_queue_.length)) ∧
      (∃ e s1, s.operatorIndex key = .ok (v.value, s1) ∧
        PutIn s s1 key v._weakEntryPtr e
          (specBucket t s.timeInterval_ s.event_bucket_queue_.length))) := by
  have hwf := hs.wf
  have hi : s.timeInterval_ ≠ 0 := ne_of_gt hwf.interval_pos
  have hlen : 0 < s.event_bucket_queue_.length := List.length_pos.mpr hwf.queue_ne
  have ht3 : t < 2 ^ 31 := by omega
  have hidx : bucketIndexToPush (toInt t) s.timeInterval_ s.event_bucket_queue_.length =
      specBucket t s.timeInterval_ s.event_bucket_queue_.length := by
    rw [toInt_of_lt t ht3, bucketIndexToPush_of_nat t _ _ ht3 hwf.interval_pos hlen,
      specBucket_eq_min t _ _ hlen]
  have hpos : 0 < toInt t := by
    rw [toInt_of_lt t ht3]
    exact_mod_cast ht
  refine ⟨?_, ?_⟩
  · intro value cb
    obtain ⟨e, s1, hok, hsch⟩ := insert_pos_spec s key value t cb ht hi hwf.queue_ne
    rw [hidx, at_of_some s key v hv] at hsch
    exact ⟨e, s1, hok, hsch.putIn (hwf.weak_key key v · hv)⟩
  · intro hvt
    subst hvt
    constructor
    · obtain ⟨e, s1, hok, hsch⟩ := find_renew s key v hv hpos hi hwf.queue_ne
      rw [hidx] at hsch
      exact ⟨e, s1, hok, hsch.putIn (hwf.weak_key key v · hv)⟩
    · obtain ⟨e, s1, hok, hsch⟩ := operatorIndex_renew s key v hv hpos hi hwf.queue_ne
      rw [hidx] at hsch
      exact ⟨e, s1, hok, hsch.putIn (hwf.weak_key key v · hv)⟩

/-- C9, as stated, fails. With interval 1 and limit 5 the timeout 5 = limit has bucket
number 5 / 1 + 1 = 6, which is not below the capacity 6: the clamp applies and the
object goes to bucket 5. -/
theorem limit_is_clamped_counterexample :
    (CacheMap.new 1 5 : CacheMap Nat Nat).event_bucket_queue_.length = 6 ∧
      ¬ (((5 : Int) / 1).toNat + 1 < (CacheMap.new 1 5 : CacheMap Nat Nat).event_bucket_queue_.length) ∧
      bucketIndexToPush (toInt 5) 1
        (CacheMap.new 1 5 : CacheMap Nat Nat).event_bucket_queue_.length = 5 ∧
      ((CacheMap.new 1 5 : CacheMap Nat Nat).after
          [.insert 7 1 5 none]).event_bucket_queue_ =
        [[], [], [], [], [], [{ id := 0, key := 7 }]] :=
  ⟨by decide, by decide, by decide, by decide⟩

/-- C9 (amended). For a wheel built with interval > 0 and limit >= 0 and a timeout
`0 < t <= 2 ^ 31 - 1`: when `floor (t / interval) < floor (limit / interval)` the bucket
number `floor (t / interval) + 1` is below the capacity and is the index `eraseAfter`
uses; when `floor (t / interval) >= floor (limit / interval)`, which holds for `t = limit`
and for every larger `t`, the index is `capacity - 1`. -/
theorem limit_bucket_index {K V : Type} [DecidableEq K] [Inhabited V] (interval limit : Int)
    (h : ValidArgs interval limit) (t : Nat) (ht : 0 < t) (ht2 : t ≤ 2 ^ 31 - 1) :
    ((t : Int) / interval < limit / interval →
      ((t : Int) / interval).toNat + 1 <
          (CacheMap.new interval limit : CacheMap K V).event_bucket_queue_.length ∧
        bucketIndexToPush (toInt t) interval
            (CacheMap.new interval limit : CacheMap K V).event_bucket_queue_.length =
          ((t : Int) / interval).toNat + 1) ∧
    (limit / interval ≤ (t : Int) / interval →
      bucketIndexToPush (toInt t) interval
          (CacheMap.new interval limit : CacheMap K V).event_bucket_queue_.length =
        (CacheMap.new interval limit : CacheMap K V).event_bucket_queue_.length - 1) ∧
    (limit ≤ (t : Int) → limit / interval ≤ (t : Int) / interval) := by
  have hlen : (CacheMap.new interval limit : CacheMap K V).event_bucket_queue_.length =
      (limit / interval).toNat + 1 := new_length interval limit h
  have ht3 : t < 2 ^ 31 := by omega
  have hq0 : 0 ≤ limit / interval := Int.ediv_nonneg h.2.2.1 (le_of_lt h.1)
  have ht0 : 0 ≤ (t : Int) / interval := Int.ediv_nonneg (Int.ofNat_nonneg t) (le_of_lt h.1)
  rw [hlen, toInt_of_lt t ht3, bucketIndexToPush_of_nat t interval _ ht3 h.1 (by omega)]
  refine ⟨?_, ?_, ?_⟩
  · intro hlt
    omega
  · intro hle
    omega
  · intro hle
    exact Int.ediv_le_ediv h.1 hle

/-- A concrete instance of C9 (amended): interval 1, limit 5, timeout 2 goes to bucket
3 of 6. -/
theorem limit_bucket_index_witness :
    (((2 : Nat) : Int) / 1).toNat + 1 <
        (CacheMap.new 1 5 : CacheMap Nat Nat).event_bucket_queue_.length ∧
      bucketIndexToPush (toInt 2) 1
          (CacheMap.new 1 5 : CacheMap Nat Nat).event_bucket_queue_.length =
        (((2 : Nat) : Int) / 1).toNat + 1 :=
  (limit_bucket_index 1 5 (by decide) 2 (by decide) (by decide)).1 (by decide)

/-- A concrete instance of C8: in the worked example after `insert(7, 1, 2)` and one
firing of the timer the object of key 7 is in bucket 2 only. A second insert with timeout
2 and a `find` each add it to bucket 3 and change nothing else in the wheel. -/
theorem scheduling_formula_witness :
    sampleTicked.event_bucket_queue_ = [[], [], [{ id := 0, key := 7 }], [], [], []] ∧
    specBucket 2 sampleTicked.timeInterval_ sampleTicked.event_bucket_queue_.length = 3 ∧
    (∃ e s1, sampleTicked.insert 7 1 2 (some 9) = .ok s1 ∧
      PutIn sampleTicked s1 7 (some { id := 0, key := 7 }) e
        (specBucket 2 sampleTicked.timeInterval_ sampleTicked.event_bucket_queue_.length)) ∧
    (∃ e s1, sampleTicked.find 7 = .ok (true, s1) ∧
      PutIn sampleTicked s1 7 (some { id := 0, key := 7 }) e
        (specBucket 2 sampleTicked.timeInterval_ sampleTicked.event_bucket_queue_.length)) ∧
    (sampleTicked.after [.insert 7 1 2 (some 9)]).event_bucket_queue_ =
      [[], [], [{ id := 0, key := 7 }], [{ id := 0, key := 7 }], [], []] ∧
    (sampleTicked.after [.find 7]).event_bucket_queue_ =
      [[], [], [{ id := 0, key := 7 }], [{ id := 0, key := 7 }], [], []] :=
  ⟨by decide, by decide,
    (scheduling_formula sampleTicked ⟨1, 5, [.insert 7 1 2 (some 9), .tick], by decide, by rfl⟩
      7 ⟨2, 1, some 9, some ⟨0, 7⟩⟩ rfl 2 (by decide) (by decide)).1 1 (some 9),
    ((scheduling_formula sampleTicked ⟨1, 5, [.insert 7 1 2 (some 9), .tick], by decide, by rfl⟩
      7 ⟨2, 1, some 9, some ⟨0, 7⟩⟩ rfl 2 (by decide) (by decide)).2 rfl).1,
    by decide, by decide⟩

/-- C3. In every reachable state, `erase key` removes the entry of `key` and invokes no
callback; afterwards, whatever firings of the timer and calls follow, as long as none is
an `insert` for `key`, no callback is invoked on behalf of `key`, and the closure of an
object of `key` leaves the state as it is. -/
theorem silent_erase {K V : Type} [DecidableEq K] [Inhabited V] (s : CacheMap K V)
    (hs : Reachable s) (key : K) :
    (s.erase key).map_ key = none ∧ (s.erase key).invoked = s.invoked ∧
      ∀ ops : List (Op K V), NoInsert key ops →
        ∃ s2, (s.erase key).run ops = .ok s2 ∧ s2.invokedFor key = s.invokedFor key ∧
          fire key s2 = s2 := by
  have hq : Quiet key (s.invokedFor key) (s.erase key) := by
    obtain ⟨s1, hok, hwf1, _⟩ := step_frame s hs.wf (Op.erase key) key rfl
    simp only [CacheMap.step, Except.ok.injEq] at hok
    subst hok
    refine ⟨hwf1, ?_, rfl⟩
    intro v hv
    simp [CacheMap.erase, CacheMap.eraseKey] at hv
  refine ⟨by simp [CacheMap.erase, CacheMap.eraseKey], rfl, ?_⟩
  intro ops ha
  obtain ⟨s2, hrun, hq2⟩ := hq.quiet_run ops ha
  exact ⟨s2, hrun, hq2.trace, hq2.fire_eq⟩

/-- A concrete instance of C3: in the worked example key 7 has timeout 2 and callback 9;
after `erase 7` six firings of the timer invoke nothing. -/
theorem silent_erase_witness :
    (sampleHeld.map_ 7).map (fun v => (v.timeout, v._timeoutCallback)) = some (2, some 9) ∧
      (sampleHeld.erase 7).map_ 7 = none ∧ (sampleHeld.erase 7).invoked = sampleHeld.invoked ∧
      ∃ s2, (sampleHeld.erase 7).run [.tick, .tick, .tick, .tick, .tick, .tick] = .ok s2 ∧
        s2.invokedFor 7 = sampleHeld.invokedFor 7 ∧ fire 7 s2 = s2 :=
  have h := silent_erase sampleHeld ⟨1, 5, [.insert 7 1 2 (some 9)], by decide, by rfl⟩ 7
  ⟨by decide, h.1, h.2.1, h.2.2 [.tick, .tick, .tick, .tick, .tick, .tick] (by decide)⟩

/-- C4. In every reachable state, `insert key value 0` succeeds, and afterwards `key`
stays in the map with `value`, timeout 0, no callback and no weak pointer across any
firings of the timer and any calls that name other keys; and in every reachable state a
firing of the timer keeps every entry whose timeout is 0. -/
theorem zero_timeout_persists {K V : Type} [DecidableEq K] [Inhabited V] (s : CacheMap K V)
    (hs : Reachable s) (key : K) (value : V) (cb : Option Nat) :
    (∃ s1, s.insert key value 0 cb = .ok s1 ∧
      ∀ ops : List (Op K V), Avoids key ops →
        ∃ s2, s1.run ops = .ok s2 ∧
          s2.map_ key = some
            { timeout := 0, value := value, _timeoutCallback := none, _weakEntryPtr := none }) ∧
    (∀ k v, s.map_ k = some v → v.timeout = 0 →
      ∃ s1, s.tick = .ok s1 ∧ s1.map_ k = some v) := by
  constructor
  · refine ⟨_, insert_zero_eq s key value cb, ?_⟩
    intro ops ha
    have hwf1 : WF (s.setEntry key ⟨0, value, none, none⟩) :=
      setEntry_wf s hs.wf key _ (by intro w hw; cases hw)
    obtain ⟨s2, hrun, _, hm, _⟩ := idle_run _ hwf1 key ⟨0, value, none, none⟩
      (by simp [CacheMap.setEntry]) rfl ops ha
    exact ⟨s2, hrun, hm⟩
  · intro k v hv hz
    obtain ⟨s1, hok, _, hm, _⟩ := tick_idle s hs.wf k (by
      intro v1 hv1
      rw [hv] at hv1
      cases hv1
      exact hz)
    exact ⟨s1, hok, by rw [hm]; exact hv⟩

/-- A concrete instance of C4: in the worked example key 7 has timeout 2 and a live
object in bucket 3; after `insert(7, 4, 0)` it survives six firings of the timer and
calls for key 8. -/
theorem zero_timeout_persists_witness :
    alive { id := 0, key := 7 } sampleHeld.event_bucket_queue_ = true ∧
      ∃ s1, sampleHeld.insert 7 4 0 none = .ok s1 ∧
        ∃ s2, s1.run [.tick, .insert 8 1 1 none, .tick, .tick, .find 8, .tick, .tick, .tick] =
            .ok s2 ∧
          s2.map_ 7 = some
            { timeout := 0, value := 4, _timeoutCallback := none, _weakEntryPtr := none } := by
  obtain ⟨s1, hok, h⟩ := (zero_timeout_persists sampleHeld
    ⟨1, 5, [.insert 7 1 2 (some 9)], by decide, by rfl⟩ 7 4 none).1
  exact ⟨by decide, s1, hok,
    h [.tick, .insert 8 1 1 none, .tick, .tick, .find 8, .tick, .tick, .tick] (by decide)⟩

/-- C5. In every reachable state, after `insert key value t (callback c)` with `t > 0`,
whatever calls and firings of the timer follow, as long as none is an `insert` for
`key`: the run succeeds and `c` has been invoked for `key` not at all or exactly once;
and a step in which it is invoked finds `key` in the map and leaves it absent. -/
theorem fires_at_most_once {K V : Type} [DecidableEq K] [Inhabited V] (s : CacheMap K V)
    (hs : Reachable s) (key : K) (value : V) (t c : Nat) (ht : 0 < t) :
    ∃ s1, s.insert key value t (some c) = .ok s1 ∧
      ∀ ops : List (Op K V), NoInsert key ops →
        (∃ s2, s1.run ops = .ok s2 ∧
          (s2.invokedFor key = s.invokedFor key ∨
            s2.invokedFor key = s.invokedFor key ++ [(key, c)])) ∧
        (∀ pre op suf, ops = pre ++ op :: suf →
          ∃ a b, s1.run pre = .ok a ∧ a.step op = .ok b ∧
            (b.invokedFor key = a.invokedFor key ∨
              (b.invokedFor key = a.invokedFor key ++ [(key, c)] ∧
                (a.map_ key).isSome = true ∧ b.map_ key = none))) := by
  have hwf := hs.wf
  obtain ⟨e, s1, hok, hsch⟩ := insert_pos_spec s key value t (some c) ht
    (ne_of_gt hwf.interval_pos) hwf.queue_ne
  have harm : Armed key c (s.invokedFor key) s1 :=
    hsch.armed hwf (at_weak_key s hwf key) ht rfl
  refine ⟨s1, hok, ?_⟩
  intro ops ha
  constructor
  · obtain ⟨s2, hrun, hcase⟩ := harm.armed_run ops ha
    refine ⟨s2, hrun, ?_⟩
    rcases hcase with h1 | h1 | h1
    · exact Or.inl h1.trace
    · exact Or.inl h1.trace
    · exact Or.inr h1.trace
  · intro pre op suf hsplit
    subst hsplit
    have hop : op.insertsKey key = false := ha.right.first
    obtain ⟨a, hrun, hcase⟩ := harm.armed_run pre ha.left
    rcases hcase with h1 | h1 | h1
    · obtain ⟨b, hstep, hb⟩ := h1.armed_step op hop
      refine ⟨a, b, hrun, hstep, ?_⟩
      obtain ⟨v, hv, _, _⟩ := h1.entry
      rcases hb with h2 | ⟨h2, _⟩ | ⟨h2, hm⟩
      · exact Or.inl (by rw [h2.trace, h1.trace])
      · exact Or.inl (by rw [h2.trace, h1.trace])
      · exact Or.inr ⟨by rw [h2.trace, h1.trace], by rw [hv]; rfl, hm⟩
    · obtain ⟨b, hstep, hb⟩ := h1.quiet_step op hop
      exact ⟨a, b, hrun, hstep, Or.inl (by rw [hb.trace, h1.trace])⟩
    · obtain ⟨b, hstep, hb⟩ := h1.quiet_step op hop
      exact ⟨a, b, hrun, hstep, Or.inl (by rw [hb.trace, h1.trace])⟩

/-- A concrete instance of C5: in the worked example key 7 is inserted with timeout 2
and callback 9, read once and left to expire. -/
theorem fires_at_most_once_witness :
    ∃ s1, sample.insert 7 1 2 (some 9) = .ok s1 ∧
      ∃ s2, s1.run [.find 7, .tick, .operatorIndex 7, .tick, .tick, .tick, .tick, .tick] =
          .ok s2 ∧
        (s2.invokedFor 7 = sample.invokedFor 7 ∨
          s2.invokedFor 7 = sample.invokedFor 7 ++ [(7, 9)]) := by
  obtain ⟨s1, hok, h⟩ := fires_at_most_once sample ⟨1, 5, [], by decide, by rfl⟩ 7 1 2 9
    (by decide)
  exact ⟨s1, hok,
    (h [.find 7, .tick, .operatorIndex 7, .tick, .tick, .tick, .tick, .tick] (by decide)).1⟩

/-- C2, as stated, fails. With interval 1 and limit 5, key 7 has timeout 10 and no
stale object. It is read, and the timer then fires 6 times, which spans 6 * 1 < 10; the
sixth firing removes the key, because its object was clamped to the last bucket. -/
theorem sliding_renewal_counterexample :
    (sampleClamped.map_ 7).map (fun v => v.timeout) = some 10 ∧
      NoStale sampleClamped 7 ∧
      (6 : Int) * sampleClamped.timeInterval_ < 10 ∧
      spaced 7 6 0 ([.find 7, .tick, .tick, .tick, .tick, .tick, .tick] : List (Op Nat Nat)) =
        true ∧
      sampleClamped.run [.find 7, .tick, .tick, .tick, .tick, .tick] =
        .ok (sampleClamped.after [.find 7, .tick, .tick, .tick, .tick, .tick]) ∧
      ((sampleClamped.after [.find 7, .tick, .tick, .tick, .tick, .tick]).map_ 7).isSome =
        true ∧
      sampleClamped.run [.find 7, .tick, .tick, .tick, .tick, .tick, .tick] =
        .ok (sampleClamped.after [.find 7, .tick, .tick, .tick, .tick, .tick, .tick]) ∧
      ((sampleClamped.after [.find 7, .tick, .tick, .tick, .tick, .tick, .tick]).map_ 7).isNone =
        true :=
  ⟨by decide, by decide, by decide, by decide, rfl, by decide, rfl, by decide⟩

/-- C2 (amended). In every reachable state, let `key` be in the map with a timeout
`0 < t <= 2 ^ 31 - 1` whose whole number of periods `floor (t / interval)` is below the
capacity (every `t <= limit` is such), and let the wheel hold no object of an earlier
entry of `key`. Along every sequence of calls without `insert` or `erase` for `key` that
starts with a read of `key` before the timer fires and in which the timer fires at most
`n` times between one read (`find` or `operator[]`) of `key` and the next, where
`n * interval < t`, every call succeeds and after every call and every firing of the
timer `key` is still in the map with timeout `t`. -/
theorem sliding_renewal {K V : Type} [DecidableEq K] [Inhabited V] (s : CacheMap K V)
    (hs : Reachable s) (key : K) (v : MapValue K V) (hv : s.map_ key = some v)
    (hpos : 0 < v.timeout) (ht2 : v.timeout ≤ 2 ^ 31 - 1)
    (hlim : ((v.timeout : Int) / s.timeInterval_).toNat < s.event_bucket_queue_.length)
    (hns : NoStale s key) (n : Nat) (hn : (n : Int) * s.timeInterval_ < v.timeout)
    (ops : List (Op K V)) (hsp : spaced key n 0 ops = true) :
    ∀ pre suf, ops = pre ++ suf →
      ∃ s1 v1, s.run pre = .ok s1 ∧ s1.map_ key = some v1 ∧ v1.timeout = v.timeout := by
  have hwf := hs.wf
  have hstart : Renewed key v.timeout s.timeInterval_ s.event_bucket_queue_.length 0 s := by
    refine ⟨hwf, rfl, rfl, v, hv, rfl, ?_, Or.inl rfl⟩
    intro i x hx hxk
    have h1 := (noStale_iff s key).mp hns i x hx hxk
    rw [hv] at h1
    exact h1
  have hq0 : 0 ≤ (v.timeout : Int) / s.timeInterval_ :=
    Int.ediv_nonneg (Int.ofNat_nonneg _) (le_of_lt hwf.interval_pos)
  have hle : (n : Int) ≤ (v.timeout : Int) / s.timeInterval_ :=
    Int.le_ediv_of_mul_le hwf.interval_pos (le_of_lt hn)
  have hgap : n ≤ min (((v.timeout : Int) / s.timeInterval_).toNat + 1)
      (s.event_bucket_queue_.length - 1) := by
    omega
  intro pre suf hsplit
  subst hsplit
  obtain ⟨s1, r1, hrun, h1⟩ := hstart.renewed_run hpos (by omega) n hgap pre
    (spaced_left key n 0 pre suf hsp)
  obtain ⟨v1, hv1, hvt, _⟩ := h1.entry
  exact ⟨s1, v1, hrun, hv1, hvt⟩

/-- A concrete instance of C2 (amended): in the worked example key 7 has timeout 2 and
is read before every firing of the timer. -/
theorem sliding_renewal_witness :
    ∃ s1 v1, sampleHeld.run
        [.find 7, .tick, .operatorIndex 7, .tick, .find 7, .tick, .find 7, .tick] = .ok s1 ∧
      s1.map_ 7 = some v1 ∧ v1.timeout = 2 :=
  sliding_renewal sampleHeld ⟨1, 5, [.insert 7 1 2 (some 9)], by decide, by rfl⟩ 7
    ⟨2, 1, some 9, some ⟨0, 7⟩⟩ rfl (by decide) (by decide) (by decide) (by decide) 1
    (by decide)
    [.find 7, .tick, .operatorIndex 7, .tick, .find 7, .tick, .find 7, .tick] (by decide)
    [.find 7, .tick, .operatorIndex 7, .tick, .find 7, .tick, .find 7, .tick] [] (by simp)

/-- C12. In every state, when `find key` returns, it returns `true` exactly when `key`
is in the map, and for an absent key it returns `false` and leaves the whole state as it
is; in every reachable state `find key` does return, and `key` is in the map afterwards
exactly when it was before. -/
theorem find_reports_presence {K V : Type} [DecidableEq K] [Inhabited V] (s : CacheMap K V)
    (key : K) :
    (∀ b s1, s.find key = .ok (b, s1) → b = (s.map_ key).isSome) ∧
    (s.map_ key = none → s.find key = .ok (false, s)) ∧
    (Reachable s →
      ∃ s1, s.find key = .ok ((s.map_ key).isSome, s1) ∧
        (s1.map_ key).isSome = (s.map_ key).isSome) := by
  refine ⟨?_, find_absent s key, ?_⟩
  · intro b s1 h
    unfold CacheMap.find at h
    simp only at h
    split at h
    · cases h
    · simp only [Except.ok.injEq, Prod.mk.injEq] at h
      exact h.1.symm
  · intro hs
    have hwf := hs.wf
    cases hv : s.map_ key with
    | none => exact ⟨s, find_absent s key hv, by rw [hv]⟩
    | some v =>
      by_cases ht : 0 < toInt v.timeout
      · obtain ⟨e, s1, hok, hsch⟩ := find_renew s key v hv ht (ne_of_gt hwf.interval_pos)
          hwf.queue_ne
        exact ⟨s1, hok, by rw [hsch.entry]; rfl⟩
      · exact ⟨s, find_idle s key v hv ht, by rw [hv]⟩

/-- C13. In every state, `operator[]` on a key that is not in the map returns the
default value and leaves the key in the map with the default value, timeout 0, no
callback and no weak pointer; the wheel, the other entries, the trace and the objects
are as before. In a reachable state the new entry then stays, unchanged, across any
firings of the timer and any calls that name other keys. -/
theorem operatorIndex_creates_default {K V : Type} [DecidableEq K] [Inhabited V]
    (s : CacheMap K V) (key : K) (h : s.map_ key = none) :
    ∃ s1, s.operatorIndex key = .ok (default, s1) ∧
      s1.map_ key = some
        { timeout := 0, value := default, _timeoutCallback := none, _weakEntryPtr := none } ∧
      (∀ k, k ≠ key → s1.map_ k = s.map_ k) ∧
      s1.event_bucket_queue_ = s.event_bucket_queue_ ∧ s1.invoked = s.invoked ∧
      s1.allocated = s.allocated ∧
      (Reachable s → ∀ ops : List (Op K V), Avoids key ops →
        ∃ s2, s1.run ops = .ok s2 ∧
          s2.map_ key = some
            { timeout := 0, value := default, _timeoutCallback := none,
              _weakEntryPtr := none }) := by
  refine ⟨s.setEntry key MapValue.fresh, operatorIndex_absent s key h, ?_, ?_, rfl, rfl, rfl,
    ?_⟩
  · simp [CacheMap.setEntry, MapValue.fresh]
  · intro k hk
    simp [CacheMap.setEntry, hk]
  · intro hs ops ha
    have hwf1 : WF (s.setEntry key MapValue.fresh) :=
      setEntry_wf s hs.wf key _ (by intro w hw; cases hw)
    obtain ⟨s2, hrun, _, hm, _⟩ := idle_run _ hwf1 key MapValue.fresh
      (by simp [CacheMap.setEntry]) rfl ops ha
    exact ⟨s2, hrun, hm⟩

/-- A concrete instance of C13: `operator[]` on key 8 of the worked example, followed by
seven firings of the timer. -/
theorem operatorIndex_creates_default_witness :
    ∃ s1, sampleHeld.operatorIndex 8 = .ok (default, s1) ∧
      s1.map_ 8 = some
        { timeout := 0, value := default, _timeoutCallback := none, _weakEntryPtr := none } ∧
      s1.event_bucket_queue_ = sampleHeld.event_bucket_queue_ ∧
      ∃ s2, s1.run [.tick, .tick, .tick, .tick, .tick, .tick, .tick] = .ok s2 ∧
        s2.map_ 8 = some
          { timeout := 0, value := default, _timeoutCallback := none,
            _weakEntryPtr := none } := by
  obtain ⟨s1, hok, hm, _, hq, _, _, hrun⟩ := operatorIndex_creates_default sampleHeld 8 rfl
  exact ⟨s1, hok, hm, hq, hrun ⟨1, 5, [.insert 7 1 2 (some 9)], by decide, by rfl⟩
    [.tick, .tick, .tick, .tick, .tick, .tick, .tick] (by decide)⟩

/-- C18. In every state reached from a map built with interval > 0 and limit >= 0, the
wheel has exactly `limit / interval + 1` buckets, at least one; every index that
`eraseAfter` computes, for any delay, is below that length; every call and every firing
of the timer succeeds and keeps the length; and a firing of the timer drops the front
bucket and appends an empty one. -/
theorem ring_shape_invariant {K V : Type} [DecidableEq K] [Inhabited V]
    (interval limit : Int) (hv : ValidArgs interval limit) (ops : List (Op K V))
    (s : CacheMap K V) (hrun : (CacheMap.new interval limit : CacheMap K V).run ops = .ok s) :
    s.event_bucket_queue_.length = (limit / interval).toNat + 1 ∧
    s.timeInterval_ = interval ∧
    (∀ delay : Int,
      bucketIndexToPush delay s.timeInterval_ s.event_bucket_queue_.length <
        s.event_bucket_queue_.length) ∧
    (∀ op : Op K V, ∃ s1, s.step op = .ok s1 ∧
      s1.event_bucket_queue_.length = s.event_bucket_queue_.length) ∧
    (∃ s1, s.tick = .ok s1 ∧
      s1.event_bucket_queue_ = s.event_bucket_queue_.tail ++ [[]]) := by
  have hreach : Reachable s := ⟨interval, limit, ops, hv, hrun⟩
  have hwf := hreach.wf
  have hshape : Shape interval limit s :=
    run_shape _ s (new_wf interval limit hv) interval limit
      ⟨rfl, rfl, rfl, new_length interval limit hv⟩ ops hrun
  refine ⟨hshape.size_eq, hshape.period_eq, ?_, ?_, ?_⟩
  · intro delay
    exact bucketIndexToPush_lt delay _ _ (by rw [hshape.size_eq]; omega)
  · intro op
    obtain ⟨s1, hok, _, hcase⟩ := step_cases s hwf op
    refine ⟨s1, hok, ?_⟩
    rcases hcase with hrot | ⟨key, hfr⟩
    · exact hrot.length
    · exact hfr.length_eq
  · obtain ⟨s1, hok, _, _⟩ := tick_spec s hwf
    exact ⟨s1, hok, tick_queue s s1 hok⟩

/-- A concrete instance of C18: the worked example after an insert and a firing of the
timer. -/
theorem ring_shape_invariant_witness :
    (sample.after [.insert 7 1 2 (some 9), .tick]).event_bucket_queue_.length =
        ((5 : Int) / 1).toNat + 1 ∧
      (sample.after [.insert 7 1 2 (some 9), .tick]).event_bucket_queue_ =
        [[], [], [{ id := 0, key := 7 }], [], [], []] :=
  ⟨(ring_shape_invariant 1 5 (by decide) [.insert 7 1 2 (some 9), .tick]
      (sample.after [.insert 7 1 2 (some 9), .tick]) (by rfl)).1, by decide⟩

/-- C19. In every state, no call of a public method and no firing of the timer ends in
the failure of the `assert` of `eraseAfter`, although that `assert` does fail whenever
`eraseAfter` is called for a key that is not in the map; and in every reachable state
every call returns. -/
theorem assertion_never_fails {K V : Type} [DecidableEq K] [Inhabited V] (s : CacheMap K V) :
    (∀ op : Op K V, s.step op ≠ .error .assertFailed) ∧
    (∀ (delay : Int) (key : K),
      s.eraseAfter delay key = .error .assertFailed ↔ s.map_ key = none) ∧
    (Reachable s → ∀ op : Op K V, ∃ s1, s.step op = .ok s1) := by
  refine ⟨?_, fun delay key => eraseAfter_assert s delay key, ?_⟩
  · intro op h
    cases op with
    | tick =>
      simp only [CacheMap.step, CacheMap.tick] at h
      split at h <;> cases h
    | insert k value t cb => exact insert_assert s k value t cb h
    | erase k => cases h
    | find k =>
      simp only [CacheMap.step] at h
      cases hf : s.find k with
      | error f =>
        rw [hf] at h
        simp only [Except.map, Except.error.injEq] at h
        subst h
        exact find_assert s k hf
      | ok r =>
        rw [hf] at h
        cases h
    | operatorIndex k =>
      simp only [CacheMap.step] at h
      cases hf : s.operatorIndex k with
      | error f =>
        rw [hf] at h
        simp only [Except.map, Except.error.injEq] at h
        subst h
        exact operatorIndex_assert s k hf
      | ok r =>
        rw [hf] at h
        cases h
  · intro hs op
    obtain ⟨s1, hok, _⟩ := step_wf s hs.wf op
    exact ⟨s1, hok⟩

/-- C20. In every reachable state `find key` returns, and a second `find key` right
after it returns the same value and leaves the state exactly as the first one left it:
map, wheel, objects and trace. -/
theorem find_twice {K V : Type} [DecidableEq K] [Inhabited V] (s : CacheMap K V)
    (hs : Reachable s) (key : K) :
    ∃ b s1, s.find key = .ok (b, s1) ∧ s1.find key = .ok (b, s1) := by
  have hwf := hs.wf
  have hi : s.timeInterval_ ≠ 0 := ne_of_gt hwf.interval_pos
  cases hv : s.map_ key with
  | none => exact ⟨false, s, find_absent s key hv, find_absent s key hv⟩
  | some v =>
    by_cases ht : 0 < toInt v.timeout
    · obtain ⟨e, s1, hok, hsch⟩ := find_renew s key v hv ht hi hwf.queue_ne
      refine ⟨true, s1, hok, ?_⟩
      have hwf1 := hsch.sched_wf hwf (hwf.weak_key key v · hv)
      have hlen : s1.event_bucket_queue_.length = s.event_bucket_queue_.length := by
        rw [hsch.queue, length_pushAt]
      have halive : alive e s1.event_bucket_queue_ = true := by
        rw [hsch.queue]
        exact alive_pushAt e _ _ hsch.index_lt
      have herase := eraseAfter_live s1 (toInt v.timeout) key _ e hsch.entry rfl halive
        (ne_of_gt hwf1.interval_pos) hwf1.queue_ne
      have hsame : ({ s1 with
          event_bucket_queue_ := pushAt e
            (bucketIndexToPush (toInt v.timeout) s1.timeInterval_
              s1.event_bucket_queue_.length)
            s1.event_bucket_queue_ } : CacheMap K V) = s1 := by
        have hidx : bucketIndexToPush (toInt v.timeout) s1.timeInterval_
            s1.event_bucket_queue_.length =
            bucketIndexToPush (toInt v.timeout) s.timeInterval_
              s.event_bucket_queue_.length := by
          rw [hlen, hsch.interval]
        have h1 : pushAt e
            (bucketIndexToPush (toInt v.timeout) s.timeInterval_ s.event_bucket_queue_.length)
            s1.event_bucket_queue_ = s1.event_bucket_queue_ := by
          rw [hsch.queue, pushAt_idem]
        rw [hidx, h1]
      rw [hsame] at herase
      simp [CacheMap.find, hsch.entry, at_of_some s1 key _ hsch.entry, ht, herase]
    · exact ⟨true, s, find_idle s key v hv ht, find_idle s key v hv ht⟩

/-- A concrete instance of C20: `find 7` in the worked example after one firing of the
timer, where it moves the object of key 7 to bucket 3 again. -/
theorem find_twice_witness :
    ∃ b s1, (sample.after [.insert 7 1 2 (some 9), .tick]).find 7 = .ok (b, s1) ∧
      s1.find 7 = .ok (b, s1) :=
  find_twice (sample.after [.insert 7 1 2 (some 9), .tick])
    ⟨1, 5, [.insert 7 1 2 (some 9), .tick], by decide, by rfl⟩ 7

/-- C11: the renewal is lost for a stored timeout that does not fit `int`. In the worked
example key 7 is stored with timeout `2 ^ 31`, which `find` and `operator[]` read into an
`int` as `-2 ^ 31`; its object has moved to bucket 4. `find 7` and `operator[] 7` leave
the wheel as it is, while `insert` with the same timeout puts the object in bucket 5. -/
theorem renewal_lost_by_narrowing :
    (sampleWide.map_ 7).map (fun v => v.timeout) = some 2147483648 ∧
      toInt 2147483648 = -2147483648 ∧
      sampleWide.event_bucket_queue_ = [[], [], [], [], [{ id := 0, key := 7 }], []] ∧
      sampleWide.find 7 = .ok (true, sampleWide) ∧
      (sampleWide.after [.find 7]).event_bucket_queue_ =
        [[], [], [], [], [{ id := 0, key := 7 }], []] ∧
      (sampleWide.after [.operatorIndex 7]).event_bucket_queue_ =
        [[], [], [], [], [{ id := 0, key := 7 }], []] ∧
      (sampleWide.after [.insert 7 1 2147483648 (some 9)]).event_bucket_queue_ =
        [[], [], [], [], [{ id := 0, key := 7 }], [{ id := 0, key := 7 }]] :=
  ⟨by decide, by decide, by decide, rfl, by decide, by decide, by decide⟩

/-- Rescheduling with a live object, in every reachable state: let the entry `v` of
`key` point to an object `e` that some bucket holds. Then `insert key value t cb` with any
`t > 0` succeeds, allocates no object, leaves the entry pointing to `e` and puts `e` in
the bucket that `eraseAfter` computes; and when `e` is the only object of `key` in the
wheel and `h` is the position of the last bucket that holds it, then after that insert,
and with no further call that names `key`, the entry stays in the map for `max h i`
firings of the timer, `i` being the bucket of the insert, and is removed, its callback
invoked once, by the firing after that. Likewise `find` and `operator[]` allocate no
object, keep the entry and at most put `e` in one more bucket. -/
theorem horizon_of_only_object {K V : Type} [DecidableEq K] [Inhabited V] (s : CacheMap K V)
    (hs : Reachable s) (key : K) (v : MapValue K V) (e : CallbackEntry K)
    (hv : s.map_ key = some v) (hw : v._weakEntryPtr = some e)
    (halive : alive e s.event_bucket_queue_ = true) :
    (∀ (value : V) (t : Nat) (cb : Option Nat), 0 < t →
      ∃ s1, s.insert key value t cb = .ok s1 ∧ s1.allocated = s.allocated ∧
        s1.map_ key = some
          { timeout := t, value := value, _timeoutCallback := cb, _weakEntryPtr := some e } ∧
        s1.event_bucket_queue_ = pushAt e
          (bucketIndexToPush (toInt t) s.timeInterval_ s.event_bucket_queue_.length)
          s.event_bucket_queue_ ∧
        ∀ h, e ∈ bucketAt s.event_bucket_queue_ h → OnlyObject s key e h →
          ∀ ops : List (Op K V), Avoids key ops →
            ∃ s2, s1.run ops = .ok s2 ∧
              (tickCount ops ≤ max h
                  (bucketIndexToPush (toInt t) s.timeInterval_ s.event_bucket_queue_.length) →
                s2.map_ key = some
                  { timeout := t, value := value, _timeoutCallback := cb,
                    _weakEntryPtr := some e } ∧
                s2.invokedFor key = s.invokedFor key) ∧
              (max h
                  (bucketIndexToPush (toInt t) s.timeInterval_ s.event_bucket_queue_.length) <
                  tickCount ops →
                s2.map_ key = none ∧
                s2.invokedFor key = s.invokedFor key ++ callbackTrace key cb)) ∧
    (∃ b s1, s.find key = .ok (b, s1) ∧ s1.allocated = s.allocated ∧ s1.map_ key = some v ∧
      (s1.event_bucket_queue_ = s.event_bucket_queue_ ∨
        s1.event_bucket_queue_ = pushAt e
          (bucketIndexToPush (toInt v.timeout) s.timeInterval_ s.event_bucket_queue_.length)
          s.event_bucket_queue_)) ∧
    (∃ b s1, s.operatorIndex key = .ok (b, s1) ∧ s1.allocated = s.allocated ∧
      s1.map_ key = some v ∧
      (s1.event_bucket_queue_ = s.event_bucket_queue_ ∨
        s1.event_bucket_queue_ = pushAt e
          (bucketIndexToPush (toInt v.timeout) s.timeInterval_ s.event_bucket_queue_.length)
          s.event_bucket_queue_)) := by
  have hwf := hs.wf
  have hi : s.timeInterval_ ≠ 0 := ne_of_gt hwf.interval_pos
  refine ⟨?_, ?_, ?_⟩
  · intro value t cb ht
    obtain ⟨e1, s1, hok, hsch⟩ := insert_pos_spec s key value t cb ht hi hwf.queue_ne
    have hw0 : (s.at key)._weakEntryPtr = some e := by rw [at_of_some s key v hv]; exact hw
    obtain ⟨he, halloc⟩ := hsch.reuse hw0 halive
    subst he
    have hentry : s1.map_ key = some
        { timeout := t, value := value, _timeoutCallback := cb, _weakEntryPtr := some e1 } :=
      hsch.entry
    refine ⟨s1, hok, halloc, hentry, hsch.queue, ?_⟩
    intro h hhere honly ops ha
    have hz : Horizon key
        { timeout := t, value := value, _timeoutCallback := cb, _weakEntryPtr := some e1 } e1
        (max h (bucketIndexToPush (toInt t) s.timeInterval_ s.event_bucket_queue_.length))
        (s.invokedFor key) s1 := by
      refine ⟨hsch.sched_wf hwf (at_weak_key s hwf key), hentry, ht, rfl, ?_, ?_, ?_⟩
      · rw [hsch.queue, mem_bucketAt_pushAt _ _ _ _ _ hsch.index_lt]
        by_cases hle : h ≤ bucketIndexToPush (toInt t) s.timeInterval_
            s.event_bucket_queue_.length
        · rw [max_eq_right hle]
          exact Or.inr ⟨rfl, rfl⟩
        · rw [max_eq_left (by omega)]
          exact Or.inl hhere
      · intro i x hx hxk
        rw [hsch.queue, mem_bucketAt_pushAt _ _ _ _ _ hsch.index_lt] at hx
        rcases hx with hx | ⟨h1, h2⟩
        · have h3 := (onlyObject_iff s key e1 h).mp honly i x hx hxk
          exact ⟨h3.1, le_trans h3.2 (le_max_left _ _)⟩
        · exact ⟨h2, by rw [h1]; exact le_max_right _ _⟩
      · unfold CacheMap.invokedFor
        rw [hsch.invoked]
    exact hz.horizon_run ops ha
  · by_cases ht : 0 < toInt v.timeout
    · obtain ⟨e1, s1, hok, hsch⟩ := find_renew s key v hv ht hi hwf.queue_ne
      obtain ⟨he, halloc⟩ := hsch.reuse hw halive
      subst he
      exact ⟨true, s1, hok, halloc, by rw [hsch.entry, weak_update_self v e1 hw],
        Or.inr hsch.queue⟩
    · exact ⟨true, s, find_idle s key v hv ht, rfl, hv, Or.inl rfl⟩
  · by_cases ht : 0 < toInt v.timeout
    · obtain ⟨e1, s1, hok, hsch⟩ := operatorIndex_renew s key v hv ht hi hwf.queue_ne
      obtain ⟨he, halloc⟩ := hsch.reuse hw halive
      subst he
      exact ⟨v.value, s1, hok, halloc, by rw [hsch.entry, weak_update_self v e1 hw],
        Or.inr hsch.queue⟩
    · exact ⟨v.value, s.setEntry key v, operatorIndex_idle s key v hv ht, rfl,
        by simp [CacheMap.setEntry], Or.inl rfl⟩

/-- In the worked example key 7 is inserted with timeout 4 (bucket 5) and then with
timeout 1 (bucket 2), no other object of key 7 being in the wheel. The second insert
allocates nothing and the key stays for five firings of the timer and leaves with the
sixth. -/
theorem horizon_of_only_object_example :
    ∃ s1, sampleLong.insert 7 1 1 (some 8) = .ok s1 ∧ s1.allocated = sampleLong.allocated ∧
      s1.event_bucket_queue_ =
        pushAt { id := 0, key := 7 } 2 sampleLong.event_bucket_queue_ ∧
      (∃ s2, s1.run [.tick, .tick, .tick, .tick, .tick] = .ok s2 ∧
        s2.map_ 7 = some
          { timeout := 1, value := 1, _timeoutCallback := some 8,
            _weakEntryPtr := some { id := 0, key := 7 } } ∧
        s2.invokedFor 7 = sampleLong.invokedFor 7) ∧
      (∃ s2, s1.run [.tick, .tick, .tick, .tick, .tick, .tick] = .ok s2 ∧
        s2.map_ 7 = none ∧
        s2.invokedFor 7 = sampleLong.invokedFor 7 ++ callbackTrace 7 (some 8)) := by
  obtain ⟨s1, hok, halloc, _, hq, h⟩ :=
    (horizon_of_only_object sampleLong ⟨1, 5, [.insert 7 1 4 (some 9)], by decide, by rfl⟩ 7
      ⟨4, 1, some 9, some ⟨0, 7⟩⟩ ⟨0, 7⟩ rfl rfl (by decide)).1 1 1 (some 8) (by decide)
  have hrun := h 5 (by decide) (by decide)
  refine ⟨s1, hok, halloc, hq, ?_, ?_⟩
  · obtain ⟨s2, hr, h1, _⟩ := hrun [.tick, .tick, .tick, .tick, .tick] (by decide)
    exact ⟨s2, hr, h1 (by decide)⟩
  · obtain ⟨s2, hr, _, h2⟩ := hrun [.tick, .tick, .tick, .tick, .tick, .tick] (by decide)
    exact ⟨s2, hr, h2 (by decide)⟩

/-- C15: the latest horizon is lost to an object left from an erased entry. In the
worked example key 7 was inserted with timeout 5 and erased, the timer fired five times,
and key 7 was inserted again with timeout 5 and callback 8: its entry points to object 1,
which the last bucket holds, while object 0 of the erased entry sits in the front bucket.
`insert(7, 3, 1, callback 6)` right after reuses object 1 and allocates nothing, so
object 1 is in buckets 2 and 5 and its closure runs with the sixth firing of the timer.
Yet the first firing of the timer drops object 0, whose closure removes key 7 and invokes
callback 6, while object 1 is still in the wheel. -/
theorem latest_horizon_lost_to_stale_object :
    (sampleShadowed.map_ 7).map (fun v => (v.timeout, v._timeoutCallback, v._weakEntryPtr)) =
        some (5, some 8, some { id := 1, key := 7 }) ∧
      sampleShadowed.event_bucket_queue_ =
        [[{ id := 0, key := 7 }], [], [], [], [], [{ id := 1, key := 7 }]] ∧
      alive { id := 1, key := 7 } sampleShadowed.event_bucket_queue_ = true ∧
      sampleShadowed.allocated = 2 ∧
      sampleShadowed.invoked = [] ∧
      sampleShadowed.run [.insert 7 3 1 (some 6), .tick] =
        .ok (sampleShadowed.after [.insert 7 3 1 (some 6), .tick]) ∧
      (sampleShadowed.after [.insert 7 3 1 (some 6)]).allocated = 2 ∧
      ((sampleShadowed.after [.insert 7 3 1 (some 6)]).map_ 7).map
          (fun v => (v.timeout, v._timeoutCallback, v._weakEntryPtr)) =
        some (1, some 6, some { id := 1, key := 7 }) ∧
      (sampleShadowed.after [.insert 7 3 1 (some 6)]).event_bucket_queue_ =
        [[{ id := 0, key := 7 }], [], [{ id := 1, key := 7 }], [], [],
          [{ id := 1, key := 7 }]] ∧
      (sampleShadowed.after [.insert 7 3 1 (some 6), .tick]).event_bucket_queue_ =
        [[], [{ id := 1, key := 7 }], [], [], [{ id := 1, key := 7 }], []] ∧
      ((sampleShadowed.after [.insert 7 3 1 (some 6), .tick]).map_ 7).isNone = true ∧
      (sampleShadowed.after [.insert 7 3 1 (some 6), .tick]).invoked = [(7, 6)] :=
  ⟨by decide, by decide, by decide, by decide, by decide, rfl, by decide, by decide,
    by decide, by decide, by decide, by decide⟩

/-- C16: an object left from an erased entry removes a later entry too early. In the
worked example key 7 was inserted with timeout 5 and erased, the timer fired three times,
and key 7 was inserted again with timeout 5 and callback 8, which puts its new object in
bucket `min (5 / 1 + 1) 5 = 5`. The old object sits in bucket 2: the third firing of
the timer after the insert removes the new entry and invokes callback 8. -/
theorem stale_object_expires_early :
    (sampleStale.map_ 7).map (fun v => (v.timeout, v._timeoutCallback, v._weakEntryPtr)) =
        some (5, some 8, some { id := 1, key := 7 }) ∧
      sampleStale.event_bucket_queue_ =
        [[], [], [{ id := 0, key := 7 }], [], [], [{ id := 1, key := 7 }]] ∧
      specBucket 5 sampleStale.timeInterval_ sampleStale.event_bucket_queue_.length = 5 ∧
      sampleStale.invoked = [] ∧
      ((sampleStale.after [.tick, .tick]).map_ 7).isSome = true ∧
      sampleStale.run [.tick, .tick, .tick] = .ok (sampleStale.after [.tick, .tick, .tick]) ∧
      ((sampleStale.after [.tick, .tick, .tick]).map_ 7).isNone = true ∧
      (sampleStale.after [.tick, .tick, .tick]).invoked = [(7, 8)] :=
  ⟨by decide, by decide, by decide, by decide, by decide, rfl, by decide, by decide⟩

end claims

end drogon
